import Mathlib

/-!
# A verification development for the byte-symbol Huffman codec (`huffman.c`)

The C code is embedded shallowly:

* a `huffnode_t *` is a value of `huffnode`: `null` is the `NULL` pointer and
  `mk weight symbol left right` is a pointer to a pool node with these fields.
  Nodes are never modified once `huffnode_new` has filled them in, so a
  pointer can be identified with the node it points to; the pool counter
  `nodes` is kept in the context.
* byte buffers are lists of naturals below 256; the cursor of the bit stream
  routines (`unsigned char **bs`, `int *bit_pos`) is a byte index and a bit
  position that are passed in and returned.
* an access outside a modelled object has no defined value: the bit stream
  routines return `none` there, and so does every function that makes such an
  access. In particular `putbit` at a bit offset of 16 or more writes behind the
  two bytes of its `unsigned short` argument, so `huffnode_build_codes` and with
  it `huffman_rebuild` have no defined result on a tree that is more than 16
  deep.
* C leaves the evaluation order of the two `huffnode_pop` calls in
  `huffnode_new(huffm, 0, 0, huffnode_pop(huffm), huffnode_pop(huffm))`
  unspecified; the flag `lfirst` says whether the argument `l` is evaluated
  first, and every result holds for both orders.
-/

set_option autoImplicit false

namespace Huffman

/-! ## Data model -/

def HUFFMAN_TABLESIZE : Nat := 256

def HUFFMAN_POOLSIZE : Nat := 512

def USHRT_MAX : Nat := 65535

/-- A `huffnode_t *`: either `NULL` or a pool node with its four fields. -/
inductive huffnode where
  | null : huffnode
  | mk (weight : Nat) (symbol : Nat) (left right : huffnode) : huffnode
  deriving DecidableEq

namespace huffnode

/-- Test `!node`. -/
def isNull : huffnode → Bool
  | null => true
  | mk _ _ _ _ => false

/-- Field `node->weight` (0 for a pointer that cannot be followed). -/
def weight : huffnode → Nat
  | null => 0
  | mk w _ _ _ => w

/-- Field `node->symbol`. -/
def symbol : huffnode → Nat
  | null => 0
  | mk _ s _ _ => s

/-- Field `node->left`. -/
def left : huffnode → huffnode
  | null => null
  | mk _ _ l _ => l

/-- Field `node->right`. -/
def right : huffnode → huffnode
  | null => null
  | mk _ _ _ r => r

/-- The leaf test of the source: `node->symbol || (!node->left && !node->right)`. -/
def isLeaf (n : huffnode) : Bool :=
  n.symbol != 0 || (n.left.isNull && n.right.isNull)

end huffnode

/-- A `huffcode_t`: the bit length and the two bytes of the `unsigned short code`,
in memory order. -/
structure huffcode where
  bitlen : Nat
  code : List Nat
  deriving DecidableEq

/-- A `huffcontext_t`. The pool is implicit in the node values; `queue` holds the
256 slots of the priority queue, and `pq[i]` is `queue[i - 1]`. -/
structure huffcontext where
  codes : List huffcode
  queue : List huffnode
  nodes : Nat
  qend : Nat
  maxbits : Nat
  minbits : Nat
  deriving DecidableEq

/-- A `huffman_t`. -/
structure huffman where
  context : huffcontext
  table : List Nat
  deriving DecidableEq

/-- The context after `memset(&huffm->context, 0, sizeof(huffcontext_t))`. -/
def huffcontext.zero : huffcontext :=
  { codes := List.replicate HUFFMAN_TABLESIZE ⟨0, [0, 0]⟩
    queue := List.replicate HUFFMAN_TABLESIZE huffnode.null
    nodes := 0
    qend := 0
    maxbits := 0
    minbits := 0 }

/-- Read `pq[i]`, with `pq = queue - 1`. -/
def pqget (q : List huffnode) (i : Nat) : huffnode :=
  q.getD (i - 1) huffnode.null

/-- Write `pq[i] = n`, with `pq = queue - 1`. -/
def pqset (q : List huffnode) (i : Nat) (n : huffnode) : List huffnode :=
  q.set (i - 1) n

/-! ## Node pool and priority queue -/

/-- `huffnode_new`: takes the next pool slot and fills it in as a leaf when
`weight` is non-zero and as an internal node over `l` and `r` otherwise. -/
def huffnode_new (ctx : huffcontext) (weight symbol : Nat) (l r : huffnode) :
    huffcontext × huffnode :=
  let ctx1 := { ctx with nodes := ctx.nodes + 1 }
  if weight ≠ 0 then
    (ctx1, huffnode.mk weight symbol huffnode.null huffnode.null)
  else
    (ctx1, huffnode.mk (l.weight + r.weight) 0 l r)

/-- The `while` loop of `huffnode_push`; it returns the queue and the final `i`. -/
def huffnode_push_loop : Nat → List huffnode → huffnode → Nat → List huffnode × Nat
  | 0, q, _, i => (q, i)
  | fuel + 1, q, node, i =>
    let j := i / 2
    if j ≠ 0 ∧ (pqget q j).weight > node.weight then
      huffnode_push_loop fuel (pqset q i (pqget q j)) node j
    else
      (q, i)

/-- `huffnode_push`. -/
def huffnode_push (ctx : huffcontext) (node : huffnode) : huffcontext :=
  let i := ctx.qend
  let r := huffnode_push_loop i ctx.queue node i
  { ctx with qend := ctx.qend + 1, queue := pqset r.1 r.2 node }

/-- The `while` loop of `huffnode_pop`, with `qend` already decremented. -/
def huffnode_pop_loop : Nat → List huffnode → Nat → Nat → List huffnode × Nat
  | 0, q, _, i => (q, i)
  | fuel + 1, q, qend, i =>
    let l := i * 2
    if l < qend then
      let l1 := if l + 1 < qend ∧ (pqget q (l + 1)).weight < (pqget q l).weight
        then l + 1 else l
      if (pqget q qend).weight ≤ (pqget q l1).weight then
        (q, i)
      else
        huffnode_pop_loop fuel (pqset q i (pqget q l1)) qend l1
    else
      (q, i)

/-- `huffnode_pop`: the returned pointer is `null` on an empty queue. -/
def huffnode_pop (ctx : huffcontext) : huffcontext × huffnode :=
  let n := pqget ctx.queue 1
  if ctx.qend < 2 then
    (ctx, huffnode.null)
  else
    let qend := ctx.qend - 1
    let r := huffnode_pop_loop qend ctx.queue qend 1
    ({ ctx with qend := qend, queue := pqset r.1 r.2 (pqget r.1 qend) }, n)

/-! ## Bit stream -/

/-- `bitstream_writebit` on the buffer `buf` with cursor `(bs, bit_pos)`: the new
buffer and cursor, or `none` when the addressed byte lies outside `buf`. -/
def bitstream_writebit (buf : List Nat) (bs : Nat) (bit : Nat) (bit_pos : Nat) :
    Option (List Nat × Nat × Nat) :=
  let bit_offset := bit_pos &&& 7
  let byte_offset := (bit_pos - bit_offset) / 8
  let p := bs + byte_offset
  match buf[p]? with
  | none => none
  | some v =>
    let stamp := (((if bit ≠ 0 then 1 else 0) <<< (8 - 1)) % 256) >>> bit_offset
    let v1 := v &&& ((0x80 >>> bit_offset) ^^^ 0xFF)
    let v2 := (v1 ||| stamp) % 256
    let buf1 := buf.set p v2
    let bit_pos1 := bit_pos + 1
    if bit_pos1 ≥ 8 then some (buf1, bs + 1, bit_pos1 - 8) else some (buf1, bs, bit_pos1)

/-- `bitstream_readbit` on the buffer `buf` with cursor `(bs, bit_pos)`: the bit
and the new cursor, or `none` when the addressed byte lies outside `buf`. -/
def bitstream_readbit (buf : List Nat) (bs : Nat) (bit_pos : Nat) :
    Option (Nat × Nat × Nat) :=
  let bit_offset := bit_pos &&& 7
  let byte_offset := (bit_pos - bit_offset) / 8
  let p := bs + byte_offset
  match buf[p]? with
  | none => none
  | some v =>
    let val := ((v <<< bit_offset) % 256) >>> (8 - 1)
    let bit_pos1 := bit_pos + 1
    let r := if val = 1 then 1 else 0
    if bit_pos1 ≥ 8 then some (r, bs + 1, bit_pos1 - 8) else some (r, bs, bit_pos1)

/-- The macro `putbit(c, b, l)` on the two bytes of the `unsigned short` that `c`
names: `bitstream_writebit` at the bit offset `l` from its first byte. The result
is `none` for a bit offset of 16 or more, where the byte that is written lies
behind the two bytes of `c`. -/
def putbit (c : List Nat) (b l : Nat) : Option (List Nat) :=
  match bitstream_writebit c 0 b l with
  | some r => some r.1
  | none => none

/-! ## Codeword derivation and rebuild -/

/-- `huffnode_build_codes`. The arguments `code` and `bitlen` are `unsigned short`;
`bitlen + 1` is reduced modulo 65536 when it is passed on. The result is `none`
when a `putbit` on the way writes behind `code`, or when `node` is `NULL`. -/
def huffnode_build_codes : huffcontext → huffnode → List Nat → Nat → Option huffcontext
  | _, huffnode.null, _, _ => none
  | ctx, huffnode.mk _ s l r, code, bitlen =>
    if s ≠ 0 ∨ (l.isNull = true ∧ r.isNull = true) then
      some { ctx with
        codes := ctx.codes.set s ⟨bitlen, code⟩
        maxbits := max ctx.maxbits bitlen
        minbits := min ctx.minbits bitlen }
    else
      match putbit code 0 bitlen with
      | none => none
      | some code0 =>
        match huffnode_build_codes ctx l code0 ((bitlen + 1) % 65536) with
        | none => none
        | some ctx1 =>
          match putbit code0 1 bitlen with
          | none => none
          | some code1 => huffnode_build_codes ctx1 r code1 ((bitlen + 1) % 65536)

/-- One round of the first loop of `huffman_rebuild_all`: floor `table[i]`, make
the leaf for symbol `i` and push it. -/
def rebuild_leaf (huffm : huffman) (i : Nat) : huffman :=
  let table := if huffm.table.getD i 0 < 1 then huffm.table.set i 1 else huffm.table
  let r := huffnode_new huffm.context (table.getD i 0) (i % 256) huffnode.null huffnode.null
  { context := huffnode_push r.1 r.2, table := table }

/-- The second loop of `huffman_rebuild_all`: while more than one entry is queued,
pop two nodes, join them under a new internal node and push it. -/
def rebuild_merge : Nat → Bool → huffcontext → huffcontext
  | 0, _, ctx => ctx
  | fuel + 1, lfirst, ctx =>
    if ctx.qend > 2 then
      let p1 := huffnode_pop ctx
      let p2 := huffnode_pop p1.1
      let r := if lfirst then huffnode_new p2.1 0 0 p1.2 p2.2
        else huffnode_new p2.1 0 0 p2.2 p1.2
      rebuild_merge fuel lfirst (huffnode_push r.1 r.2)
    else
      ctx

/-- `huffman_rebuild_all`; the returned integer is the constant 0 of the source.
The result is `none` when `huffnode_build_codes` has no defined result. -/
def huffman_rebuild_all (lfirst : Bool) (huffm : huffman) : Option (Int × huffman) :=
  let ctx0 := { huffcontext.zero with qend := 1, maxbits := 0, minbits := 16 }
  let h1 := (List.range HUFFMAN_TABLESIZE).foldl rebuild_leaf { huffm with context := ctx0 }
  let ctx2 := rebuild_merge h1.context.qend lfirst h1.context
  match huffnode_build_codes ctx2 (pqget ctx2.queue 1) [0, 0] 0 with
  | none => none
  | some ctx3 => some (0, { h1 with context := ctx3 })

/-- `huffman_rebuild`: copy the table (or zero it for a `NULL` table) and rebuild. -/
def huffman_rebuild (lfirst : Bool) (huffm : huffman) (table : Option (List Nat)) :
    Option (Int × huffman) :=
  match table with
  | some t => huffman_rebuild_all lfirst { huffm with table := t }
  | none =>
    huffman_rebuild_all lfirst { huffm with table := List.replicate HUFFMAN_TABLESIZE 0 }

/-- The state of a handle whose memory has just been obtained; `huffman_rebuild`
overwrites all of it. -/
def huffman.fresh : huffman :=
  { context := huffcontext.zero, table := List.replicate HUFFMAN_TABLESIZE 0 }

/-- `huffman_create`, for an allocation that succeeded: `some none` is the return
of `NULL` after a rebuild that did not return 0, `some (some h)` the return of the
handle `h`, and `none` stands for a rebuild without a defined result. -/
def huffman_create (lfirst : Bool) (table : Option (List Nat)) : Option (Option huffman) :=
  match huffman_rebuild lfirst huffman.fresh table with
  | none => none
  | some r => if r.1 ≠ 0 then some none else some (some r.2)

/-! ## Frequency table -/

/-- The first loop of `huffman_table`: the table, the index `i` at which the loop
stopped (counted from the start of `data`) and the `overflow` flag. -/
def huffman_table_count : List Nat → List Nat → Nat → List Nat × Nat × Bool
  | table, [], i => (table, i, false)
  | table, d :: data, i =>
    if USHRT_MAX = table.getD d 0 then
      (table, i, true)
    else
      huffman_table_count (table.set d ((table.getD d 0 + 1) % 65536)) data (i + 1)

/-- The rollback loop of `huffman_table` over the first `i` bytes of `data`. -/
def huffman_table_rollback : List Nat → List Nat → Nat → List Nat
  | table, _, 0 => table
  | table, [], _ => table
  | table, d :: data, i + 1 =>
    huffman_table_rollback (table.set d ((table.getD d 0 + 65535) % 65536)) data i

/-- `huffman_table`; `len` is the length of `data`. -/
def huffman_table (table : List Nat) (data : List Nat) : List Nat :=
  let r := huffman_table_count table data 0
  if r.2.2 then huffman_table_rollback r.1 data r.2.1 else r.1

/-! ## Length estimates, encode and decode -/

/-- `huffman_enclen`. -/
def huffman_enclen (huffm : huffman) (bytelen : Int) : Int :=
  Int.tdiv (bytelen * huffm.context.maxbits) 8 + 1

/-- `huffman_declen`. -/
def huffman_declen (huffm : huffman) (bitlen : Int) : Int :=
  Int.tdiv bitlen huffm.context.minbits

/-- The inner loop of `huffman_encode` for one codeword: `k` bits remain to be
copied from `code` (cursor `rbs`, `roff`) to `out` (cursor `wbs`, `woff`). -/
def huffman_encode_bits : Nat → List Nat → Nat → Nat → List Nat → Nat → Nat → Int →
    Option (List Nat × Nat × Nat × Int)
  | 0, _, _, _, out, wbs, woff, bitlen => some (out, wbs, woff, bitlen)
  | k + 1, code, rbs, roff, out, wbs, woff, bitlen =>
    match bitstream_readbit code rbs roff with
    | none => none
    | some (b, rbs1, roff1) =>
      match bitstream_writebit out wbs b woff with
      | none => none
      | some (out1, wbs1, woff1) =>
        huffman_encode_bits k code rbs1 roff1 out1 wbs1 woff1 (bitlen + 1)

/-- The outer loop of `huffman_encode` over the input bytes. -/
def huffman_encode_loop (huffm : huffman) : List Nat → List Nat → Nat → Nat → Int →
    Option (Int × List Nat)
  | [], out, _, _, bitlen => some (bitlen, out)
  | p :: data, out, wbs, woff, bitlen =>
    let c := huffm.context.codes.getD p ⟨0, [0, 0]⟩
    if c.bitlen ≤ 0 then
      some (-1, out)
    else
      match huffman_encode_bits c.bitlen c.code 0 0 out wbs woff bitlen with
      | none => none
      | some (out1, wbs1, woff1, bitlen1) => huffman_encode_loop huffm data out1 wbs1 woff1 bitlen1

/-- `huffman_encode`: the returned integer and the output buffer, or `none` when a
bit is read from outside a codeword or written outside `outbuf`. -/
def huffman_encode (huffm : huffman) (outbuf : List Nat) (data : List Nat) :
    Option (Int × List Nat) :=
  huffman_encode_loop huffm data outbuf 0 0 0

/-- The loop of `huffman_decode`: `k` bits remain; `decode` collects the bytes
written to `decode[0]`, `decode[1]`, ... The result has the final node too. -/
def huffman_decode_loop (root : huffnode) : Nat → List Nat → Nat → Nat → huffnode →
    List Nat → Option (Option huffnode × List Nat)
  | 0, _, _, _, node, decode => some (some node, decode)
  | k + 1, data, bs, bs_off, node, decode =>
    match bitstream_readbit data bs bs_off with
    | none => none
    | some (b, bs1, bs_off1) =>
      let node1 := if b = 0 then node.left else node.right
      if node1.isNull then
        some (none, decode)
      else if node1.isLeaf then
        huffman_decode_loop root k data bs1 bs_off1 root (decode ++ [node1.symbol])
      else
        huffman_decode_loop root k data bs1 bs_off1 node1 decode

/-- `huffman_decode`: the returned integer and the bytes written to the output
buffer, or `none` when a bit is read from outside `data`. -/
def huffman_decode (huffm : huffman) (data : List Nat) (bitlen : Int) :
    Option (Int × List Nat) :=
  let root := pqget huffm.context.queue 1
  match huffman_decode_loop root bitlen.toNat data 0 0 root [] with
  | none => none
  | some (none, decode) => some (-1, decode)
  | some (some node, decode) =>
    if node ≠ root then some (-1, decode) else some (decode.length, decode)

/-! ## Auxiliary definitions: the codeword walk made total

The proofs about `huffnode_build_codes` go through a total variant of the walk, in
which a `putbit` that has no defined result leaves the codeword as it is. The two
agree wherever `huffnode_build_codes` is defined, that is on trees of depth at
most 16 (`build_codes_some`, `build_codes_none`). -/

/-- The codeword after `putbit`, or the codeword itself when `putbit` has no
defined result. -/
def putbit_drop (c : List Nat) (b l : Nat) : List Nat :=
  (putbit c b l).getD c

/-- The walk of `huffnode_build_codes` with `putbit_drop` in the place of `putbit`. -/
def build_codes_drop : huffcontext → huffnode → List Nat → Nat → huffcontext
  | ctx, huffnode.null, _, _ => ctx
  | ctx, huffnode.mk _ s l r, code, bitlen =>
    if s ≠ 0 ∨ (l.isNull = true ∧ r.isNull = true) then
      { ctx with
        codes := ctx.codes.set s ⟨bitlen, code⟩
        maxbits := max ctx.maxbits bitlen
        minbits := min ctx.minbits bitlen }
    else
      let code0 := putbit_drop code 0 bitlen
      let ctx1 := build_codes_drop ctx l code0 ((bitlen + 1) % 65536)
      let code1 := putbit_drop code0 1 bitlen
      build_codes_drop ctx1 r code1 ((bitlen + 1) % 65536)

/-- The steps of `huffman_rebuild_all` with `build_codes_drop` as the last one. -/
def rebuild_all_drop (lfirst : Bool) (huffm : huffman) : Int × huffman :=
  let ctx0 := { huffcontext.zero with qend := 1, maxbits := 0, minbits := 16 }
  let h1 := (List.range HUFFMAN_TABLESIZE).foldl rebuild_leaf { huffm with context := ctx0 }
  let ctx2 := rebuild_merge h1.context.qend lfirst h1.context
  let ctx3 := build_codes_drop ctx2 (pqget ctx2.queue 1) [0, 0] 0
  (0, { h1 with context := ctx3 })

/-- The steps of `huffman_rebuild` with `rebuild_all_drop` as the last one. -/
def rebuild_drop (lfirst : Bool) (huffm : huffman) (table : Option (List Nat)) :
    Int × huffman :=
  match table with
  | some t => rebuild_all_drop lfirst { huffm with table := t }
  | none =>
    rebuild_all_drop lfirst { huffm with table := List.replicate HUFFMAN_TABLESIZE 0 }

/-! ## Auxiliary definitions: frequency table -/

/-- One increment `table[d] += 1` of the counting loop. -/
def tinc (t : List Nat) (d : Nat) : List Nat := t.set d ((t.getD d 0 + 1) % 65536)

/-- One decrement `table[d] -= 1` of the rollback loop. -/
def tdec (t : List Nat) (d : Nat) : List Nat := t.set d ((t.getD d 0 + 65535) % 65536)

/-! ## Auxiliary definitions: Priority queue -/

/-- Weight of the entry `pq[i]`. -/
def pqw (q : List huffnode) (i : Nat) : Nat := (pqget q i).weight

/-- The min-heap property of `pq[1 .. qend - 1]` on weights. -/
def heapOK (q : List huffnode) (qend : Nat) : Prop :=
  ∀ i, 2 ≤ i → i < qend → pqw q (i / 2) ≤ pqw q i

/-- The entries `pq[1 .. qend - 1]` that are in the queue. -/
def live (q : List huffnode) (qend : Nat) : List huffnode := q.take (qend - 1)

/-- Sift-up invariant: `s` is a heap on `1 .. n` except possibly for the edge from
`i` to its parent. -/
def upInv (s : List huffnode) (n i : Nat) : Prop :=
  (∀ k, 2 ≤ k → k ≤ n → k ≠ i → pqw s (k / 2) ≤ pqw s k) ∧
  (∀ k, 2 ≤ k → k ≤ n → k / 2 = i → 2 ≤ i → pqw s (i / 2) ≤ pqw s k)

/-- Sift-down invariant: `s` is a heap on `1 .. n` except possibly for the edges
from `i` to its children. -/
def downInv (s : List huffnode) (n i : Nat) : Prop :=
  (∀ k, 2 ≤ k → k ≤ n → k / 2 ≠ i → pqw s (k / 2) ≤ pqw s k) ∧
  (∀ k, 2 ≤ k → k ≤ n → k / 2 = i → 2 ≤ i → pqw s (i / 2) ≤ pqw s k)

/-! ## Auxiliary definitions: Leaf loop and merge loop of huffman_rebuild_all -/

/-- A Huffman tree as a value: the shape of the nodes that `huffnode_new` links
together, with the weight and symbol of every leaf. -/
inductive htree where
  | leaf (weight symbol : Nat) : htree
  | node (left right : htree) : htree
  deriving DecidableEq

/-- The weight of a tree: the sum of the weights of its leaves. -/
def htree.weight : htree → Nat
  | leaf w _ => w
  | node l r => l.weight + r.weight

/-- The pool node, with everything below it, that stands for a tree. -/
def htree.toNode : htree → huffnode
  | leaf w s => huffnode.mk w s huffnode.null huffnode.null
  | node l r => huffnode.mk (l.weight + r.weight) 0 l.toNode r.toNode

/-- The floor rule of `huffman_rebuild_all` on one table entry. -/
def floorw (x : Nat) : Nat := if x < 1 then 1 else x

/-- One Huffman construction: `Huff lfirst F t` when `t` results from the forest
`F` by joining two trees of least weight, the first taken being the left child
when `lfirst` holds, until one tree is left. -/
inductive Huff (lfirst : Bool) : Multiset htree → htree → Prop
  | single (t : htree) : Huff lfirst {t} t
  | step (a b : htree) (F : Multiset htree) (t : htree) :
      (∀ x ∈ b ::ₘ F, a.weight ≤ x.weight) → (∀ x ∈ F, b.weight ≤ x.weight) →
      Huff lfirst ((if lfirst then htree.node a b else htree.node b a) ::ₘ F) t →
      Huff lfirst (a ::ₘ b ::ₘ F) t

/-- The context with its queue emptied that `huffman_rebuild_all` starts from. -/
def rebuild_ctx0 : huffcontext :=
  { huffcontext.zero with qend := 1, maxbits := 0, minbits := 16 }

/-- The forest of the 256 leaves with their floored weights. -/
def leafForest (T : List Nat) : Multiset htree :=
  ((List.range 256).map fun i => htree.leaf (floorw (T.getD i 0)) i)

/-! ## Auxiliary definitions: Bit stream -/

/-- Bit `j` of a buffer, counted from the most significant bit of byte 0. -/
def bufbit (buf : List Nat) (j : Nat) : Bool :=
  (buf.getD (j / 8) 0).testBit (7 - j % 8)

/-! ## Auxiliary definitions: Codeword derivation and rebuild -/

/-- The leaves of a tree from left to right: symbol, weight and the path from the
root (`false` for a step to the left child, `true` for a step to the right). -/
def htree.leaves : htree → List (Nat × Nat × List Bool)
  | leaf w s => [(s, w, [])]
  | node l r =>
    l.leaves.map (fun e => (e.1, e.2.1, false :: e.2.2)) ++
      r.leaves.map (fun e => (e.1, e.2.1, true :: e.2.2))

/-- The height of a tree. -/
def htree.height : htree → Nat
  | leaf _ _ => 0
  | node l r => max l.height r.height + 1

/-- The codeword buffer after the `putbit_drop` calls along a path that starts at
depth `d`. -/
def putpath : List Nat → Nat → List Bool → List Nat
  | code, _, [] => code
  | code, d, false :: p => putpath (putbit_drop code 0 d) (d + 1) p
  | code, d, true :: p => putpath (putbit_drop (putbit_drop code 0 d) 1 d) (d + 1) p

/-- The entries that `build_codes_drop` writes for the leaves of a tree, in
the order of the walk. -/
def htree.leafcodes : htree → List Nat → Nat → List (Nat × huffcode)
  | leaf _ s, code, bitlen => [(s, ⟨bitlen, code⟩)]
  | node l r, code, bitlen =>
    l.leafcodes (putbit_drop code 0 bitlen) ((bitlen + 1) % 65536) ++
      r.leafcodes (putbit_drop (putbit_drop code 0 bitlen) 1 bitlen) ((bitlen + 1) % 65536)

/-- What `build_codes_drop` does at one leaf. -/
def record (c : huffcontext) (e : Nat × huffcode) : huffcontext :=
  { c with
    codes := c.codes.set e.1 e.2
    maxbits := max c.maxbits e.2.bitlen
    minbits := min c.minbits e.2.bitlen }

/-- Symbol and weight of the leaves of a tree, from left to right. -/
def htree.sw (t : htree) : List (Nat × Nat) := t.leaves.map (fun e => (e.1, e.2.1))

/-- What holds of a handle `h` that a rebuild has filled in from the table
`T`, where `t` is the tree that it has built. -/
structure Rebuilt (lfirst : Bool) (T : List Nat) (h : huffman) (t : htree) : Prop where
  huff : Huff lfirst (leafForest T) t
  root : pqget h.context.queue 1 = t.toNode
  table : h.table = T.map floorw
  qend : h.context.qend = 2
  nodes : h.context.nodes = 511
  perm : t.sw.Perm ((List.range 256).map fun i => (i, floorw (T.getD i 0)))
  codes_length : h.context.codes.length = 256
  codes : ∀ e ∈ t.leaves,
    h.context.codes.getD e.1 ⟨0, [0, 0]⟩ = ⟨e.2.2.length, putpath [0, 0] 0 e.2.2⟩
  maxbits_ge : ∀ e ∈ t.leaves, e.2.2.length ≤ h.context.maxbits
  maxbits_mem : ∃ e ∈ t.leaves, h.context.maxbits = e.2.2.length
  minbits_le : ∀ e ∈ t.leaves, h.context.minbits ≤ e.2.2.length
  minbits_mem : h.context.minbits = 16 ∨ ∃ e ∈ t.leaves, h.context.minbits = e.2.2.length
  minbits_le16 : h.context.minbits ≤ 16

/-- A frequency table as `huffman_rebuild` receives it: 256 unsigned 16-bit counts. -/
def validTable (T : List Nat) : Prop := T.length = 256 ∧ ∀ x ∈ T, x ≤ 65535

/-- A byte sequence. -/
def validBytes (S : List Nat) : Prop := ∀ x ∈ S, x < 256

/-! ## Auxiliary definitions: Encode and decode -/

/-- The codeword of a table entry: the first `bitlen` bits of the stored pattern,
most significant bit first. -/
def codeword_bits (c : huffcode) : List Bool := (List.range c.bitlen).map (bufbit c.code)

/-- The table entry `codes[s]`. -/
def codeOf (h : huffman) (s : Nat) : huffcode := h.context.codes.getD s ⟨0, [0, 0]⟩

/-- The codewords of the bytes of `S`, one after the other. -/
def encbits (h : huffman) : List Nat → List Bool
  | [] => []
  | s :: S => codeword_bits (codeOf h s) ++ encbits h S

/-- The walk of `huffman_decode` over a list of bits: the node reached (`none`
after a step to an absent child) and the bytes written. -/
def walk (root : huffnode) : List Bool → huffnode → List Nat → Option huffnode × List Nat
  | [], node, out => (some node, out)
  | b :: bs, node, out =>
    if (if b then node.right else node.left).isNull then (none, out)
    else if (if b then node.right else node.left).isLeaf then
      walk root bs root (out ++ [(if b then node.right else node.left).symbol])
    else walk root bs (if b then node.right else node.left) out

/-- The `k` bits of a buffer from bit `r` on. -/
def readbits (data : List Nat) (r k : Nat) : List Bool :=
  (List.range k).map (fun i => bufbit data (r + i))

/-- Arriving at the subtree `v` during the walk: a leaf is written and the walk
goes back to the root, an inner node is where the walk goes on. -/
def arrive (root : huffnode) (v : htree) (B : List Bool) (out : List Nat) :
    Option huffnode × List Nat :=
  match v with
  | htree.leaf _ s => walk root B root (out ++ [s])
  | htree.node l r => walk root B (htree.node l r).toNode out

/-! ## Auxiliary definitions: Encode and decode: bounds, prefix property, truncated streams -/

/-- The macro `BITS2BYTES(b)` of the test driver: `(b >> 3) + !!(b & 7)`. -/
def BITS2BYTES (b : Int) : Int := (b >>> 3) + (if Int.land b 7 ≠ 0 then 1 else 0)

/-- Size of the structure below a pointer. -/
def huffnode.size : huffnode → Nat
  | huffnode.null => 0
  | huffnode.mk _ _ l r => l.size + r.size + 1

/-! ## Auxiliary definitions: Tables without ties: the construction as a list computation -/

/-- Insert a tree with its weight into a list sorted by strictly increasing weight;
`none` when a tree of the same weight is met. -/
def insertStrict (n : Nat × htree) : List (Nat × htree) → Option (List (Nat × htree))
  | [] => some [n]
  | x :: xs =>
    match Nat.blt x.1 n.1 with
    | true =>
      match insertStrict n xs with
      | some l => some (x :: l)
      | none => none
    | false =>
      match Nat.blt n.1 x.1 with
      | true => some (n :: x :: xs)
      | false => none

/-- The Huffman construction on a list of trees sorted by strictly increasing
weight: the two first trees are joined and the result is inserted again. The
result is `none` when two trees of equal weight are met. -/
def absHuff (lfirst : Bool) : Nat → List (Nat × htree) → Option htree
  | _, [] => none
  | _, [t] => some t.2
  | 0, _ :: _ :: _ => none
  | fuel + 1, a :: b :: rest =>
    match insertStrict
      (a.1 + b.1, if lfirst then htree.node a.2 b.2 else htree.node b.2 a.2) rest with
    | some l => absHuff lfirst fuel l
    | none => none

/-- Test for strictly increasing weights. -/
def strictW : List (Nat × htree) → Bool
  | [] => true
  | [_] => true
  | a :: b :: r => Nat.blt a.1 b.1 && strictW (b :: r)

/-- The leaves for the entries of a table, from symbol `i` on, with their weights. -/
def leafList : List Nat → Nat → List (Nat × htree)
  | [], _ => []
  | x :: xs, i => (floorw x, htree.leaf (floorw x) i) :: leafList xs (i + 1)

/-- The depth of the first leaf with symbol `s`. -/
def htree.depthOf : htree → Nat → Option Nat
  | leaf _ s1, s => if s1 = s then some 0 else none
  | node l r, s =>
    match l.depthOf s with
    | some d => some (d + 1)
    | none =>
      match r.depthOf s with
      | some d => some (d + 1)
      | none => none

/-! ## Auxiliary definitions: Two concrete tables -/

/-- A table with pairwise different counts whose construction meets no two trees
of equal weight: the counts 1000, 1001, ..., 1255. -/
def table_w : List Nat := (List.range 256).map (fun i => 1000 + i)

/-- A table of 16-bit counts whose first 22 entries grow like the Fibonacci numbers:
the leaves of these symbols end up very deep in the tree. -/
def table_deep : List Nat :=
  [1, 2, 4, 5, 8, 13, 21, 34, 55, 89, 144, 233, 377, 610, 987, 1597, 2584, 4181, 6765, 10946,
    17711, 28657] ++ (List.range 234).map (fun i => 30000 + i)

/-! ## Auxiliary definitions: Kraft sums and the exchange argument -/

/-- The Kraft sum of a multiset of code lengths. -/
def kraft (L : Multiset Nat) : ℚ := (L.map fun l => (1 / 2 : ℚ) ^ l).sum

/-- The weighted length of a multiset of pairs of an item and a code length. -/
def wcost {α : Type} (wt : α → Nat) (P : Multiset (α × Nat)) : Nat :=
  (P.map fun p => wt p.1 * p.2).sum

/-! ## Auxiliary definitions: Optimality of the Huffman construction -/

/-- The weighted depth of the leaves of a tree. -/
def htree.cost : htree → Nat
  | leaf _ _ => 0
  | node l r => l.cost + r.cost + l.weight + r.weight

/-! ## Auxiliary definitions: Where the rebuild is defined -/

/-- The handle that `huffman_rebuild` returns for `table_w` from a fresh state
(`table_w_handle`). -/
def handle_w : huffman := (rebuild_drop true huffman.fresh (some table_w)).2

/-- The table that a rebuild works on: the given one, or all zeros for a null
table. -/
def tableOf (table : Option (List Nat)) : List Nat :=
  match table with
  | some T => T
  | none => List.replicate 256 0

/-! ## Auxiliary definitions: The height of the tree and the sum of the counts -/

/-- The greater of the weights of the two children of a node, 0 for a leaf. -/
def htree.childw : htree → Nat
  | leaf _ _ => 0
  | node l r => max l.weight r.weight

/-- The sum of the 256 floored counts of a table. -/
def floorsum (T : List Nat) : Nat := ((List.range 256).map fun i => floorw (T.getD i 0)).sum

/-- A tree with leaves of weight at least 1 in which, at every node, neither child
weighs less than a child of the other child. -/
def htree.sibling : htree → Prop
  | leaf w _ => 1 ≤ w
  | node l r => l.sibling ∧ r.sibling ∧ l.childw ≤ r.weight ∧ r.childw ≤ l.weight

/-! ## Auxiliary definitions: Support lemmas for the properties of the interface -/

/-- The sum of the bit lengths of the codewords of the bytes of `S`. -/
def bitsum (h : huffman) (S : List Nat) : Nat := (S.map fun s => (codeOf h s).bitlen).sum

/-! ## Auxiliary definitions: Tabulation witnesses, truncated streams and the prefix property -/

/-- A table whose entry for byte 7 is one below the largest count. -/
def table_near : List Nat := (List.replicate 256 0).set 7 65534

/-! ## Auxiliary definitions: Codeword derivation and the bounds minbits, maxbits -/

/-- The node reached from `n` by the steps of `p`: `false` is a step to the left
child and `true` a step to the right child. -/
def huffnode.descend : huffnode → List Bool → huffnode
  | n, [] => n
  | n, b :: p => huffnode.descend (if b then n.right else n.left) p

/-- A pool node that is a leaf carrying the symbol `s`: it has no children. -/
def huffnode.isLeafOf (n : huffnode) (s : Nat) : Prop :=
  n.isNull = false ∧ n.left.isNull = true ∧ n.right.isNull = true ∧ n.symbol = s

/-! ## Auxiliary definitions: Heap correctness and bit stream I/O -/

/-- A queue of four slots that holds two leaves, of weights 1 and 2. -/
def ctx_two : huffcontext :=
  { huffcontext.zero with
    queue := [huffnode.mk 1 65 huffnode.null huffnode.null,
      huffnode.mk 2 66 huffnode.null huffnode.null, huffnode.null, huffnode.null]
    qend := 3 }

/-! ## Auxiliary definitions: Pool and queue capacity -/

/-- The handle after the first `k` rounds of the leaf loop of `huffman_rebuild_all`
on the table `T`. -/
def rebuild_leaves (T : List Nat) (k : Nat) : huffman :=
  (List.range k).foldl rebuild_leaf { context := rebuild_ctx0, table := T }

/-- The context after the first `j` rounds of the merge loop of
`huffman_rebuild_all` on the table `T`. -/
def rebuild_merged (lfirst : Bool) (T : List Nat) (j : Nat) : huffcontext :=
  rebuild_merge j lfirst (rebuild_leaves T 256).context

/-! ## Auxiliary definitions: Absent children in decode -/

/-- The bit sequences that are concatenations of paths from the root to a leaf. -/
def htree.isPaths (t : htree) (B : List Bool) : Prop :=
  ∃ ps : List (List Bool), (∀ p ∈ ps, ∃ e ∈ t.leaves, e.2.2 = p) ∧ ps.flatten = B

/-! ## Auxiliary definitions: Optimality, monotonicity and uniform tables -/

/-- A tree all of whose leaves lie at depth `d`. -/
def htree.perfect : htree → Nat → Prop
  | leaf _ _, d => d = 0
  | node l r, d => 1 ≤ d ∧ l.perfect (d - 1) ∧ r.perfect (d - 1)

/-- The bytes of the text `AAAAAABBBCC`. -/
def text_abc : List Nat := [65, 65, 65, 65, 65, 65, 66, 66, 66, 67, 67]

/-! ## Frequency table (`huffman_table`) -/

theorem getD_set_eq (t : List Nat) (d b v : Nat) :
    (t.set d v).getD b 0 = if d = b ∧ b < t.length then v else t.getD b 0 := by
  simp only [List.getD_eq_getElem?_getD, List.getElem?_set]
  by_cases h : d = b
  · subst h
    by_cases hl : d < t.length
    · simp [hl]
    · have : t[d]? = none := List.getElem?_eq_none (by omega)
      simp [hl, this]
  · simp [h]

theorem tinc_length (t : List Nat) (d : Nat) : (tinc t d).length = t.length := by
  simp [tinc]

theorem tdec_length (t : List Nat) (d : Nat) : (tdec t d).length = t.length := by
  simp [tdec]

theorem foldl_tinc_length (xs : List Nat) (t : List Nat) :
    (xs.foldl tinc t).length = t.length := by
  induction xs generalizing t with
  | nil => rfl
  | cons x xs ih => simp [ih, tinc_length]

theorem foldl_tdec_length (xs : List Nat) (t : List Nat) :
    (xs.foldl tdec t).length = t.length := by
  induction xs generalizing t with
  | nil => rfl
  | cons x xs ih => simp [ih, tdec_length]

theorem foldl_tinc_getD (xs : List Nat) (t : List Nat) (b : Nat) (hb : b < t.length) :
    (xs.foldl tinc t).getD b 0 % 65536 = (t.getD b 0 + xs.count b) % 65536 := by
  induction xs generalizing t with
  | nil => simp
  | cons x xs ih =>
    rw [List.foldl_cons, ih (tinc t x) (by rw [tinc_length]; exact hb)]
    unfold tinc
    rw [getD_set_eq, List.count_cons]
    by_cases h : x = b
    · subst h
      simp only [hb, and_self, if_true, beq_self_eq_true]
      omega
    · have h2 : (x == b) = false := by simpa using h
      have h3 : ¬ (x = b ∧ b < t.length) := fun hh => h hh.1
      simp only [h3, if_false, h2]
      simp


theorem foldl_tdec_getD (xs : List Nat) (t : List Nat) (b : Nat) (hb : b < t.length) :
    (xs.foldl tdec t).getD b 0 % 65536 = (t.getD b 0 + 65535 * xs.count b) % 65536 := by
  induction xs generalizing t with
  | nil => simp
  | cons x xs ih =>
    rw [List.foldl_cons, ih (tdec t x) (by rw [tdec_length]; exact hb)]
    unfold tdec
    rw [getD_set_eq, List.count_cons]
    by_cases h : x = b
    · subst h
      simp only [hb, and_self, if_true, beq_self_eq_true]
      omega
    · have h2 : (x == b) = false := by simpa using h
      have h3 : ¬ (x = b ∧ b < t.length) := fun hh => h hh.1
      simp only [h3, if_false, h2]
      simp

/-- Entries of a table stay 16-bit values under the counting loop. -/
theorem foldl_tinc_le (xs : List Nat) (t : List Nat) (ht : ∀ x ∈ t, x ≤ 65535) :
    ∀ x ∈ xs.foldl tinc t, x ≤ 65535 := by
  induction xs generalizing t with
  | nil => simpa using ht
  | cons x xs ih =>
    rw [List.foldl_cons]
    apply ih
    intro y hy
    unfold tinc at hy
    rcases List.mem_or_eq_of_mem_set hy with h | h
    · exact ht y h
    · subst h
      have := Nat.mod_lt (t.getD x 0 + 1) (show 65536 > 0 by norm_num)
      omega

theorem getD_le_of_forall (t : List Nat) (ht : ∀ x ∈ t, x ≤ 65535) (b : Nat) :
    t.getD b 0 ≤ 65535 := by
  rw [List.getD_eq_getElem?_getD]
  rcases h : t[b]? with _ | v
  · simp
  · simp only [Option.getD_some]
    exact ht v (List.getElem?_mem h)


theorem foldl_tdec_le (xs : List Nat) (t : List Nat) (ht : ∀ x ∈ t, x ≤ 65535) :
    ∀ x ∈ xs.foldl tdec t, x ≤ 65535 := by
  induction xs generalizing t with
  | nil => simpa using ht
  | cons x xs ih =>
    rw [List.foldl_cons]
    apply ih
    intro y hy
    unfold tdec at hy
    rcases List.mem_or_eq_of_mem_set hy with h | h
    · exact ht y h
    · have := Nat.mod_lt (t.getD x 0 + 65535) (show 65536 > 0 by norm_num)
      omega

theorem list_eq_of_getD (s t : List Nat) (hl : s.length = t.length)
    (h : ∀ b, b < t.length → s.getD b 0 = t.getD b 0) : s = t := by
  apply List.ext_getElem hl
  intro n h1 h2
  have := h n h2
  rwa [List.getD_eq_getElem _ _ h1, List.getD_eq_getElem _ _ h2] at this

/-- Decrementing once for every increment restores a table of 16-bit counts. -/
theorem foldl_tdec_tinc (xs : List Nat) (t : List Nat) (ht : ∀ x ∈ t, x ≤ 65535) :
    xs.foldl tdec (xs.foldl tinc t) = t := by
  apply list_eq_of_getD
  · rw [foldl_tdec_length, foldl_tinc_length]
  · intro b hb
    have h1 := foldl_tdec_getD xs (xs.foldl tinc t) b (by rw [foldl_tinc_length]; exact hb)
    have h2 := foldl_tinc_getD xs t b hb
    have h3 := getD_le_of_forall _ (foldl_tdec_le xs _ (foldl_tinc_le xs t ht)) b
    have h4 := getD_le_of_forall _ (foldl_tinc_le xs t ht) b
    have h5 := getD_le_of_forall _ ht b
    omega

theorem huffman_table_count_spec (data : List Nat) (t : List Nat) (i : Nat) :
    ∃ k, k ≤ data.length ∧
      (huffman_table_count t data i).1 = (data.take k).foldl tinc t ∧
      (huffman_table_count t data i).2.1 = i + k ∧
      ((huffman_table_count t data i).2.2 = true →
        k < data.length ∧ ((data.take k).foldl tinc t).getD (data.getD k 0) 0 = 65535) ∧
      ((huffman_table_count t data i).2.2 = false → k = data.length) ∧
      (∀ j, j < k → ((data.take j).foldl tinc t).getD (data.getD j 0) 0 ≠ 65535) := by
  induction data generalizing t i with
  | nil => exact ⟨0, by simp [huffman_table_count]⟩
  | cons d ds ih =>
    unfold huffman_table_count
    by_cases h : USHRT_MAX = t.getD d 0
    · refine ⟨0, ?_⟩
      simp only [h, if_true]
      simp [USHRT_MAX] at h
      simp [h]
    · obtain ⟨k, hk, h1, h2, h3, h4, h5⟩ := ih (tinc t d) (i + 1)
      refine ⟨k + 1, ?_⟩
      simp only [h, if_false]
      refine ⟨by simpa using hk, ?_, ?_, ?_, ?_, ?_⟩
      · simpa [tinc] using h1
      · rw [show (t.set d ((t.getD d 0 + 1) % 65536)) = tinc t d from rfl, h2]; omega
      · intro hf
        have := h3 hf
        simpa [tinc] using this
      · intro hf
        have := h4 hf
        simpa [tinc] using this
      · intro j hj
        cases j with
        | zero =>
          simp [USHRT_MAX] at h
          simpa using fun hh => h hh.symm
        | succ j =>
          have := h5 j (by omega)
          simpa [tinc] using this

theorem huffman_table_rollback_spec (data : List Nat) (t : List Nat) (k : Nat) :
    huffman_table_rollback t data k = (data.take k).foldl tdec t := by
  induction data generalizing t k with
  | nil => cases k <;> simp [huffman_table_rollback]
  | cons d ds ih =>
    cases k with
    | zero => simp [huffman_table_rollback]
    | succ k => simp [huffman_table_rollback, ih, tdec]


theorem count_take_lt_aux (data : List Nat) (k : Nat) (hk : k < data.length) (x : Nat)
    (hx : data[k] = x) : (data.take k).count x + 1 ≤ data.count x := by
  have h2 : data.drop k = data[k] :: data.drop (k + 1) := List.drop_eq_getElem_cons hk
  have h1 : data = data.take k ++ x :: data.drop (k + 1) := by
    rw [← hx, ← h2, List.take_append_drop]
  conv_rhs => rw [h1]
  rw [List.count_append, List.count_cons]
  simp

theorem count_take_lt (data : List Nat) (k : Nat) (hk : k < data.length) :
    (data.take k).count (data.getD k 0) + 1 ≤ data.count (data.getD k 0) :=
  count_take_lt_aux data k hk _ (List.getD_eq_getElem _ _ hk).symm

/-- Without overflow the call is the plain counting loop over all of `data`. -/
theorem huffman_table_no_overflow (t data : List Nat)
    (hno : ∀ b, b < t.length → t.getD b 0 + data.count b ≤ 65535) :
    huffman_table t data = data.foldl tinc t := by
  obtain ⟨k, hk, h1, _, h3, h4, _⟩ := huffman_table_count_spec data t 0
  have hflag : (huffman_table_count t data 0).2.2 = false := by
    by_contra hf
    have hf2 : (huffman_table_count t data 0).2.2 = true := by simpa using hf
    obtain ⟨hlt, hval⟩ := h3 hf2
    by_cases hd : data.getD k 0 < t.length
    · have e1 := foldl_tinc_getD (data.take k) t _ hd
      have e2 := count_take_lt data k hlt
      have e3 := hno _ hd
      rw [hval] at e1
      omega
    · have hn : ((data.take k).foldl tinc t)[data.getD k 0]? = none :=
        List.getElem?_eq_none (by rw [foldl_tinc_length]; omega)
      rw [List.getD_eq_getElem?_getD, hn] at hval
      simp at hval
  have hk2 := h4 hflag
  unfold huffman_table
  simp only [hflag, h1, hk2, List.take_length]
  simp

theorem huffman_table_no_overflow_getD (t data : List Nat) (ht : ∀ x ∈ t, x ≤ 65535)
    (hno : ∀ b, b < t.length → t.getD b 0 + data.count b ≤ 65535) (b : Nat)
    (hb : b < t.length) :
    (huffman_table t data).getD b 0 = t.getD b 0 + data.count b := by
  rw [huffman_table_no_overflow t data hno]
  have h1 := foldl_tinc_getD data t b hb
  have h2 := getD_le_of_forall _ (foldl_tinc_le data t ht) b
  have h3 := hno b hb
  omega


/-- C5. Tabulation overflow rollback: when some byte of `data` is met while its
count already is 65535, `huffman_table` returns the table it was given. -/
theorem huffman_table_overflow_rollback (table data : List Nat)
    (hlen : table.length = 256) (hT : ∀ x ∈ table, x ≤ 65535) (hD : ∀ d ∈ data, d < 256)
    (hov : ∃ k, k < data.length ∧
      table.getD (data.getD k 0) 0 + (data.take k).count (data.getD k 0) = 65535) :
    huffman_table table data = table := by
  obtain ⟨k, hk, h1, h2, h3, h4, h5⟩ := huffman_table_count_spec data table 0
  have hflag : (huffman_table_count table data 0).2.2 = true := by
    by_contra hf
    have hf2 : (huffman_table_count table data 0).2.2 = false := by simpa using hf
    have hk2 := h4 hf2
    obtain ⟨j, hj, hsum⟩ := hov
    have hd : data.getD j 0 < table.length := by
      rw [hlen, List.getD_eq_getElem _ _ hj]
      exact hD _ (List.getElem_mem _)
    have e1 := foldl_tinc_getD (data.take j) table _ hd
    have e2 := getD_le_of_forall _ (foldl_tinc_le (data.take j) table hT) (data.getD j 0)
    have e3 := h5 j (by omega)
    omega
  unfold huffman_table
  simp only [hflag, if_true, h1, h2, huffman_table_rollback_spec, Nat.zero_add]
  exact foldl_tdec_tinc _ table hT

/-- C6. Tabulation counts: without overflow every entry grows by the number of
occurrences of its byte, and tabulating `d1` and then `d2` is tabulating `d1 ++ d2`. -/
theorem huffman_table_counts (table data d1 d2 : List Nat)
    (hlen : table.length = 256) (hT : ∀ x ∈ table, x ≤ 65535)
    (hno : ∀ b, b < 256 → table.getD b 0 + data.count b ≤ 65535) :
    (∀ b, b < 256 → (huffman_table table data).getD b 0 = table.getD b 0 + data.count b) ∧
    ((∀ b, b < 256 → table.getD b 0 + (d1 ++ d2).count b ≤ 65535) →
      huffman_table (huffman_table table d1) d2 = huffman_table table (d1 ++ d2)) := by
  constructor
  · intro b hb
    exact huffman_table_no_overflow_getD table data hT (by rw [hlen]; exact hno) b
      (by rw [hlen]; exact hb)
  · intro h12
    have hA : ∀ b, b < table.length → table.getD b 0 + d1.count b ≤ 65535 := by
      intro b hb
      have := h12 b (by rw [← hlen]; exact hb)
      rw [List.count_append] at this
      omega
    rw [huffman_table_no_overflow table (d1 ++ d2) (by rw [hlen]; exact h12),
      huffman_table_no_overflow table d1 hA, List.foldl_append]
    apply huffman_table_no_overflow _ d2
    intro b hb
    rw [foldl_tinc_length] at hb
    have e1 := foldl_tinc_getD d1 table b hb
    have e2 := getD_le_of_forall _ (foldl_tinc_le d1 table hT) b
    have e3 := h12 b (by rw [← hlen]; exact hb)
    rw [List.count_append] at e3
    omega

/-! ## Priority queue -/

theorem pqset_length (q : List huffnode) (i : Nat) (v : huffnode) :
    (pqset q i v).length = q.length := by
  simp [pqset]

theorem pqget_pqset (q : List huffnode) (i k : Nat) (v : huffnode) (hi : 1 ≤ i)
    (hk : 1 ≤ k) (hl : i ≤ q.length) :
    pqget (pqset q i v) k = if k = i then v else pqget q k := by
  unfold pqget pqset
  rw [List.getD_eq_getElem?_getD, List.getElem?_set]
  by_cases h : k = i
  · subst h
    simp [show k - 1 < q.length by omega]
  · have h2 : ¬ (i - 1 = k - 1) := by omega
    simp [h, h2]

theorem pqget_eq_getElem (q : List huffnode) (k : Nat) (hk : 1 ≤ k) (hl : k ≤ q.length) :
    pqget q k = q[k - 1] := by
  unfold pqget
  rw [List.getD_eq_getElem]

theorem pqset_pqset (q : List huffnode) (i : Nat) (v w : huffnode) :
    pqset (pqset q i v) i w = pqset q i w := by
  simp [pqset]

theorem pqset_comm (q : List huffnode) (i j : Nat) (v w : huffnode) (hi : 1 ≤ i)
    (hj : 1 ≤ j) (h : i ≠ j) : pqset (pqset q i v) j w = pqset (pqset q j w) i v := by
  unfold pqset
  exact List.set_comm _ _ _ (by omega)

/-- Exchanging two entries of a list gives a permutation of it. -/
theorem set_swap_perm (l : List huffnode) (a b : Nat) (ha : a < l.length) (hb : b < l.length) :
    ((l.set a l[b]).set b l[a]).Perm l := by
  rw [List.perm_iff_count]
  intro x
  have hb2 : b < (l.set a l[b]).length := by simpa using hb
  rw [List.count_set _ _ _ _ hb2, List.count_set _ _ _ _ ha]
  have e1 : (l.set a l[b])[b] = l[b] := by
    rw [List.getElem_set]
    split <;> rfl
  rw [e1]
  have h1 : (if l[a] == x then 1 else 0) ≤ l.count x := by
    split
    · rename_i h
      have : l[a] = x := by simpa using h
      rw [← this]
      exact List.count_pos_iff.mpr (List.getElem_mem _)
    · omega
  omega

/-- Exchanging `pq[i]` and `pq[j]` permutes the first `n` entries. -/
theorem take_swap_perm (q : List huffnode) (n i j : Nat) (hi : 1 ≤ i) (hin : i ≤ n)
    (hj : 1 ≤ j) (hjn : j ≤ n) (hn : n ≤ q.length) :
    ((pqset (pqset q i (pqget q j)) j (pqget q i)).take n).Perm (q.take n) := by
  unfold pqset
  rw [List.set_take, List.set_take]
  have hli : i - 1 < (q.take n).length := by rw [List.length_take]; omega
  have hlj : j - 1 < (q.take n).length := by rw [List.length_take]; omega
  have e1 : pqget q j = (q.take n)[j - 1] := by
    rw [pqget_eq_getElem q j hj (by omega), List.getElem_take]
  have e2 : pqget q i = (q.take n)[i - 1] := by
    rw [pqget_eq_getElem q i hi (by omega), List.getElem_take]
  rw [e1, e2]
  exact set_swap_perm _ _ _ hli hlj

/-- One exchange of the sift-up on weight functions: `f` is the heap with the new
node at `i`, `g` the heap after it has changed places with its parent. -/
theorem upinv_step (f g : Nat → Nat) (n i : Nat) (hi2 : 2 ≤ i) (hin : i ≤ n)
    (hsw : ∀ k, 1 ≤ k → g k = if k = i / 2 then f i else if k = i then f (i / 2) else f k)
    (hlt : f i < f (i / 2))
    (hedge : ∀ k, 2 ≤ k → k ≤ n → k ≠ i → f (k / 2) ≤ f k)
    (hgrand : ∀ k, 2 ≤ k → k ≤ n → k / 2 = i → 2 ≤ i → f (i / 2) ≤ f k) :
    (∀ k, 2 ≤ k → k ≤ n → k ≠ i / 2 → g (k / 2) ≤ g k) ∧
    (∀ k, 2 ≤ k → k ≤ n → k / 2 = i / 2 → 2 ≤ i / 2 → g (i / 2 / 2) ≤ g k) := by
  have hne : ¬ (i = i / 2) := by omega
  constructor
  · intro k hk2 hkn hkj
    rw [hsw k (by omega), hsw (k / 2) (by omega)]
    by_cases h1 : k = i
    · subst h1
      simp only [hkj, if_false, if_true]
      omega
    · by_cases h2 : k / 2 = i / 2
      · simp only [hkj, h1, h2, if_false, if_true]
        have := hedge k hk2 hkn h1
        rw [h2] at this
        omega
      · by_cases h3 : k / 2 = i
        · simp only [hkj, h1, h2, h3, hne, if_false, if_true]
          exact hgrand k hk2 hkn h3 hi2
        · simp only [hkj, h1, h2, h3, if_false]
          exact hedge k hk2 hkn h1
  · intro k hk2 hkn hkj hj2
    rw [hsw k (by omega), hsw (i / 2 / 2) (by omega)]
    have e1 : ¬ (i / 2 / 2 = i / 2) := by omega
    have e2 : ¬ (i / 2 / 2 = i) := by omega
    have e3 : ¬ (k = i / 2) := by omega
    have hj := hedge (i / 2) hj2 (by omega) (by omega)
    by_cases h1 : k = i
    · simp only [e1, e2, e3, h1, hne, if_false, if_true]
      exact hj
    · simp only [e1, e2, e3, h1, if_false]
      have := hedge k hk2 hkn h1
      rw [hkj] at this
      omega

theorem huffnode_push_loop_spec (node : huffnode) (n : Nat) :
    ∀ (fuel : Nat) (q : List huffnode) (i : Nat), i ≤ fuel → 1 ≤ i → i ≤ n → n ≤ q.length →
      upInv (pqset q i node) n i →
      (huffnode_push_loop fuel q node i).1.length = q.length ∧
      1 ≤ (huffnode_push_loop fuel q node i).2 ∧
      (huffnode_push_loop fuel q node i).2 ≤ n ∧
      heapOK (pqset (huffnode_push_loop fuel q node i).1
        (huffnode_push_loop fuel q node i).2 node) (n + 1) ∧
      ((pqset (huffnode_push_loop fuel q node i).1
        (huffnode_push_loop fuel q node i).2 node).take n).Perm ((pqset q i node).take n) := by
  intro fuel
  induction fuel with
  | zero => intro q i h1 h2; omega
  | succ fuel ih =>
    intro q i hf hi hin hn hinv
    unfold huffnode_push_loop
    by_cases hc : i / 2 ≠ 0 ∧ (pqget q (i / 2)).weight > node.weight
    · rw [if_pos hc]
      obtain ⟨hj0, hgt⟩ := hc
      have hi2 : 2 ≤ i := by omega
      have hsw : ∀ k, 1 ≤ k → pqw (pqset (pqset q i (pqget q (i / 2))) (i / 2) node) k =
          if k = i / 2 then pqw (pqset q i node) i
          else if k = i then pqw (pqset q i node) (i / 2) else pqw (pqset q i node) k := by
        intro k hk
        unfold pqw
        rw [pqget_pqset _ _ _ _ (by omega) hk (by rw [pqset_length]; omega),
          pqget_pqset _ _ _ _ hi hk (by omega),
          pqget_pqset _ _ _ _ hi hi (by omega),
          pqget_pqset _ _ _ _ hi (show 1 ≤ i / 2 by omega) (by omega),
          pqget_pqset _ _ _ _ hi hk (by omega)]
        have : ¬ (i / 2 = i) := by omega
        have hne : ¬ (i = i / 2) := by omega
        by_cases h1 : k = i / 2
        · simp [h1]
        · by_cases h2 : k = i
          · simp [h2, this, hne]
          · simp [h1, h2]
      have hlt : pqw (pqset q i node) i < pqw (pqset q i node) (i / 2) := by
        unfold pqw
        rw [pqget_pqset _ _ _ _ hi hi (by omega),
          pqget_pqset _ _ _ _ hi (show 1 ≤ i / 2 by omega) (by omega)]
        have : ¬ (i / 2 = i) := by omega
        simp only [this, if_false, if_true]
        exact hgt
      have hstep := upinv_step _ _ n i hi2 hin hsw hlt hinv.1 hinv.2
      have := ih (pqset q i (pqget q (i / 2))) (i / 2) (by omega) (by omega) (by omega)
        (by rw [pqset_length]; exact hn) hstep
      rw [pqset_length] at this
      refine ⟨this.1, this.2.1, this.2.2.1, this.2.2.2.1, this.2.2.2.2.trans ?_⟩
      have hp := take_swap_perm (pqset q i node) n i (i / 2) hi hin (by omega) (by omega)
        (by rw [pqset_length]; exact hn)
      rw [pqget_pqset _ _ _ _ hi hi (by omega),
        pqget_pqset _ _ _ _ hi (show 1 ≤ i / 2 by omega) (by omega), pqset_pqset] at hp
      have : ¬ (i / 2 = i) := by omega
      simpa [this] using hp
    · rw [if_neg hc]
      dsimp only
      refine ⟨rfl, hi, hin, ?_, List.Perm.refl _⟩
      intro k hk2 hkn
      by_cases hki : k = i
      · subst hki
        unfold pqw
        rw [pqget_pqset _ _ _ _ hi hi (by omega),
          pqget_pqset _ _ _ _ hi (show 1 ≤ k / 2 by omega) (by omega)]
        have : ¬ (k / 2 = k) := by omega
        simp only [this, if_false, if_true]
        have h0 : k / 2 ≠ 0 := by omega
        simp only [h0, ne_eq, not_false_eq_true, true_and, not_lt] at hc
        exact hc
      · exact hinv.1 k hk2 (by omega) hki

theorem take_pqset_last (q : List huffnode) (n : Nat) (node : huffnode) (h1 : 1 ≤ n)
    (h2 : n ≤ q.length) : (pqset q n node).take n = q.take (n - 1) ++ [node] := by
  unfold pqset
  obtain ⟨m, rfl⟩ : ∃ m, n = m + 1 := ⟨n - 1, by omega⟩
  simp only [Nat.add_sub_cancel]
  have h3 : m < q.length := by omega
  rw [List.take_succ, List.set_take, List.set_eq_of_length_le (by simp)]
  simp [h3]

/-- `huffnode_push` on a heap with a free slot: the result is a heap that holds
the old entries and the new node. -/
theorem huffnode_push_spec (ctx : huffcontext) (node : huffnode) (h1 : 1 ≤ ctx.qend)
    (h2 : ctx.qend ≤ ctx.queue.length) (hh : heapOK ctx.queue ctx.qend) :
    (huffnode_push ctx node).qend = ctx.qend + 1 ∧
    (huffnode_push ctx node).queue.length = ctx.queue.length ∧
    heapOK (huffnode_push ctx node).queue (ctx.qend + 1) ∧
    (live (huffnode_push ctx node).queue (ctx.qend + 1)).Perm
      (node :: live ctx.queue ctx.qend) := by
  have hinv : upInv (pqset ctx.queue ctx.qend node) ctx.qend ctx.qend := by
    constructor
    · intro k hk2 hkn hne
      unfold pqw
      rw [pqget_pqset _ _ _ _ h1 (by omega) h2, pqget_pqset _ _ _ _ h1 (by omega) h2]
      have e1 : ¬ (k / 2 = ctx.qend) := by omega
      simp only [e1, hne, if_false]
      exact hh k hk2 (by omega)
    · intro k hk2 hkn hk; omega
  have hs := huffnode_push_loop_spec node ctx.qend ctx.qend ctx.queue ctx.qend (le_refl _) h1
    (le_refl _) h2 hinv
  unfold huffnode_push
  dsimp only
  refine ⟨rfl, ?_, hs.2.2.2.1, ?_⟩
  · rw [pqset_length]; exact hs.1
  · unfold live
    rw [Nat.add_sub_cancel]
    refine hs.2.2.2.2.trans ?_
    rw [take_pqset_last _ _ _ h1 h2]
    exact List.perm_append_comm

theorem huffnode_push_fields (ctx : huffcontext) (node : huffnode) :
    (huffnode_push ctx node).codes = ctx.codes ∧ (huffnode_push ctx node).nodes = ctx.nodes ∧
    (huffnode_push ctx node).maxbits = ctx.maxbits ∧
    (huffnode_push ctx node).minbits = ctx.minbits := by
  unfold huffnode_push
  exact ⟨rfl, rfl, rfl, rfl⟩

/-- One exchange of the sift-down on weight functions: `f` is the heap with the
moved node at `i`, `g` the heap after it has changed places with its child `c`. -/
theorem downinv_step (f g : Nat → Nat) (n i c : Nat) (hi : 1 ≤ i) (hc : c / 2 = i)
    (hcn : c ≤ n)
    (hsw : ∀ k, 1 ≤ k → g k = if k = c then f i else if k = i then f c else f k)
    (hlt : f c < f i)
    (hsib : ∀ k, 2 ≤ k → k ≤ n → k / 2 = i → f c ≤ f k)
    (hedge : ∀ k, 2 ≤ k → k ≤ n → k / 2 ≠ i → f (k / 2) ≤ f k)
    (hgrand : ∀ k, 2 ≤ k → k ≤ n → k / 2 = i → 2 ≤ i → f (i / 2) ≤ f k) :
    (∀ k, 2 ≤ k → k ≤ n → k / 2 ≠ c → g (k / 2) ≤ g k) ∧
    (∀ k, 2 ≤ k → k ≤ n → k / 2 = c → 2 ≤ c → g (c / 2) ≤ g k) := by
  have hic : ¬ (i = c) := by omega
  have gi : g i = f c := by rw [hsw i hi]; simp [hic]
  have gc : g c = f i := by rw [hsw c (by omega)]; simp
  have go : ∀ k, 1 ≤ k → k ≠ i → k ≠ c → g k = f k := by
    intro k hk h1 h2; rw [hsw k hk]; simp [h1, h2]
  constructor
  · intro k hk2 hkn hkc
    by_cases h1 : k / 2 = i
    · by_cases h2 : k = c
      · subst h2
        rw [h1, gi, gc]; omega
      · rw [h1, gi, go k (by omega) (by omega) h2]
        exact hsib k hk2 hkn h1
    · have e1 : ¬ (k = c) := by
        intro h; rw [h] at h1; exact h1 hc
      by_cases h2 : k = i
      · subst h2
        rw [gi, go (k / 2) (by omega) h1 hkc]
        exact hgrand c (by omega) hcn hc (by omega)
      · rw [go k (by omega) h2 e1, go (k / 2) (by omega) h1 hkc]
        exact hedge k hk2 hkn h1
  · intro k hk2 hkn hkc _
    rw [hc, gi, go k (by omega) (by omega) (by omega)]
    have := hedge k hk2 hkn (by omega)
    rw [hkc] at this
    exact this

theorem huffnode_pop_loop_spec (x : huffnode) (m : Nat) :
    ∀ (fuel : Nat) (q : List huffnode) (i : Nat), m ≤ fuel + i → 1 ≤ i → i ≤ m →
      m ≤ q.length → pqget q m = x → downInv (pqset q i x) (m - 1) i →
      (huffnode_pop_loop fuel q m i).1.length = q.length ∧
      pqget (huffnode_pop_loop fuel q m i).1 m = x ∧
      heapOK (pqset (huffnode_pop_loop fuel q m i).1 (huffnode_pop_loop fuel q m i).2 x) m ∧
      ((pqset (huffnode_pop_loop fuel q m i).1
        (huffnode_pop_loop fuel q m i).2 x).take (m - 1)).Perm
        ((pqset q i x).take (m - 1)) := by
  intro fuel
  induction fuel with
  | zero =>
    intro q i hf hi him hm hx hinv
    unfold huffnode_pop_loop
    refine ⟨rfl, hx, ?_, List.Perm.refl _⟩
    intro k hk2 hkm
    exact hinv.1 k hk2 (by omega) (by omega)
  | succ fuel ih =>
    intro q i hf hi him hm hx hinv
    unfold huffnode_pop_loop
    dsimp only
    by_cases hl : i * 2 < m
    · rw [if_pos hl]
      generalize hc : (if i * 2 + 1 < m ∧
        (pqget q (i * 2 + 1)).weight < (pqget q (i * 2)).weight then i * 2 + 1 else i * 2) = c
      have hc1 : c / 2 = i := by
        rw [← hc]; split <;> omega
      have hc2 : c < m := by
        rw [← hc]; split
        · rename_i h; exact h.1
        · exact hl
      have hc3 : 2 ≤ c := by omega
      -- the chosen child is a smallest child
      have hS : ∀ k, 1 ≤ k → k ≠ i → pqw (pqset q i x) k = pqw q k := by
        intro k hk hne
        unfold pqw
        rw [pqget_pqset _ _ _ _ hi hk (by omega)]
        simp [hne]
      have hSi : pqw (pqset q i x) i = x.weight := by
        unfold pqw
        rw [pqget_pqset _ _ _ _ hi hi (by omega)]
        simp
      have hsib : ∀ k, 2 ≤ k → k ≤ m - 1 → k / 2 = i → pqw q c ≤ pqw q k := by
        intro k hk2 hkm hki
        have hk : k = i * 2 ∨ k = i * 2 + 1 := by omega
        rw [← hc]
        unfold pqw
        split
        · rename_i h
          rcases hk with hk | hk
          · rw [hk]; omega
          · rw [hk]
        · rename_i h
          rcases hk with hk | hk
          · rw [hk]
          · rw [hk]
            have : i * 2 + 1 < m := by omega
            simp only [this, true_and, not_lt] at h
            exact h
      by_cases hstop : (pqget q m).weight ≤ (pqget q c).weight
      · rw [if_pos hstop]
        refine ⟨rfl, hx, ?_, List.Perm.refl _⟩
        intro k hk2 hkm
        by_cases hki : k / 2 = i
        · rw [hki, hSi, hS k (by omega) (by omega)]
          have := hsib k hk2 (by omega) hki
          rw [hx] at hstop
          unfold pqw at this ⊢
          omega
        · exact hinv.1 k hk2 (by omega) hki
      · rw [if_neg hstop]
        have hsw : ∀ k, 1 ≤ k → pqw (pqset (pqset q i (pqget q c)) c x) k =
            if k = c then pqw (pqset q i x) i
            else if k = i then pqw (pqset q i x) c else pqw (pqset q i x) k := by
          intro k hk
          by_cases h1 : k = c
          · rw [if_pos h1, hSi, h1]
            unfold pqw
            rw [pqget_pqset _ _ _ _ (by omega) (by omega) (by rw [pqset_length]; omega)]
            simp
          · rw [if_neg h1]
            by_cases h2 : k = i
            · rw [if_pos h2, hS c (by omega) (by omega), h2]
              unfold pqw
              rw [pqget_pqset _ _ _ _ (by omega) (by omega) (by rw [pqset_length]; omega),
                pqget_pqset _ _ _ _ hi hi (by omega)]
              have : ¬ (i = c) := by omega
              simp [this]
            · rw [if_neg h2, hS k hk h2]
              unfold pqw
              rw [pqget_pqset _ _ _ _ (by omega) (by omega) (by rw [pqset_length]; omega),
                pqget_pqset _ _ _ _ hi hk (by omega)]
              simp [h1, h2]
        have hlt : pqw (pqset q i x) c < pqw (pqset q i x) i := by
          rw [hSi, hS c (by omega) (by omega)]
          rw [hx] at hstop
          unfold pqw
          omega
        have hsib2 : ∀ k, 2 ≤ k → k ≤ m - 1 → k / 2 = i →
            pqw (pqset q i x) c ≤ pqw (pqset q i x) k := by
          intro k hk2 hkm hki
          rw [hS c (by omega) (by omega), hS k (by omega) (by omega)]
          exact hsib k hk2 hkm hki
        have hstep := downinv_step _ _ (m - 1) i c hi hc1 (by omega) hsw hlt hsib2
          hinv.1 hinv.2
        have hx2 : pqget (pqset q i (pqget q c)) m = x := by
          rw [pqget_pqset _ _ _ _ hi (by omega) (by omega)]
          have : ¬ (m = i) := by omega
          simp [this, hx]
        have := ih (pqset q i (pqget q c)) c (by omega) (by omega) (by omega)
          (by rw [pqset_length]; exact hm) hx2 hstep
        rw [pqset_length] at this
        refine ⟨this.1, this.2.1, this.2.2.1, this.2.2.2.trans ?_⟩
        have hp := take_swap_perm (pqset q i x) (m - 1) i c hi (by omega) (by omega) (by omega)
          (by rw [pqset_length]; omega)
        rw [pqget_pqset _ _ _ _ hi hi (by omega),
          pqget_pqset _ _ _ _ hi (show 1 ≤ c by omega) (by omega), pqset_pqset] at hp
        have : ¬ (c = i) := by omega
        simpa [this] using hp
    · rw [if_neg hl]
      refine ⟨rfl, hx, ?_, List.Perm.refl _⟩
      intro k hk2 hkm
      exact hinv.1 k hk2 (by omega) (by omega)

/-- The root of a heap has the least weight. -/
theorem heapOK_root_le (q : List huffnode) (qend : Nat) (hh : heapOK q qend) :
    ∀ k, 1 ≤ k → k < qend → pqw q 1 ≤ pqw q k := by
  intro k
  induction k using Nat.strong_induction_on with
  | _ k ih =>
    intro hk1 hkq
    by_cases h : k = 1
    · rw [h]
    · have := ih (k / 2) (by omega) (by omega) (by omega)
      exact this.trans (hh k (by omega) hkq)

theorem mem_live_iff (q : List huffnode) (qend : Nat) (hq : qend ≤ q.length + 1)
    (x : huffnode) : x ∈ live q qend ↔ ∃ k, 1 ≤ k ∧ k < qend ∧ pqget q k = x := by
  unfold live
  rw [List.mem_iff_getElem]
  constructor
  · rintro ⟨n, hn, rfl⟩
    rw [List.length_take] at hn
    refine ⟨n + 1, by omega, by omega, ?_⟩
    rw [pqget_eq_getElem q (n + 1) (by omega) (by omega), List.getElem_take]
    rfl
  · rintro ⟨k, hk1, hk2, rfl⟩
    refine ⟨k - 1, by rw [List.length_take]; omega, ?_⟩
    rw [pqget_eq_getElem q k hk1 (by omega), List.getElem_take]

theorem take_pop_perm (q : List huffnode) (m : Nat) (h1 : 1 ≤ m) (h2 : m ≤ q.length) :
    (q.take m).Perm (pqget q 1 :: (pqset q 1 (pqget q m)).take (m - 1)) := by
  cases q with
  | nil => simp at h2; omega
  | cons a tl =>
    obtain ⟨n, rfl⟩ : ∃ n, m = n + 1 := ⟨m - 1, by omega⟩
    simp only [pqget, pqset, Nat.sub_self, List.getD_cons_zero, List.set_cons_zero,
      List.take_succ_cons, Nat.add_sub_cancel]
    apply List.Perm.cons
    cases n with
    | zero => simp
    | succ n =>
      simp only [List.getD_cons_succ, List.take_succ_cons]
      simp only [List.length_cons] at h2
      have h3 : n < tl.length := by omega
      rw [List.take_succ, List.getD_eq_getElem _ _ h3]
      simp only [List.getElem?_eq_getElem h3, Option.toList_some]
      exact List.perm_append_comm

/-- `huffnode_pop` on a non-empty heap: the returned node has the least weight, and
what is left is a heap over the other entries. -/
theorem huffnode_pop_spec (ctx : huffcontext) (h1 : 2 ≤ ctx.qend)
    (h2 : ctx.qend ≤ ctx.queue.length + 1) (hh : heapOK ctx.queue ctx.qend) :
    (huffnode_pop ctx).1.qend = ctx.qend - 1 ∧
    (huffnode_pop ctx).1.queue.length = ctx.queue.length ∧
    heapOK (huffnode_pop ctx).1.queue (ctx.qend - 1) ∧
    (live ctx.queue ctx.qend).Perm
      ((huffnode_pop ctx).2 :: live (huffnode_pop ctx).1.queue (ctx.qend - 1)) ∧
    (∀ x ∈ live ctx.queue ctx.qend, (huffnode_pop ctx).2.weight ≤ x.weight) ∧
    (huffnode_pop ctx).2 = pqget ctx.queue 1 := by
  have hlt : ¬ (ctx.qend < 2) := by omega
  have hm1 : 1 ≤ ctx.qend - 1 := by omega
  have hm2 : ctx.qend - 1 ≤ ctx.queue.length := by omega
  have hinv : downInv (pqset ctx.queue 1 (pqget ctx.queue (ctx.qend - 1)))
      (ctx.qend - 1 - 1) 1 := by
    constructor
    · intro k hk2 hkn hne
      unfold pqw
      rw [pqget_pqset _ _ _ _ (le_refl _) (by omega) (by omega),
        pqget_pqset _ _ _ _ (le_refl _) (by omega) (by omega)]
      have e1 : ¬ (k / 2 = 1) := hne
      have e2 : ¬ (k = 1) := by omega
      simp only [e1, e2, if_false]
      exact hh k hk2 (by omega)
    · intro k _ _ _ h; omega
  have hs := huffnode_pop_loop_spec (pqget ctx.queue (ctx.qend - 1)) (ctx.qend - 1)
    (ctx.qend - 1) ctx.queue 1 (by omega) (le_refl _) hm1 hm2 rfl hinv
  unfold huffnode_pop
  simp only [hlt, if_false]
  refine ⟨trivial, ?_, ?_, ?_, ?_, trivial⟩
  · rw [pqset_length]; exact hs.1
  · rw [hs.2.1]; exact hs.2.2.1
  · rw [hs.2.1]
    unfold live
    exact (take_pop_perm ctx.queue (ctx.qend - 1) hm1 hm2).trans
      (List.Perm.cons _ hs.2.2.2.symm)
  · intro x hx
    obtain ⟨k, hk1, hk2, rfl⟩ := (mem_live_iff _ _ h2 x).mp hx
    exact heapOK_root_le _ _ hh k hk1 hk2

theorem huffnode_pop_fields (ctx : huffcontext) :
    (huffnode_pop ctx).1.codes = ctx.codes ∧ (huffnode_pop ctx).1.nodes = ctx.nodes ∧
    (huffnode_pop ctx).1.maxbits = ctx.maxbits ∧
    (huffnode_pop ctx).1.minbits = ctx.minbits := by
  unfold huffnode_pop
  split <;> exact ⟨rfl, rfl, rfl, rfl⟩

/-! ## Leaf loop and merge loop of huffman_rebuild_all -/

theorem htree.toNode_weight (t : htree) : t.toNode.weight = t.weight := by
  cases t <;> rfl

theorem rebuild_ctx0_queue_length : rebuild_ctx0.queue.length = 256 := by
  unfold rebuild_ctx0 huffcontext.zero HUFFMAN_TABLESIZE
  exact List.length_replicate _ _

theorem floorw_ne_zero (x : Nat) : floorw x ≠ 0 := by
  unfold floorw; split <;> omega

theorem set_getD_self (t : List Nat) (n : Nat) : t.set n (t.getD n 0) = t := by
  apply list_eq_of_getD
  · simp
  · intro b hb
    rw [getD_set_eq]
    split
    · rename_i h; rw [h.1]
    · rfl

theorem huffnode_new_fields (ctx : huffcontext) (w s : Nat) (l r : huffnode) :
    (huffnode_new ctx w s l r).1.qend = ctx.qend ∧
    (huffnode_new ctx w s l r).1.queue = ctx.queue ∧
    (huffnode_new ctx w s l r).1.nodes = ctx.nodes + 1 ∧
    (huffnode_new ctx w s l r).1.codes = ctx.codes ∧
    (huffnode_new ctx w s l r).1.maxbits = ctx.maxbits ∧
    (huffnode_new ctx w s l r).1.minbits = ctx.minbits := by
  unfold huffnode_new
  split <;> exact ⟨rfl, rfl, rfl, rfl, rfl, rfl⟩

theorem huffnode_new_leaf (ctx : huffcontext) (w s : Nat) (l r : huffnode) (hw : w ≠ 0) :
    (huffnode_new ctx w s l r).2 = (htree.leaf w s).toNode := by
  unfold huffnode_new
  simp [hw, htree.toNode]

theorem huffnode_new_node (ctx : huffcontext) (s : Nat) (l r : htree) :
    (huffnode_new ctx 0 s l.toNode r.toNode).2 = (htree.node l r).toNode := by
  unfold huffnode_new
  simp [htree.toNode, htree.toNode_weight]

/-- One round of the leaf loop: the entry is floored and its leaf is pushed. -/
theorem rebuild_leaf_eq (h : huffman) (n : Nat) (hn : n < 256) (hl : h.table.length = 256) :
    rebuild_leaf h n =
      { context := huffnode_push
          (huffnode_new h.context (floorw (h.table.getD n 0)) n huffnode.null huffnode.null).1
          (htree.leaf (floorw (h.table.getD n 0)) n).toNode
        table := h.table.set n (floorw (h.table.getD n 0)) } := by
  have ht : (if h.table.getD n 0 < 1 then h.table.set n 1 else h.table) =
      h.table.set n (floorw (h.table.getD n 0)) := by
    unfold floorw
    by_cases hlt : h.table.getD n 0 < 1
    · rw [if_pos hlt, if_pos hlt]
    · rw [if_neg hlt, if_neg hlt, set_getD_self]
  have hw : (h.table.set n (floorw (h.table.getD n 0))).getD n 0 =
      floorw (h.table.getD n 0) := by
    rw [getD_set_eq]
    split
    · rfl
    · omega
  unfold rebuild_leaf
  simp only [ht, hw, Nat.mod_eq_of_lt hn]
  rw [huffnode_new_leaf _ _ _ _ _ (floorw_ne_zero _)]

/-- The state after the first `n` rounds of the leaf loop. -/
theorem rebuild_leaf_fold (huffm : huffman) (T : List Nat) (hT : T.length = 256) (n : Nat)
    (hn : n ≤ 256) :
    let h := (List.range n).foldl rebuild_leaf { huffm with context := rebuild_ctx0, table := T }
    h.context.qend = n + 1 ∧ h.context.queue.length = 256 ∧
    heapOK h.context.queue (n + 1) ∧
    (live h.context.queue (n + 1) : Multiset huffnode) =
      ((List.range n).map fun i => (htree.leaf (floorw (T.getD i 0)) i).toNode) ∧
    h.context.nodes = n ∧ h.context.codes = huffcontext.zero.codes ∧
    h.context.maxbits = 0 ∧ h.context.minbits = 16 ∧
    h.table.length = 256 ∧
    (∀ i, h.table.getD i 0 = if i < n then floorw (T.getD i 0) else T.getD i 0) := by
  induction n with
  | zero =>
    refine ⟨rfl, rebuild_ctx0_queue_length, ?_, ?_, rfl, rfl, rfl, rfl, hT, by simp⟩
    · intro i h1 h2; omega
    · simp [live]
  | succ n ih =>
    have ih := ih (by omega)
    rw [List.range_succ, List.foldl_append]
    simp only [List.foldl_cons, List.foldl_nil]
    generalize (List.range n).foldl rebuild_leaf
      { huffm with context := rebuild_ctx0, table := T } = h at ih ⊢
    obtain ⟨h1, h2, h3, h4, h5, h6, h7, h8, h9, h10⟩ := ih
    have e := h10 n
    simp only [lt_irrefl, if_false] at e
    rw [rebuild_leaf_eq h n (by omega) h9, e]
    dsimp only
    obtain ⟨g1, g2, g3, g4, g5, g6⟩ := huffnode_new_fields h.context (floorw (T.getD n 0)) n
      huffnode.null huffnode.null
    generalize (huffnode_new h.context (floorw (T.getD n 0)) n huffnode.null
      huffnode.null).1 = c1 at g1 g2 g3 g4 g5 g6 ⊢
    have hp := huffnode_push_spec c1 (htree.leaf (floorw (T.getD n 0)) n).toNode
      (by rw [g1, h1]; omega) (by rw [g1, g2, h1, h2]; omega) (by rw [g1, g2, h1]; exact h3)
    have hf := huffnode_push_fields c1 (htree.leaf (floorw (T.getD n 0)) n).toNode
    rw [g1, g2, h1] at hp
    refine ⟨hp.1, by rw [hp.2.1]; exact h2, hp.2.2.1, ?_, by rw [hf.2.1, g3, h5],
      by rw [hf.1, g4]; exact h6, by rw [hf.2.2.1, g5]; exact h7,
      by rw [hf.2.2.2, g6]; exact h8, ?_, ?_⟩
    · rw [Multiset.coe_eq_coe.mpr hp.2.2.2, List.map_append, ← Multiset.cons_coe, h4,
        Multiset.cons_coe, Multiset.coe_eq_coe]
      exact (List.perm_append_singleton _ _).symm
    · simp [h9]
    · intro i
      simp only [getD_set_eq, h10 i]
      by_cases hi : n = i
      · subst hi
        simp [h9, show n < 256 by omega]
      · have : ¬ (n = i ∧ i < h.table.length) := fun hh => hi hh.1
        simp only [this, if_false]
        by_cases hlt : i < n
        · simp [hlt, show i < n + 1 by omega]
        · simp [hlt, show ¬ (i < n + 1) by omega]

theorem live_single (q : List huffnode) (hq : 1 ≤ q.length) : live q 2 = [pqget q 1] := by
  cases q with
  | nil => simp at hq
  | cons a tl => simp [live, pqget]

/-- The merge loop of `huffman_rebuild_all` carries out a Huffman construction on
the forest in the queue and leaves its result as the only entry. -/
theorem rebuild_merge_spec (lfirst : Bool) :
    ∀ (fuel : Nat) (ctx : huffcontext) (F : Multiset htree),
      2 ≤ ctx.qend → ctx.qend ≤ ctx.queue.length + 1 → ctx.qend ≤ fuel + 2 →
      heapOK ctx.queue ctx.qend →
      (live ctx.queue ctx.qend : Multiset huffnode) = F.map htree.toNode →
      ∃ t, Huff lfirst F t ∧
        (rebuild_merge fuel lfirst ctx).qend = 2 ∧
        pqget (rebuild_merge fuel lfirst ctx).queue 1 = t.toNode ∧
        (rebuild_merge fuel lfirst ctx).queue.length = ctx.queue.length ∧
        (rebuild_merge fuel lfirst ctx).nodes + 2 = ctx.nodes + ctx.qend ∧
        (rebuild_merge fuel lfirst ctx).codes = ctx.codes ∧
        (rebuild_merge fuel lfirst ctx).maxbits = ctx.maxbits ∧
        (rebuild_merge fuel lfirst ctx).minbits = ctx.minbits := by
  have hbase : ∀ (ctx : huffcontext) (F : Multiset htree), ctx.qend = 2 →
      ctx.qend ≤ ctx.queue.length + 1 →
      (live ctx.queue ctx.qend : Multiset huffnode) = F.map htree.toNode →
      ∃ t, Huff lfirst F t ∧ ctx.qend = 2 ∧ pqget ctx.queue 1 = t.toNode ∧
        ctx.queue.length = ctx.queue.length ∧ ctx.nodes + 2 = ctx.nodes + ctx.qend ∧
        ctx.codes = ctx.codes ∧ ctx.maxbits = ctx.maxbits ∧ ctx.minbits = ctx.minbits := by
    intro ctx F h2 hl hF
    rw [h2, live_single _ (by omega)] at hF
    have hc : Multiset.card (F.map htree.toNode) = 1 := by rw [← hF]; rfl
    rw [Multiset.card_map, Multiset.card_eq_one] at hc
    obtain ⟨t, rfl⟩ := hc
    refine ⟨t, Huff.single t, h2, ?_, rfl, by rw [h2], rfl, rfl, rfl⟩
    simpa using hF
  intro fuel
  induction fuel with
  | zero =>
    intro ctx F h2 hl hf hh hF
    unfold rebuild_merge
    exact hbase ctx F (by omega) hl hF
  | succ fuel ih =>
    intro ctx F h2 hl hf hh hF
    unfold rebuild_merge
    by_cases hq : ctx.qend > 2
    · rw [if_pos hq]
      dsimp only
      -- first pop
      obtain ⟨p1, p2, p3, p4, p5, _⟩ := huffnode_pop_spec ctx h2 hl hh
      obtain ⟨f1, f2, f3, f4⟩ := huffnode_pop_fields ctx
      generalize huffnode_pop ctx = P1 at p1 p2 p3 p4 p5 f1 f2 f3 f4 ⊢
      have hF1 := hF.symm.trans (Multiset.coe_eq_coe.mpr p4)
      have ha : P1.2 ∈ F.map htree.toNode := by
        rw [hF1, ← Multiset.cons_coe]; exact Multiset.mem_cons_self _ _
      obtain ⟨a, haF, hae⟩ := Multiset.mem_map.mp ha
      obtain ⟨F1, rfl⟩ := Multiset.exists_cons_of_mem haF
      rw [Multiset.map_cons, hae, ← Multiset.cons_coe, Multiset.cons_inj_right] at hF1
      have hmin1 : ∀ x ∈ F1, a.weight ≤ x.weight := by
        intro x hx
        have hx1 : x.toNode ∈ live ctx.queue ctx.qend := by
          have : x.toNode ∈ (live ctx.queue ctx.qend : Multiset huffnode) := by
            rw [hF]
            exact Multiset.mem_map_of_mem _ (Multiset.mem_cons_of_mem hx)
          simpa using this
        have := p5 _ hx1
        rwa [← hae, htree.toNode_weight, htree.toNode_weight] at this
      -- second pop
      obtain ⟨r1, r2, r3, r4, r5, _⟩ := huffnode_pop_spec P1.1 (by rw [p1]; omega)
        (by rw [p1, p2]; omega) (by rw [p1]; exact p3)
      obtain ⟨k1, k2, k3, k4⟩ := huffnode_pop_fields P1.1
      generalize huffnode_pop P1.1 = P2 at r1 r2 r3 r4 r5 k1 k2 k3 k4 ⊢
      rw [p1] at r1 r3 r4 r5
      have hF2 := hF1.trans (Multiset.coe_eq_coe.mpr r4)
      have hb : P2.2 ∈ F1.map htree.toNode := by
        rw [hF2, ← Multiset.cons_coe]; exact Multiset.mem_cons_self _ _
      obtain ⟨b, hbF, hbe⟩ := Multiset.mem_map.mp hb
      obtain ⟨F2, rfl⟩ := Multiset.exists_cons_of_mem hbF
      rw [Multiset.map_cons, hbe, ← Multiset.cons_coe, Multiset.cons_inj_right] at hF2
      have hmin2 : ∀ x ∈ F2, b.weight ≤ x.weight := by
        intro x hx
        have hx1 : x.toNode ∈ live P1.1.queue (ctx.qend - 1) := by
          have : x.toNode ∈ (live P1.1.queue (ctx.qend - 1) : Multiset huffnode) := by
            rw [← hF1]
            exact Multiset.mem_map_of_mem _ (Multiset.mem_cons_of_mem hx)
          simpa using this
        have := r5 _ hx1
        rwa [← hbe, htree.toNode_weight, htree.toNode_weight] at this
      -- the new node and its push
      have hnew : ∃ c3, (if lfirst = true then huffnode_new P2.1 0 0 P1.2 P2.2
          else huffnode_new P2.1 0 0 P2.2 P1.2) =
          (c3, (if lfirst = true then htree.node a b else htree.node b a).toNode) ∧
          c3.qend = P2.1.qend ∧ c3.queue = P2.1.queue ∧ c3.nodes = P2.1.nodes + 1 ∧
          c3.codes = P2.1.codes ∧ c3.maxbits = P2.1.maxbits ∧ c3.minbits = P2.1.minbits := by
        cases lfirst
        · refine ⟨(huffnode_new P2.1 0 0 P2.2 P1.2).1, ?_, huffnode_new_fields _ _ _ _ _⟩
          simp only [Bool.false_eq_true, if_false]
          rw [← hae, ← hbe]
          exact Prod.ext rfl (huffnode_new_node _ _ _ _)
        · refine ⟨(huffnode_new P2.1 0 0 P1.2 P2.2).1, ?_, huffnode_new_fields _ _ _ _ _⟩
          simp only [if_true]
          rw [← hae, ← hbe]
          exact Prod.ext rfl (huffnode_new_node _ _ _ _)
      obtain ⟨c3, hc3, g1, g2, g3, g4, g5, g6⟩ := hnew
      rw [hc3]
      dsimp only
      generalize hm : (if lfirst = true then htree.node a b else htree.node b a) = m at hc3 ⊢
      obtain ⟨s1, s2, s3, s4⟩ := huffnode_push_spec c3 m.toNode (by rw [g1, r1]; omega)
        (by rw [g1, g2, r1, r2, p2]; omega) (by rw [g1, g2, r1]; exact r3)
      obtain ⟨t1, t2, t3, t4⟩ := huffnode_push_fields c3 m.toNode
      generalize huffnode_push c3 m.toNode = c4 at s1 s2 s3 s4 t1 t2 t3 t4 ⊢
      rw [g1, r1] at s1 s3 s4
      rw [g2] at s4
      have e1 : ctx.qend - 1 - 1 + 1 = ctx.qend - 1 := by omega
      rw [e1] at s1 s3 s4
      have hF3 : (live c4.queue c4.qend : Multiset huffnode) = (m ::ₘ F2).map htree.toNode := by
        rw [s1, Multiset.coe_eq_coe.mpr s4, Multiset.map_cons, ← Multiset.cons_coe, hF2]
      obtain ⟨t, ht, q1, q2, q3, q4, q5, q6, q7⟩ := ih c4 (m ::ₘ F2) (by rw [s1]; omega)
        (by rw [s1, s2, g2, r2, p2]; omega) (by rw [s1]; omega) (by rw [s1]; exact s3) hF3
      refine ⟨t, ?_, q1, q2, ?_, ?_, ?_, ?_, ?_⟩
      · refine Huff.step a b F2 t ?_ hmin2 ?_
        · intro x hx
          exact hmin1 x hx
        · rw [hm]; exact ht
      · rw [q3, s2, g2, r2, p2]
      · rw [s1, t2, g3, k2, f2] at q4; omega
      · rw [q5, t1, g4, k1, f1]
      · rw [q6, t3, g5, k3, f3]
      · rw [q7, t4, g6, k4, f4]
    · rw [if_neg hq]
      exact hbase ctx F (by omega) hl hF

/-- The total variant of the rebuild on a 256-entry table: the table is floored,
the queue is left with the root of a Huffman construction over the 256 leaves, 511
nodes have been taken from the pool, and the codewords are derived from that root;
`huffman_rebuild_all` differs in the last step only. -/
theorem rebuild_all_drop_spec (lfirst : Bool) (huffm : huffman)
    (hT : huffm.table.length = 256) :
    ∃ (t : htree) (ctx2 : huffcontext), Huff lfirst (leafForest huffm.table) t ∧
      ctx2.qend = 2 ∧ pqget ctx2.queue 1 = t.toNode ∧ ctx2.queue.length = 256 ∧
      ctx2.nodes = 511 ∧ ctx2.codes = huffcontext.zero.codes ∧ ctx2.maxbits = 0 ∧
      ctx2.minbits = 16 ∧
      rebuild_all_drop lfirst huffm =
        (0, { context := build_codes_drop ctx2 t.toNode [0, 0] 0
              table := huffm.table.map floorw }) ∧
      huffman_rebuild_all lfirst huffm =
        (huffnode_build_codes ctx2 t.toNode [0, 0] 0).map fun c =>
          (0, { context := c, table := huffm.table.map floorw }) := by
  have hfold := rebuild_leaf_fold huffm huffm.table hT 256 (le_refl _)
  dsimp only at hfold
  obtain ⟨h1, h2, h3, h4, h5, h6, h7, h8, h9, h10⟩ := hfold
  have hrw : ({ huffm with context := rebuild_ctx0, table := huffm.table } : huffman) =
      { huffm with context := rebuild_ctx0 } := rfl
  rw [hrw] at h1 h2 h3 h4 h5 h6 h7 h8 h9 h10
  generalize hg : (List.range 256).foldl rebuild_leaf { huffm with context := rebuild_ctx0 } = g
    at h1 h2 h3 h4 h5 h6 h7 h8 h9 h10
  have hF : (live g.context.queue g.context.qend : Multiset huffnode) =
      (leafForest huffm.table).map htree.toNode := by
    rw [h1, h4]
    unfold leafForest
    rw [Multiset.map_coe, List.map_map]
    rfl
  obtain ⟨t, ht, q1, q2, q3, q4, q5, q6, q7⟩ := rebuild_merge_spec lfirst g.context.qend
    g.context (leafForest huffm.table) (by rw [h1]; omega) (by rw [h1, h2]) (by omega)
    (by rw [h1]; exact h3) hF
  refine ⟨t, rebuild_merge g.context.qend lfirst g.context, ht, q1, q2, by rw [q3, h2],
    by omega, by rw [q5, h6], by rw [q6, h7], by rw [q7, h8], ?_⟩
  have hc : ({ huffcontext.zero with qend := 1, maxbits := 0, minbits := 16 } : huffcontext) =
      rebuild_ctx0 := rfl
  have htab : g.table = huffm.table.map floorw := by
    apply list_eq_of_getD
    · rw [h9, List.length_map, hT]
    · intro b hb
      rw [List.length_map, hT] at hb
      rw [h10 b, if_pos hb,
        List.getD_eq_getElem (huffm.table.map floorw) 0 (by rw [List.length_map, hT]; exact hb),
        List.getElem_map, List.getD_eq_getElem huffm.table 0 (by rw [hT]; exact hb)]
  constructor
  · unfold rebuild_all_drop
    simp only [hc, HUFFMAN_TABLESIZE, hg, q2, htab]
  · unfold huffman_rebuild_all
    simp only [hc, HUFFMAN_TABLESIZE, hg, q2, htab]
    cases huffnode_build_codes (rebuild_merge g.context.qend lfirst g.context) t.toNode [0, 0] 0
      <;> rfl

/-! ## Bit stream -/

theorem and_seven (x : Nat) : x &&& 7 = x % 8 :=
  Nat.and_pow_two_sub_one_eq_mod x 3

theorem byte_offset_eq (pos : Nat) : (pos - pos % 8) / 8 = pos / 8 := by
  omega

/-- The byte that `bitstream_writebit` stores: bit `7 - o` becomes the written bit
and the other seven bits are kept. -/
theorem writebit_byte (v bit o i : Nat) (ho : o < 8) (hi : i < 8) :
    (((v &&& ((0x80 >>> o) ^^^ 0xFF)) |||
      ((((if bit ≠ 0 then 1 else 0) <<< (8 - 1)) % 256) >>> o)) % 256).testBit i =
    if i = 7 - o then decide (bit ≠ 0) else v.testBit i := by
  have e256 : (256 : Nat) = 2 ^ 8 := by norm_num
  have e255 : (0xFF : Nat) = 2 ^ 8 - 1 := by norm_num
  have e128 : (0x80 : Nat) = 2 ^ 7 := by norm_num
  rw [e256, e255, e128, Nat.testBit_mod_two_pow, Nat.testBit_or, Nat.testBit_and,
    Nat.testBit_xor, Nat.testBit_shiftRight, Nat.testBit_shiftRight, Nat.testBit_two_pow,
    Nat.testBit_two_pow_sub_one, Nat.testBit_mod_two_pow]
  have hd1 : decide (i < 8) = true := by simpa using hi
  by_cases hb : bit ≠ 0
  · simp only [hb, ne_eq, not_false_eq_true, if_true, Nat.one_shiftLeft, Nat.testBit_two_pow,
      hd1, Bool.true_and, decide_True]
    by_cases h1 : i = 7 - o
    · have h2 : 7 = o + i := by omega
      have h3 : 8 - 1 = o + i := by omega
      have h4 : o + i < 8 := by omega
      simp only [h1, if_true]
      rw [← h1]
      simp only [h2, h3, h4, decide_True, Bool.true_and, Bool.or_true]
    · have h2 : ¬ (7 = o + i) := by omega
      have h3 : ¬ (8 - 1 = o + i) := by omega
      simp only [h1, h2, h3, if_false, decide_False, Bool.false_and, Bool.or_false,
        Bool.and_false, Bool.xor_false, Bool.false_xor, Bool.and_true]
  · have hb0 : bit = 0 := by simpa using hb
    simp only [hb0, ne_eq, not_true_eq_false, if_false, Nat.zero_shiftLeft, Nat.zero_testBit,
      hd1, Bool.true_and, decide_False, Bool.or_false, Nat.zero_mod, Bool.and_false]
    by_cases h1 : i = 7 - o
    · have h2 : 7 = o + i := by omega
      simp only [h1, if_true]
      rw [← h1]
      simp only [h2, hd1, decide_True, Bool.true_and, Bool.or_true, Bool.xor_self,
        Bool.and_false, Bool.xor_true, Bool.not_true]
    · have h2 : ¬ (7 = o + i) := by omega
      simp only [h1, h2, if_false, decide_False, Bool.false_and, Bool.or_false,
        Bool.and_false, Bool.xor_false, Bool.false_xor, Bool.and_true, hd1]

/-- The value `bitstream_readbit` extracts is 1 exactly when bit `7 - o` is set. -/
theorem readbit_byte (v o : Nat) (ho : o < 8) :
    (((v <<< o) % 256) >>> (8 - 1) = 1) ↔ v.testBit (7 - o) = true := by
  have e256 : (256 : Nat) = 2 ^ 8 := by norm_num
  have hlt : ((v <<< o) % 256) >>> (8 - 1) < 2 := by
    rw [Nat.shiftRight_eq_div_pow]
    have := Nat.mod_lt (v <<< o) (show 256 > 0 by norm_num)
    omega
  have hbit : (((v <<< o) % 256) >>> (8 - 1)).testBit 0 = v.testBit (7 - o) := by
    rw [Nat.testBit_shiftRight, e256, Nat.testBit_mod_two_pow, Nat.testBit_shiftLeft]
    simp [show o ≤ 7 by omega]
  rw [← hbit]
  generalize ((v <<< o) % 256) >>> (8 - 1) = x at hlt
  interval_cases x <;> simp

/-- `bitstream_writebit` inside the buffer: bit `8 * bs + bit_pos` becomes the
written bit, every other bit is kept and the cursor moves on by one bit. -/
theorem bitstream_writebit_spec (buf : List Nat) (bs bit pos : Nat)
    (h : (8 * bs + pos) / 8 < buf.length) :
    ∃ buf1 bs1 pos1, bitstream_writebit buf bs bit pos = some (buf1, bs1, pos1) ∧
      buf1.length = buf.length ∧ 8 * bs1 + pos1 = 8 * bs + pos + 1 ∧ (pos < 8 → pos1 < 8) ∧
      ∀ j, bufbit buf1 j = if j = 8 * bs + pos then decide (bit ≠ 0) else bufbit buf j := by
  have hp : bs + pos / 8 < buf.length := by omega
  have hbits : ∀ v2 : Nat, (∀ i, i < 8 → v2.testBit i =
      if i = 7 - pos % 8 then decide (bit ≠ 0) else (buf[bs + pos / 8]).testBit i) →
      ∀ j, bufbit (buf.set (bs + pos / 8) v2) j =
        if j = 8 * bs + pos then decide (bit ≠ 0) else bufbit buf j := by
    intro v2 hv j
    unfold bufbit
    rw [getD_set_eq]
    by_cases hj : bs + pos / 8 = j / 8
    · rw [if_pos ⟨hj, by omega⟩, hv _ (by omega), ← hj, List.getD_eq_getElem buf 0 hp]
      by_cases hjk : j = 8 * bs + pos
      · rw [if_pos hjk, if_pos (by omega)]
      · rw [if_neg hjk, if_neg (by omega)]
    · rw [if_neg (fun hh => hj hh.1), if_neg (by omega)]
  unfold bitstream_writebit
  simp only [and_seven, byte_offset_eq, List.getElem?_eq_getElem hp]
  have hv := fun i hi => writebit_byte buf[bs + pos / 8] bit (pos % 8) i (by omega) hi
  by_cases hc : pos + 1 ≥ 8
  · rw [if_pos hc]
    exact ⟨_, _, _, rfl, by simp, by omega, by omega, hbits _ hv⟩
  · rw [if_neg hc]
    exact ⟨_, _, _, rfl, by simp, by omega, by omega, hbits _ hv⟩

theorem bitstream_writebit_none (buf : List Nat) (bs bit pos : Nat)
    (h : buf.length ≤ (8 * bs + pos) / 8) : bitstream_writebit buf bs bit pos = none := by
  have hp : buf.length ≤ bs + pos / 8 := by omega
  unfold bitstream_writebit
  simp only [and_seven, byte_offset_eq, List.getElem?_eq_none hp]

/-- `bitstream_readbit` inside the buffer: the result is bit `8 * bs + bit_pos` and
the cursor moves on by one bit. -/
theorem bitstream_readbit_spec (buf : List Nat) (bs pos : Nat)
    (h : (8 * bs + pos) / 8 < buf.length) :
    ∃ bs1 pos1, bitstream_readbit buf bs pos =
        some ((if bufbit buf (8 * bs + pos) then 1 else 0), bs1, pos1) ∧
      8 * bs1 + pos1 = 8 * bs + pos + 1 ∧ (pos < 8 → pos1 < 8) := by
  have hp : bs + pos / 8 < buf.length := by omega
  have hb : (if ((buf[bs + pos / 8] <<< (pos % 8)) % 256) >>> (8 - 1) = 1 then 1 else 0) =
      (if bufbit buf (8 * bs + pos) then 1 else 0 : Nat) := by
    unfold bufbit
    have e1 : (8 * bs + pos) / 8 = bs + pos / 8 := by omega
    have e2 : (8 * bs + pos) % 8 = pos % 8 := by omega
    rw [e1, e2, List.getD_eq_getElem buf 0 hp]
    by_cases hv : buf[bs + pos / 8].testBit (7 - pos % 8) = true
    · rw [if_pos ((readbit_byte _ _ (by omega)).mpr hv), if_pos hv]
    · rw [if_neg (fun hh => hv ((readbit_byte _ _ (by omega)).mp hh)), if_neg hv]
  unfold bitstream_readbit
  simp only [and_seven, byte_offset_eq, List.getElem?_eq_getElem hp, hb]
  by_cases hc : pos + 1 ≥ 8
  · rw [if_pos hc]
    exact ⟨_, _, rfl, by omega, by omega⟩
  · rw [if_neg hc]
    exact ⟨_, _, rfl, by omega, by omega⟩

theorem htree.toNode_isNull (t : htree) : t.toNode.isNull = false := by
  cases t <;> rfl

/-- `build_codes_drop` on the node of a tree records the entries of its leaves
one after the other. -/
theorem build_codes_drop_eq (t : htree) :
    ∀ (ctx : huffcontext) (code : List Nat) (bitlen : Nat),
      build_codes_drop ctx t.toNode code bitlen = (t.leafcodes code bitlen).foldl record ctx := by
  induction t with
  | leaf w s =>
    intro ctx code bitlen
    simp [htree.toNode, build_codes_drop, htree.leafcodes, record, huffnode.isNull]
  | node l r ihl ihr =>
    intro ctx code bitlen
    simp only [htree.toNode, build_codes_drop, htree.leafcodes, List.foldl_append,
      htree.toNode_isNull]
    simp only [ne_eq, not_true_eq_false, Bool.false_eq_true, and_self, or_self, if_false]
    rw [ihl, ihr]

theorem htree.leafcodes_eq (t : htree) :
    ∀ (code : List Nat) (d : Nat), d + t.height < 65536 →
      t.leafcodes code d =
        t.leaves.map (fun e => (e.1, ⟨d + e.2.2.length, putpath code d e.2.2⟩)) := by
  induction t with
  | leaf w s =>
    intro code d _
    simp [htree.leafcodes, htree.leaves, putpath]
  | node l r ihl ihr =>
    intro code d hd
    simp only [htree.height] at hd
    have h1 : (d + 1) % 65536 = d + 1 := Nat.mod_eq_of_lt (by omega)
    simp only [htree.leafcodes, htree.leaves, h1, List.map_append, List.map_map]
    rw [ihl _ _ (by omega), ihr _ _ (by omega)]
    congr 1
    · apply List.map_congr_left
      intro e _
      simp only [Function.comp, List.length_cons, putpath]
      congr 2
      omega
    · apply List.map_congr_left
      intro e _
      simp only [Function.comp, List.length_cons, putpath]
      congr 2
      omega

/-- On a two-byte codeword `putbit_drop` sets bit `l` when `l < 16` and keeps the
rest. -/
theorem putbit_drop_spec (c : List Nat) (b l : Nat) (hc : c.length = 2) :
    (putbit_drop c b l).length = 2 ∧
    ∀ j, bufbit (putbit_drop c b l) j = if j = l ∧ l < 16 then decide (b ≠ 0) else bufbit c j := by
  unfold putbit_drop putbit
  by_cases hl : l < 16
  · obtain ⟨buf1, bs1, pos1, h1, h2, _, _, h5⟩ :=
      bitstream_writebit_spec c 0 b l (by rw [hc]; omega)
    rw [h1]
    simp only [Option.getD_some]
    refine ⟨by rw [h2, hc], ?_⟩
    intro j
    rw [h5 j]
    simp [hl]
  · rw [bitstream_writebit_none c 0 b l (by rw [hc]; omega)]
    simp only [Option.getD_none]
    refine ⟨hc, ?_⟩
    intro j
    simp [hl]

theorem putbit_some (c : List Nat) (b l : Nat) (hc : c.length = 2) (hl : l < 16) :
    putbit c b l = some (putbit_drop c b l) := by
  unfold putbit_drop putbit
  obtain ⟨buf1, bs1, pos1, h1, _⟩ := bitstream_writebit_spec c 0 b l (by rw [hc]; omega)
  rw [h1]
  rfl

theorem putbit_none (c : List Nat) (b l : Nat) (hc : c.length = 2) (hl : 16 ≤ l) :
    putbit c b l = none := by
  unfold putbit
  rw [bitstream_writebit_none c 0 b l (by rw [hc]; omega)]

theorem putpath_spec (p : List Bool) :
    ∀ (code : List Nat) (d : Nat), code.length = 2 →
      (putpath code d p).length = 2 ∧
      ∀ j, bufbit (putpath code d p) j =
        if d ≤ j ∧ j < d + p.length ∧ j < 16 then p.getD (j - d) false else bufbit code j := by
  induction p with
  | nil =>
    intro code d hc
    refine ⟨hc, ?_⟩
    intro j
    have : ¬ (d ≤ j ∧ j < d + ([] : List Bool).length ∧ j < 16) := by simp; omega
    rw [if_neg this]
    rfl
  | cons b p ih =>
    intro code d hc
    have hstep : ∃ code1 : List Nat, putpath code d (b :: p) = putpath code1 (d + 1) p ∧
        code1.length = 2 ∧
        ∀ j, bufbit code1 j = if j = d ∧ d < 16 then b else bufbit code j := by
      cases b with
      | false =>
        refine ⟨putbit_drop code 0 d, rfl, (putbit_drop_spec code 0 d hc).1, ?_⟩
        intro j
        rw [(putbit_drop_spec code 0 d hc).2 j]
        simp
      | true =>
        have h0 := putbit_drop_spec code 0 d hc
        have h1 := putbit_drop_spec (putbit_drop code 0 d) 1 d h0.1
        refine ⟨putbit_drop (putbit_drop code 0 d) 1 d, rfl, h1.1, ?_⟩
        intro j
        rw [h1.2 j, h0.2 j]
        by_cases hj : j = d ∧ d < 16
        · simp [hj]
        · simp [hj]
    obtain ⟨code1, e1, e2, e3⟩ := hstep
    rw [e1]
    obtain ⟨i1, i2⟩ := ih code1 (d + 1) e2
    refine ⟨i1, ?_⟩
    intro j
    rw [i2 j, e3 j]
    by_cases hjd : j = d
    · subst hjd
      have h1 : ¬ (j + 1 ≤ j ∧ j < j + 1 + p.length ∧ j < 16) := by omega
      rw [if_neg h1]
      by_cases h16 : j < 16
      · rw [if_pos ⟨rfl, h16⟩, if_pos ⟨le_refl _, by simp, h16⟩]
        simp
      · rw [if_neg (fun h => h16 h.2), if_neg (fun h => h16 h.2.2)]
    · have h2 : ¬ (j = d ∧ d < 16) := fun h => hjd h.1
      rw [if_neg h2]
      by_cases hc1 : d + 1 ≤ j ∧ j < d + 1 + p.length ∧ j < 16
      · rw [if_pos hc1, if_pos ⟨by omega, by simp; omega, hc1.2.2⟩]
        have : j - d = (j - (d + 1)) + 1 := by omega
        rw [this, List.getD_cons_succ]
      · rw [if_neg hc1, if_neg]
        intro h
        apply hc1
        simp only [List.length_cons] at h
        omega

theorem getD_set_code (l : List huffcode) (d b : Nat) (v dv : huffcode) :
    (l.set d v).getD b dv = if d = b ∧ b < l.length then v else l.getD b dv := by
  simp only [List.getD_eq_getElem?_getD, List.getElem?_set]
  by_cases h : d = b
  · subst h
    by_cases hl : d < l.length
    · simp [hl]
    · have : l[d]? = none := List.getElem?_eq_none (by omega)
      simp [hl, this]
  · simp [h]

theorem foldl_record_fields (L : List (Nat × huffcode)) :
    ∀ c : huffcontext, (L.foldl record c).queue = c.queue ∧ (L.foldl record c).qend = c.qend ∧
      (L.foldl record c).nodes = c.nodes ∧ (L.foldl record c).codes.length = c.codes.length := by
  induction L with
  | nil => intro c; exact ⟨rfl, rfl, rfl, rfl⟩
  | cons e L ih =>
    intro c
    rw [List.foldl_cons]
    obtain ⟨h1, h2, h3, h4⟩ := ih (record c e)
    exact ⟨h1, h2, h3, by rw [h4]; simp [record]⟩

theorem foldl_record_codes_not_mem (L : List (Nat × huffcode)) (s : Nat) (dv : huffcode)
    (hs : s ∉ L.map Prod.fst) :
    ∀ c : huffcontext, (L.foldl record c).codes.getD s dv = c.codes.getD s dv := by
  induction L with
  | nil => intro c; rfl
  | cons e L ih =>
    intro c
    simp only [List.map_cons, List.mem_cons, not_or] at hs
    rw [List.foldl_cons, ih hs.2]
    simp only [record]
    rw [getD_set_code, if_neg]
    intro h
    exact hs.1 h.1.symm

/-- With pairwise different symbols, the table entry of a symbol is the entry
recorded for its leaf. -/
theorem foldl_record_codes_mem (L : List (Nat × huffcode)) (s : Nat) (hc dv : huffcode)
    (hn : (L.map Prod.fst).Nodup) (hm : (s, hc) ∈ L) :
    ∀ c : huffcontext, s < c.codes.length → (L.foldl record c).codes.getD s dv = hc := by
  induction L with
  | nil => simp at hm
  | cons e L ih =>
    intro c hs
    rw [List.foldl_cons]
    simp only [List.map_cons, List.nodup_cons] at hn
    rcases List.mem_cons.mp hm with h | h
    · subst h
      rw [foldl_record_codes_not_mem L s dv hn.1]
      simp only [record]
      rw [getD_set_code, if_pos ⟨rfl, hs⟩]
    · exact ih hn.2 h (record c e) (by simpa [record] using hs)

theorem foldl_record_maxbits (L : List (Nat × huffcode)) :
    ∀ c : huffcontext, c.maxbits ≤ (L.foldl record c).maxbits ∧
      (∀ e ∈ L, e.2.bitlen ≤ (L.foldl record c).maxbits) ∧
      ((L.foldl record c).maxbits = c.maxbits ∨
        ∃ e ∈ L, (L.foldl record c).maxbits = e.2.bitlen) := by
  induction L with
  | nil => intro c; simp
  | cons e L ih =>
    intro c
    rw [List.foldl_cons]
    obtain ⟨h1, h2, h3⟩ := ih (record c e)
    have hr : (record c e).maxbits = max c.maxbits e.2.bitlen := rfl
    rw [hr] at h1 h3
    refine ⟨le_trans (le_max_left _ _) h1, ?_, ?_⟩
    · intro x hx
      rcases List.mem_cons.mp hx with h | h
      · rw [h]; exact le_trans (le_max_right _ _) h1
      · exact h2 x h
    · rcases h3 with h | ⟨x, hx, h⟩
      · rcases max_choice c.maxbits e.2.bitlen with hm | hm
        · left; rw [h, hm]
        · right; exact ⟨e, List.mem_cons_self _ _, by rw [h, hm]⟩
      · right; exact ⟨x, List.mem_cons_of_mem _ hx, h⟩

theorem foldl_record_minbits (L : List (Nat × huffcode)) :
    ∀ c : huffcontext, (L.foldl record c).minbits ≤ c.minbits ∧
      (∀ e ∈ L, (L.foldl record c).minbits ≤ e.2.bitlen) ∧
      ((L.foldl record c).minbits = c.minbits ∨
        ∃ e ∈ L, (L.foldl record c).minbits = e.2.bitlen) := by
  induction L with
  | nil => intro c; simp
  | cons e L ih =>
    intro c
    rw [List.foldl_cons]
    obtain ⟨h1, h2, h3⟩ := ih (record c e)
    have hr : (record c e).minbits = min c.minbits e.2.bitlen := rfl
    rw [hr] at h1 h3
    refine ⟨le_trans h1 (min_le_left _ _), ?_, ?_⟩
    · intro x hx
      rcases List.mem_cons.mp hx with h | h
      · rw [h]; exact le_trans h1 (min_le_right _ _)
      · exact h2 x h
    · rcases h3 with h | ⟨x, hx, h⟩
      · rcases min_choice c.minbits e.2.bitlen with hm | hm
        · left; rw [h, hm]
        · right; exact ⟨e, List.mem_cons_self _ _, by rw [h, hm]⟩
      · right; exact ⟨x, List.mem_cons_of_mem _ hx, h⟩

theorem htree.sw_node (l r : htree) : (htree.node l r).sw = l.sw ++ r.sw := by
  simp only [htree.sw, htree.leaves, List.map_append, List.map_map]
  rfl

/-- A Huffman construction keeps the leaves of the forest. -/
theorem Huff.sw_eq {lfirst : Bool} {F : Multiset htree} {t : htree} (h : Huff lfirst F t) :
    (t.sw : Multiset (Nat × Nat)) = (F.map fun x => (x.sw : Multiset (Nat × Nat))).sum := by
  induction h with
  | single t => simp
  | step a b F t _ _ _ ih =>
    rw [ih]
    cases lfirst
    · simp only [Bool.false_eq_true, if_false, Multiset.map_cons, Multiset.sum_cons,
        htree.sw_node, ← Multiset.coe_add]
      rw [add_comm (b.sw : Multiset (Nat × Nat)), add_assoc]
    · simp only [if_true, Multiset.map_cons, Multiset.sum_cons, htree.sw_node,
        ← Multiset.coe_add]
      rw [add_assoc]

theorem leafForest_sw (T : List Nat) :
    ((leafForest T).map fun x => (x.sw : Multiset (Nat × Nat))).sum =
      ((List.range 256).map fun i => (i, floorw (T.getD i 0)) : List (Nat × Nat)) := by
  unfold leafForest
  generalize List.range 256 = L
  induction L with
  | nil => rfl
  | cons i L ih =>
    simp only [List.map_cons, ← Multiset.cons_coe, Multiset.map_cons, Multiset.sum_cons]
    rw [ih]
    rfl

theorem htree.height_lt_leaves (t : htree) : t.height < t.leaves.length := by
  induction t with
  | leaf w s => simp [htree.height, htree.leaves]
  | node l r ihl ihr =>
    simp only [htree.height, htree.leaves, List.length_append, List.length_map]
    omega

theorem zero_codes_length : huffcontext.zero.codes.length = 256 := by
  unfold huffcontext.zero HUFFMAN_TABLESIZE
  exact List.length_replicate _ _

theorem htree.height_pos_node (l r : htree) : 1 ≤ (htree.node l r).height := by
  simp only [htree.height]
  omega

/-- On a tree that stays within 16 levels, `huffnode_build_codes` is defined and is
the walk with `putbit_drop`. -/
theorem build_codes_some (t : htree) :
    ∀ (ctx : huffcontext) (code : List Nat) (d : Nat), code.length = 2 → d + t.height ≤ 16 →
      huffnode_build_codes ctx t.toNode code d = some (build_codes_drop ctx t.toNode code d) := by
  induction t with
  | leaf w s =>
    intro ctx code d _ _
    simp [htree.toNode, huffnode_build_codes, build_codes_drop, huffnode.isNull]
  | node l r ihl ihr =>
    intro ctx code d hc hd
    simp only [htree.height] at hd
    have h1 : (d + 1) % 65536 = d + 1 := Nat.mod_eq_of_lt (by omega)
    have c0 := (putbit_drop_spec code 0 d hc).1
    have c1 := (putbit_drop_spec (putbit_drop code 0 d) 1 d c0).1
    simp only [htree.toNode, huffnode_build_codes, build_codes_drop, htree.toNode_isNull, h1]
    simp only [ne_eq, not_true_eq_false, Bool.false_eq_true, and_self, or_self, if_false]
    rw [putbit_some code 0 d hc (by omega)]
    simp only
    rw [ihl ctx _ (d + 1) c0 (by omega)]
    simp only
    rw [putbit_some _ 1 d c0 (by omega)]
    simp only
    rw [ihr _ _ (d + 1) c1 (by omega)]

/-- On a tree that reaches below level 16, `huffnode_build_codes` has no defined
result: a `putbit` writes behind the codeword. -/
theorem build_codes_none (t : htree) :
    ∀ (ctx : huffcontext) (code : List Nat) (d : Nat), code.length = 2 → d ≤ 16 →
      16 < d + t.height → huffnode_build_codes ctx t.toNode code d = none := by
  induction t with
  | leaf w s =>
    intro ctx code d _ h1 h2
    simp only [htree.height] at h2
    omega
  | node l r ihl ihr =>
    intro ctx code d hc h16 hd
    simp only [htree.height] at hd
    have h1 : (d + 1) % 65536 = d + 1 := Nat.mod_eq_of_lt (by omega)
    have c0 := (putbit_drop_spec code 0 d hc).1
    have c1 := (putbit_drop_spec (putbit_drop code 0 d) 1 d c0).1
    simp only [htree.toNode, huffnode_build_codes, htree.toNode_isNull, h1]
    simp only [ne_eq, not_true_eq_false, Bool.false_eq_true, and_self, or_self, if_false]
    by_cases hd16 : d = 16
    · rw [putbit_none code 0 d hc (by omega)]
    · rw [putbit_some code 0 d hc (by omega)]
      simp only
      by_cases hl : 16 < d + 1 + l.height
      · rw [ihl ctx _ (d + 1) c0 (by omega) hl]
      · rw [build_codes_some l ctx _ (d + 1) c0 (by omega)]
        simp only
        rw [putbit_some _ 1 d c0 (by omega)]
        simp only
        rw [ihr _ _ (d + 1) c1 (by omega) (by omega)]

/-- The rebuild on a handle with a 256-entry table: the total variant returns 0 and
leaves the handle in a rebuilt state, and `huffman_rebuild_all` is defined, with
that result, exactly when the tree is at most 16 deep. -/
theorem rebuild_all_drop_full (lfirst : Bool) (huffm : huffman)
    (hT : huffm.table.length = 256) :
    (rebuild_all_drop lfirst huffm).1 = 0 ∧
    ∃ t, Rebuilt lfirst huffm.table (rebuild_all_drop lfirst huffm).2 t ∧
      huffman_rebuild_all lfirst huffm =
        if t.height ≤ 16 then some (rebuild_all_drop lfirst huffm) else none := by
  obtain ⟨t, ctx2, hH, q1, q2, q3, q4, q5, q6, q7, heq, hnew⟩ :=
    rebuild_all_drop_spec lfirst huffm hT
  rw [heq]
  refine ⟨rfl, t, ?_, ?_⟩
  swap
  · by_cases hh : t.height ≤ 16
    · rw [if_pos hh, hnew, build_codes_some t ctx2 [0, 0] 0 rfl (by omega)]
      rfl
    · rw [if_neg hh, hnew, build_codes_none t ctx2 [0, 0] 0 rfl (by omega) (by omega)]
      rfl
  have hperm : t.sw.Perm ((List.range 256).map fun i => (i, floorw (huffm.table.getD i 0))) := by
    rw [← Multiset.coe_eq_coe, hH.sw_eq, leafForest_sw]
  have hlen : t.leaves.length = 256 := by
    have := hperm.length_eq
    simpa [htree.sw] using this
  have hcodes := build_codes_drop_eq t ctx2 [0, 0] 0
  rw [htree.leafcodes_eq t [0, 0] 0 (by have := t.height_lt_leaves; omega)] at hcodes
  simp only [Nat.zero_add] at hcodes
  generalize hL : t.leaves.map (fun e => (e.1, (⟨e.2.2.length, putpath [0, 0] 0 e.2.2⟩ :
    huffcode))) = L at hcodes
  have hLfst : L.map Prod.fst = t.sw.map Prod.fst := by
    rw [← hL]
    simp [htree.sw, Function.comp]
  have hnodup : (L.map Prod.fst).Nodup := by
    rw [hLfst]
    have h1 := (hperm.map Prod.fst).nodup_iff
    rw [h1, List.map_map]
    have : (Prod.fst ∘ fun i => (i, floorw (huffm.table.getD i 0))) = id := rfl
    rw [this, List.map_id]
    exact List.nodup_range 256
  have hsym : ∀ e ∈ t.leaves, e.1 < 256 := by
    intro e he
    have h1 : (e.1, e.2.1) ∈ t.sw := List.mem_map.mpr ⟨e, he, rfl⟩
    have h2 := hperm.mem_iff.mp h1
    obtain ⟨i, hi, hie⟩ := List.mem_map.mp h2
    have : i = e.1 := congrArg Prod.fst hie
    rw [← this]
    exact List.mem_range.mp hi
  have hmemL : ∀ e ∈ t.leaves, (e.1, (⟨e.2.2.length, putpath [0, 0] 0 e.2.2⟩ : huffcode)) ∈ L := by
    intro e he
    rw [← hL]
    exact List.mem_map.mpr ⟨e, he, rfl⟩
  obtain ⟨f1, f2, f3, f4⟩ := foldl_record_fields L ctx2
  obtain ⟨m1, m2, m3⟩ := foldl_record_maxbits L ctx2
  obtain ⟨n1, n2, n3⟩ := foldl_record_minbits L ctx2
  rw [← hcodes] at f1 f2 f3 f4 m1 m2 m3 n1 n2 n3
  have hne : ∃ e, e ∈ t.leaves := by
    cases hl : t.leaves with
    | nil => rw [hl] at hlen; simp at hlen
    | cons e _ => exact ⟨e, List.mem_cons_self _ _⟩
  refine ⟨hH, ?_, rfl, ?_, ?_, hperm, ?_, ?_, ?_, ?_, ?_, ?_, ?_⟩
  · show pqget (build_codes_drop ctx2 t.toNode [0, 0] 0).queue 1 = t.toNode
    rw [f1]; exact q2
  · show (build_codes_drop ctx2 t.toNode [0, 0] 0).qend = 2
    rw [f2]; exact q1
  · show (build_codes_drop ctx2 t.toNode [0, 0] 0).nodes = 511
    rw [f3]; exact q4
  · show (build_codes_drop ctx2 t.toNode [0, 0] 0).codes.length = 256
    rw [f4, q5]; exact zero_codes_length
  · intro e he
    show (build_codes_drop ctx2 t.toNode [0, 0] 0).codes.getD e.1 _ = _
    rw [hcodes]
    exact foldl_record_codes_mem L e.1 _ _ hnodup (hmemL e he) ctx2
      (by rw [q5, zero_codes_length]; exact hsym e he)
  · intro e he
    exact m2 _ (hmemL e he)
  · show ∃ e ∈ t.leaves, (build_codes_drop ctx2 t.toNode [0, 0] 0).maxbits = e.2.2.length
    rcases m3 with h | ⟨x, hx, h⟩
    · obtain ⟨e, he⟩ := hne
      refine ⟨e, he, ?_⟩
      have := m2 _ (hmemL e he)
      rw [h, q6] at this
      rw [h, q6]
      simp only at this
      omega
    · rw [← hL] at hx
      obtain ⟨e, he, rfl⟩ := List.mem_map.mp hx
      exact ⟨e, he, h⟩
  · intro e he
    exact n2 _ (hmemL e he)
  · show (build_codes_drop ctx2 t.toNode [0, 0] 0).minbits = 16 ∨ _
    rcases n3 with h | ⟨x, hx, h⟩
    · left; rw [h, q7]
    · right
      rw [← hL] at hx
      obtain ⟨e, he, rfl⟩ := List.mem_map.mp hx
      exact ⟨e, he, h⟩
  · show (build_codes_drop ctx2 t.toNode [0, 0] 0).minbits ≤ 16
    rw [q7] at n1; exact n1

theorem rebuild_all_drop_rebuilt (lfirst : Bool) (huffm : huffman)
    (hT : huffm.table.length = 256) :
    (rebuild_all_drop lfirst huffm).1 = 0 ∧
    ∃ t, Rebuilt lfirst huffm.table (rebuild_all_drop lfirst huffm).2 t := by
  obtain ⟨h1, t, R, _⟩ := rebuild_all_drop_full lfirst huffm hT
  exact ⟨h1, t, R⟩

/-- The total variant of the rebuild with a table returns 0 and leaves the handle
rebuilt from it, whatever the handle held before. -/
theorem rebuild_drop_rebuilt (lfirst : Bool) (h0 : huffman) (T : List Nat)
    (hT : validTable T) :
    (rebuild_drop lfirst h0 (some T)).1 = 0 ∧
    ∃ t, Rebuilt lfirst T (rebuild_drop lfirst h0 (some T)).2 t :=
  rebuild_all_drop_rebuilt lfirst { h0 with table := T } hT.1

/-- The total variant of the rebuild with a null table rebuilds from the all-zero
table. -/
theorem rebuild_drop_null (lfirst : Bool) (h0 : huffman) :
    (rebuild_drop lfirst h0 none).1 = 0 ∧
    ∃ t, Rebuilt lfirst (List.replicate 256 0) (rebuild_drop lfirst h0 none).2 t :=
  rebuild_all_drop_rebuilt lfirst { h0 with table := List.replicate 256 0 }
    (List.length_replicate _ _)

/-! ## Encode and decode -/

theorem codeword_bits_length (c : huffcode) : (codeword_bits c).length = c.bitlen := by
  simp [codeword_bits]

theorem codeword_bits_getD (c : huffcode) (i : Nat) (hi : i < c.bitlen) :
    (codeword_bits c).getD i false = bufbit c.code i := by
  unfold codeword_bits
  rw [List.getD_eq_getElem _ _ (by simpa using hi)]
  simp

theorem huffman_encode_bits_spec :
    ∀ (k : Nat) (code : List Nat) (rbs roff : Nat) (out : List Nat) (wbs woff : Nat)
      (bitlen : Int),
      8 * rbs + roff + k ≤ 8 * code.length → 8 * wbs + woff + k ≤ 8 * out.length →
      ∃ out1 wbs1 woff1,
        huffman_encode_bits k code rbs roff out wbs woff bitlen =
          some (out1, wbs1, woff1, bitlen + k) ∧
        out1.length = out.length ∧ 8 * wbs1 + woff1 = 8 * wbs + woff + k ∧
        (woff < 8 → woff1 < 8) ∧
        ∀ j, bufbit out1 j =
          if 8 * wbs + woff ≤ j ∧ j < 8 * wbs + woff + k then
            bufbit code (8 * rbs + roff + (j - (8 * wbs + woff)))
          else bufbit out j := by
  intro k
  induction k with
  | zero =>
    intro code rbs roff out wbs woff bitlen _ _
    refine ⟨out, wbs, woff, by simp [huffman_encode_bits], rfl, rfl, id, ?_⟩
    intro j
    rw [if_neg (by omega)]
  | succ k ih =>
    intro code rbs roff out wbs woff bitlen hr hw
    obtain ⟨rbs1, roff1, r1, r2, _⟩ := bitstream_readbit_spec code rbs roff (by omega)
    obtain ⟨out1, wbs1, woff1, w1, w2, w3, w4, w5⟩ := bitstream_writebit_spec out wbs
      (if bufbit code (8 * rbs + roff) then 1 else 0) woff (by omega)
    obtain ⟨out2, wbs2, woff2, i1, i2, i3, i4, i5⟩ := ih code rbs1 roff1 out1 wbs1 woff1
      (bitlen + 1) (by omega) (by rw [w2]; omega)
    refine ⟨out2, wbs2, woff2, ?_, by rw [i2, w2], by omega, fun h => i4 (w4 h), ?_⟩
    · unfold huffman_encode_bits
      simp only [r1, w1, i1]
      congr 4
      push_cast
      ring
    · intro j
      rw [i5 j, w5 j]
      by_cases h1 : j = 8 * wbs + woff
      · rw [if_neg (show ¬ (8 * wbs1 + woff1 ≤ j ∧ j < 8 * wbs1 + woff1 + k) by omega),
          if_pos h1,
          if_pos (show 8 * wbs + woff ≤ j ∧ j < 8 * wbs + woff + (k + 1) by omega)]
        have h0 : j - (8 * wbs + woff) = 0 := by omega
        rw [h0, Nat.add_zero]
        cases bufbit code (8 * rbs + roff) <;> simp
      · rw [if_neg h1]
        by_cases h2 : 8 * wbs1 + woff1 ≤ j ∧ j < 8 * wbs1 + woff1 + k
        · rw [if_pos h2,
            if_pos (show 8 * wbs + woff ≤ j ∧ j < 8 * wbs + woff + (k + 1) by omega)]
          congr 1
          omega
        · rw [if_neg h2,
            if_neg (show ¬ (8 * wbs + woff ≤ j ∧ j < 8 * wbs + woff + (k + 1)) by omega)]

theorem huffman_encode_loop_spec (h : huffman) :
    ∀ (data out : List Nat) (wbs woff : Nat) (bitlen : Int),
      (∀ s ∈ data, 1 ≤ (codeOf h s).bitlen ∧ (codeOf h s).bitlen ≤ 16 ∧
        (codeOf h s).code.length = 2) →
      8 * wbs + woff + (encbits h data).length ≤ 8 * out.length →
      ∃ out1, huffman_encode_loop h data out wbs woff bitlen =
          some (bitlen + (encbits h data).length, out1) ∧
        out1.length = out.length ∧
        ∀ j, bufbit out1 j =
          if 8 * wbs + woff ≤ j ∧ j < 8 * wbs + woff + (encbits h data).length then
            (encbits h data).getD (j - (8 * wbs + woff)) false
          else bufbit out j := by
  intro data
  induction data with
  | nil =>
    intro out wbs woff bitlen _ _
    refine ⟨out, by simp [huffman_encode_loop, encbits], rfl, ?_⟩
    intro j
    rw [if_neg (by simp [encbits])]
  | cons s S ih =>
    intro out wbs woff bitlen hc hcap
    obtain ⟨c1, c2, c3⟩ := hc s (List.mem_cons_self _ _)
    have hlen : (encbits h (s :: S)).length = (codeOf h s).bitlen + (encbits h S).length := by
      simp [encbits, codeword_bits_length]
    rw [hlen] at hcap
    obtain ⟨out1, wbs1, woff1, e1, e2, e3, _, e5⟩ := huffman_encode_bits_spec
      (codeOf h s).bitlen (codeOf h s).code 0 0 out wbs woff bitlen (by rw [c3]; omega)
      (by omega)
    obtain ⟨out2, i1, i2, i3⟩ := ih out1 wbs1 woff1 (bitlen + (codeOf h s).bitlen)
      (fun x hx => hc x (List.mem_cons_of_mem _ hx)) (by rw [e2]; omega)
    refine ⟨out2, ?_, by rw [i2, e2], ?_⟩
    · unfold huffman_encode_loop
      have hc0 : ¬ (h.context.codes.getD s ⟨0, [0, 0]⟩).bitlen ≤ 0 := by
        show ¬ (codeOf h s).bitlen ≤ 0
        omega
      simp only [hc0, if_false]
      show (match huffman_encode_bits (codeOf h s).bitlen (codeOf h s).code 0 0 out wbs woff
        bitlen with
        | none => none
        | some (out1, wbs1, woff1, bitlen1) =>
          huffman_encode_loop h S out1 wbs1 woff1 bitlen1) = _
      rw [e1]
      dsimp only
      rw [i1, hlen]
      push_cast
      rw [add_assoc]
    · intro j
      rw [i3 j, e5 j, hlen]
      have hcw : encbits h (s :: S) = codeword_bits (codeOf h s) ++ encbits h S := rfl
      by_cases h1 : 8 * wbs1 + woff1 ≤ j ∧ j < 8 * wbs1 + woff1 + (encbits h S).length
      · rw [if_pos h1, if_pos (by omega), hcw,
          List.getD_append_right _ _ _ _ (by rw [codeword_bits_length]; omega),
          codeword_bits_length]
        congr 1
        omega
      · rw [if_neg h1]
        by_cases h2 : 8 * wbs + woff ≤ j ∧ j < 8 * wbs + woff + (codeOf h s).bitlen
        · rw [if_pos h2, if_pos (by omega), hcw,
            List.getD_append _ _ _ _ (by rw [codeword_bits_length]; omega),
            codeword_bits_getD _ _ (by omega)]
          simp
        · rw [if_neg h2, if_neg (by omega)]

/-- `huffman_encode` with codewords of 1 to 16 bits and room in the output buffer:
it returns the number of bits of the codewords of `data` and has written them, in
order, from bit 0 of the buffer on. -/
theorem huffman_encode_spec (h : huffman) (outbuf data : List Nat)
    (hc : ∀ s ∈ data, 1 ≤ (codeOf h s).bitlen ∧ (codeOf h s).bitlen ≤ 16 ∧
      (codeOf h s).code.length = 2)
    (hcap : (encbits h data).length ≤ 8 * outbuf.length) :
    ∃ out1, huffman_encode h outbuf data = some (((encbits h data).length : Int), out1) ∧
      out1.length = outbuf.length ∧
      (∀ j, j < (encbits h data).length → bufbit out1 j = (encbits h data).getD j false) ∧
      (∀ j, (encbits h data).length ≤ j → bufbit out1 j = bufbit outbuf j) := by
  obtain ⟨out1, e1, e2, e3⟩ := huffman_encode_loop_spec h data outbuf 0 0 0 hc (by omega)
  refine ⟨out1, ?_, e2, ?_, ?_⟩
  · unfold huffman_encode
    rw [e1]
    simp
  · intro j hj
    rw [e3 j, if_pos (by omega)]
    simp
  · intro j hj
    rw [e3 j, if_neg (by omega)]

theorem readbits_succ (data : List Nat) (r k : Nat) :
    readbits data r (k + 1) = bufbit data r :: readbits data (r + 1) k := by
  unfold readbits
  rw [List.range_succ_eq_map, List.map_cons, List.map_map]
  congr 1
  apply List.map_congr_left
  intro i _
  simp only [Function.comp, Nat.succ_eq_add_one]
  congr 1
  omega

/-- The loop of `huffman_decode` is the walk over the bits that it reads. -/
theorem huffman_decode_loop_eq (root : huffnode) :
    ∀ (k : Nat) (data : List Nat) (bs off : Nat) (node : huffnode) (out : List Nat),
      8 * bs + off + k ≤ 8 * data.length →
      huffman_decode_loop root k data bs off node out =
        some (walk root (readbits data (8 * bs + off) k) node out) := by
  intro k
  induction k with
  | zero =>
    intro data bs off node out _
    simp [huffman_decode_loop, readbits, walk]
  | succ k ih =>
    intro data bs off node out hk
    obtain ⟨bs1, off1, r1, r2, _⟩ := bitstream_readbit_spec data bs off (by omega)
    unfold huffman_decode_loop
    rw [r1, readbits_succ]
    dsimp only
    have hnode : (if (if bufbit data (8 * bs + off) = true then 1 else 0) = 0 then node.left
        else node.right) = (if bufbit data (8 * bs + off) then node.right else node.left) := by
      cases bufbit data (8 * bs + off) <;> simp
    rw [hnode]
    unfold walk
    rw [← r2]
    generalize (if bufbit data (8 * bs + off) then node.right else node.left) = n1
    by_cases h1 : n1.isNull = true
    · simp only [h1, if_true]
    · by_cases h2 : n1.isLeaf = true
      · simp only [h1, h2, if_true, if_false]
        exact ih data bs1 off1 root _ (by omega)
      · simp only [h1, h2, if_false]
        exact ih data bs1 off1 _ out (by omega)

theorem toNode_isLeaf_node (l r : htree) : (htree.node l r).toNode.isLeaf = false := by
  have h := htree.toNode_isNull l
  simp only [htree.toNode, huffnode.isLeaf, huffnode.symbol, huffnode.left, huffnode.right, h]
  rfl

theorem toNode_isLeaf_leaf (w s : Nat) : (htree.leaf w s).toNode.isLeaf = true := by
  simp [htree.toNode, huffnode.isLeaf, huffnode.left, huffnode.right, huffnode.isNull]

theorem walk_node (root : huffnode) (l r : htree) (b : Bool) (B : List Bool) (out : List Nat) :
    walk root (b :: B) (htree.node l r).toNode out = arrive root (if b then r else l) B out := by
  have key : ∀ c : htree, (if c.toNode.isNull then (none, out)
      else if c.toNode.isLeaf then walk root B root (out ++ [c.toNode.symbol])
      else walk root B c.toNode out) = arrive root c B out := by
    intro c
    cases c with
    | leaf w s =>
      rw [htree.toNode_isNull, toNode_isLeaf_leaf]
      rfl
    | node cl cr =>
      rw [htree.toNode_isNull, toNode_isLeaf_node]
      rfl
  cases b
  · simp only [walk, htree.toNode, huffnode.left, Bool.false_eq_true, if_false]
    exact key l
  · simp only [walk, htree.toNode, huffnode.right, if_true]
    exact key r

/-- Following the path of a leaf writes its symbol and leads back to the root. -/
theorem arrive_path (root : huffnode) (v : htree) :
    ∀ e ∈ v.leaves, ∀ (rest : List Bool) (out : List Nat),
      arrive root v (e.2.2 ++ rest) out = walk root rest root (out ++ [e.1]) := by
  induction v with
  | leaf w s =>
    intro e he rest out
    simp only [htree.leaves, List.mem_singleton] at he
    subst he
    rfl
  | node l r ihl ihr =>
    intro e he rest out
    simp only [htree.leaves, List.mem_append, List.mem_map] at he
    rcases he with ⟨e', he', rfl⟩ | ⟨e', he', rfl⟩
    · show walk root (false :: (e'.2.2 ++ rest)) (htree.node l r).toNode out = _
      rw [walk_node]
      exact ihl e' he' rest out
    · show walk root (true :: (e'.2.2 ++ rest)) (htree.node l r).toNode out = _
      rw [walk_node]
      exact ihr e' he' rest out

theorem htree.node_path_ne_nil (l r : htree) :
    ∀ e ∈ (htree.node l r).leaves, 1 ≤ e.2.2.length := by
  intro e he
  simp only [htree.leaves, List.mem_append, List.mem_map] at he
  rcases he with ⟨e', _, rfl⟩ | ⟨e', _, rfl⟩ <;> simp

theorem Rebuilt.leaves_length {lfirst : Bool} {T : List Nat} {h : huffman} {t : htree}
    (R : Rebuilt lfirst T h t) : t.leaves.length = 256 := by
  have := R.perm.length_eq
  simpa [htree.sw] using this

theorem Rebuilt.is_node {lfirst : Bool} {T : List Nat} {h : huffman} {t : htree}
    (R : Rebuilt lfirst T h t) : ∃ l r, t = htree.node l r := by
  have hl := R.leaves_length
  cases t with
  | leaf w s => simp [htree.leaves] at hl
  | node l r => exact ⟨l, r, rfl⟩

theorem Rebuilt.path_pos {lfirst : Bool} {T : List Nat} {h : huffman} {t : htree}
    (R : Rebuilt lfirst T h t) : ∀ e ∈ t.leaves, 1 ≤ e.2.2.length := by
  obtain ⟨l, r, rfl⟩ := R.is_node
  exact htree.node_path_ne_nil l r

theorem Rebuilt.symbol_lt {lfirst : Bool} {T : List Nat} {h : huffman} {t : htree}
    (R : Rebuilt lfirst T h t) : ∀ e ∈ t.leaves, e.1 < 256 ∧ e.2.1 = floorw (T.getD e.1 0) := by
  intro e he
  have h1 : (e.1, e.2.1) ∈ t.sw := List.mem_map.mpr ⟨e, he, rfl⟩
  obtain ⟨i, hi, hie⟩ := List.mem_map.mp (R.perm.mem_iff.mp h1)
  have e1 : i = e.1 := congrArg Prod.fst hie
  have e2 : floorw (T.getD i 0) = e.2.1 := congrArg Prod.snd hie
  rw [← e1]
  exact ⟨List.mem_range.mp hi, by rw [e1] at e2 ⊢; exact e2.symm⟩

/-- Every byte value has a leaf in the tree of a rebuilt handle. -/
theorem Rebuilt.leaf_of_symbol {lfirst : Bool} {T : List Nat} {h : huffman} {t : htree}
    (R : Rebuilt lfirst T h t) (s : Nat) (hs : s < 256) :
    ∃ e ∈ t.leaves, e.1 = s := by
  have h1 : (s, floorw (T.getD s 0)) ∈ t.sw :=
    R.perm.mem_iff.mpr (List.mem_map.mpr ⟨s, List.mem_range.mpr hs, rfl⟩)
  obtain ⟨e, he, hes⟩ := List.mem_map.mp h1
  exact ⟨e, he, congrArg Prod.fst hes⟩

theorem Rebuilt.symbols_nodup {lfirst : Bool} {T : List Nat} {h : huffman} {t : htree}
    (R : Rebuilt lfirst T h t) : (t.leaves.map Prod.fst).Nodup := by
  have h0 : t.leaves.map Prod.fst = t.sw.map Prod.fst := by
    simp [htree.sw, Function.comp]
  rw [h0, (R.perm.map Prod.fst).nodup_iff, List.map_map]
  have : (Prod.fst ∘ fun i => (i, floorw (T.getD i 0))) = id := rfl
  rw [this, List.map_id]
  exact List.nodup_range 256

/-- The leaf of a symbol is unique. -/
theorem Rebuilt.leaf_unique {lfirst : Bool} {T : List Nat} {h : huffman} {t : htree}
    (R : Rebuilt lfirst T h t) (e1 e2 : Nat × Nat × List Bool) (h1 : e1 ∈ t.leaves)
    (h2 : e2 ∈ t.leaves) (hs : e1.1 = e2.1) : e1 = e2 :=
  List.inj_on_of_nodup_map R.symbols_nodup h1 h2 hs

theorem putpath_bits (p : List Bool) (hp : p.length ≤ 16) :
    (List.range p.length).map (bufbit (putpath [0, 0] 0 p)) = p := by
  apply List.ext_getElem
  · simp
  · intro n h1 h2
    rw [List.getElem_map, List.getElem_range, (putpath_spec p [0, 0] 0 rfl).2 n,
      if_pos ⟨Nat.zero_le _, by omega, by omega⟩, Nat.sub_zero, List.getD_eq_getElem _ _ h2]

/-- The table entry of a leaf: its depth and, up to 16 bits, its path. -/
theorem Rebuilt.codeOf_leaf {lfirst : Bool} {T : List Nat} {h : huffman} {t : htree}
    (R : Rebuilt lfirst T h t) (e : Nat × Nat × List Bool) (he : e ∈ t.leaves) :
    (codeOf h e.1).bitlen = e.2.2.length ∧ (codeOf h e.1).code.length = 2 ∧
    (e.2.2.length ≤ 16 → codeword_bits (codeOf h e.1) = e.2.2) := by
  have hc : codeOf h e.1 = ⟨e.2.2.length, putpath [0, 0] 0 e.2.2⟩ := R.codes e he
  rw [hc]
  refine ⟨rfl, (putpath_spec e.2.2 [0, 0] 0 rfl).1, ?_⟩
  intro h16
  exact putpath_bits e.2.2 h16

/-- With codewords of at most 16 bits, the walk over the codewords of `S` writes `S`
and ends at the root. -/
theorem Rebuilt.walk_encbits {lfirst : Bool} {T : List Nat} {h : huffman} {t : htree}
    (R : Rebuilt lfirst T h t) (hmax : h.context.maxbits ≤ 16) :
    ∀ (S out : List Nat), validBytes S →
      walk t.toNode (encbits h S) t.toNode out = (some t.toNode, out ++ S) := by
  intro S
  induction S with
  | nil => intro out _; simp [encbits, walk]
  | cons s S ih =>
    intro out hS
    obtain ⟨e, he, hes⟩ := R.leaf_of_symbol s (hS s (List.mem_cons_self _ _))
    have hcw := (R.codeOf_leaf e he).2.2 (le_trans (R.maxbits_ge e he) hmax)
    rw [hes] at hcw
    have harr := arrive_path t.toNode t e he (encbits h S) out
    obtain ⟨l, r, hlr⟩ := R.is_node
    have hw : walk t.toNode (encbits h (s :: S)) t.toNode out =
        arrive t.toNode t (e.2.2 ++ encbits h S) out := by
      rw [show encbits h (s :: S) = codeword_bits (codeOf h s) ++ encbits h S from rfl, hcw]
      subst hlr
      rfl
    rw [hw, harr, ih _ (fun x hx => hS x (List.mem_cons_of_mem _ hx)), hes]
    simp

theorem Rebuilt.encode_ready {lfirst : Bool} {T : List Nat} {h : huffman} {t : htree}
    (R : Rebuilt lfirst T h t) (hmax : h.context.maxbits ≤ 16) (S : List Nat)
    (hS : validBytes S) :
    ∀ s ∈ S, 1 ≤ (codeOf h s).bitlen ∧ (codeOf h s).bitlen ≤ 16 ∧
      (codeOf h s).code.length = 2 := by
  intro s hs
  obtain ⟨e, he, hes⟩ := R.leaf_of_symbol s (hS s hs)
  obtain ⟨c1, c2, _⟩ := R.codeOf_leaf e he
  rw [hes] at c1 c2
  rw [c1]
  exact ⟨R.path_pos e he, le_trans (R.maxbits_ge e he) hmax, c2⟩

/-- The encoding has at most `maxbits` bits for every byte. -/
theorem Rebuilt.encbits_length_le {lfirst : Bool} {T : List Nat} {h : huffman} {t : htree}
    (R : Rebuilt lfirst T h t) (S : List Nat) (hS : validBytes S) :
    (encbits h S).length ≤ S.length * h.context.maxbits := by
  induction S with
  | nil => simp [encbits]
  | cons s S ih =>
    have := ih (fun x hx => hS x (List.mem_cons_of_mem _ hx))
    obtain ⟨e, he, hes⟩ := R.leaf_of_symbol s (hS s (List.mem_cons_self _ _))
    have c1 := (R.codeOf_leaf e he).1
    rw [hes] at c1
    have c2 := R.maxbits_ge e he
    simp only [encbits, List.length_append, codeword_bits_length, List.length_cons, c1]
    rw [Nat.add_mul]
    omega

theorem readbits_eq (buf : List Nat) (B : List Bool)
    (hB : ∀ j, j < B.length → bufbit buf j = B.getD j false) :
    readbits buf 0 B.length = B := by
  apply List.ext_getElem
  · simp [readbits]
  · intro n h1 h2
    simp only [readbits, List.getElem_map, List.getElem_range, Nat.zero_add]
    rw [hB n h2, List.getD_eq_getElem _ _ h2]

/-- `huffman_decode` on a bit count that lies inside the buffer is the walk over
the bits, followed by the test that the walk is back at the root. -/
theorem huffman_decode_eq (h : huffman) (data : List Nat) (n : Int)
    (hn : n.toNat ≤ 8 * data.length) :
    huffman_decode h data n =
      match walk (pqget h.context.queue 1) (readbits data 0 n.toNat)
        (pqget h.context.queue 1) [] with
      | (none, decode) => some (-1, decode)
      | (some node, decode) =>
        if node ≠ pqget h.context.queue 1 then some (-1, decode)
        else some ((decode.length : Int), decode) := by
  unfold huffman_decode
  dsimp only
  rw [huffman_decode_loop_eq _ _ _ _ _ _ _ (by omega)]
  simp only [Nat.mul_zero, Nat.add_zero]
  rcases walk (pqget h.context.queue 1) (readbits data 0 n.toNat) (pqget h.context.queue 1) []
    with ⟨_ | node, decode⟩ <;> rfl

theorem enclen_cap (h : huffman) (S outbuf : List Nat) (n : Nat)
    (hn : n ≤ S.length * h.context.maxbits)
    (hout : huffman_enclen h S.length ≤ outbuf.length) : n ≤ 8 * outbuf.length := by
  unfold huffman_enclen at hout
  have e : ((S.length : Int) * (h.context.maxbits : Int)) =
      ((S.length * h.context.maxbits : Nat) : Int) := by push_cast; rfl
  rw [e, Int.tdiv_eq_ediv (Int.ofNat_nonneg _) (by norm_num)] at hout
  generalize S.length * h.context.maxbits = m at hn hout
  omega

/-- Round trip on a rebuilt handle whose codewords have at most 16 bits. -/
theorem Rebuilt.roundtrip {lfirst : Bool} {T : List Nat} {h : huffman} {t : htree}
    (R : Rebuilt lfirst T h t) (hmax : h.context.maxbits ≤ 16) (S outbuf : List Nat)
    (hS : validBytes S) (hout : huffman_enclen h S.length ≤ outbuf.length) :
    ∃ buf, huffman_encode h outbuf S = some (((encbits h S).length : Int), buf) ∧
      huffman_decode h buf (encbits h S).length = some ((S.length : Int), S) := by
  have hcap := enclen_cap h S outbuf _ (R.encbits_length_le S hS) hout
  obtain ⟨buf, e1, e2, e3, _⟩ :=
    huffman_encode_spec h outbuf S (R.encode_ready hmax S hS) hcap
  refine ⟨buf, e1, ?_⟩
  rw [huffman_decode_eq h buf _ (by rw [e2]; simpa using hcap)]
  simp only [Int.toNat_ofNat]
  rw [readbits_eq buf _ e3, R.root, R.walk_encbits hmax S [] hS]
  simp

/-! ## Encode and decode: bounds, prefix property, truncated streams -/

theorem BITS2BYTES_natCast (n : Nat) :
    BITS2BYTES (n : Int) = ((n / 8 + (if n % 8 ≠ 0 then 1 else 0) : Nat) : Int) := by
  unfold BITS2BYTES
  have h1 : ((n : Int) >>> 3) = ((n >>> 3 : Nat) : Int) := rfl
  have h2 : Int.land (n : Int) 7 = ((n &&& 7 : Nat) : Int) := rfl
  rw [h1, h2, and_seven, Nat.shiftRight_eq_div_pow]
  have e8 : (2 : Nat) ^ 3 = 8 := by norm_num
  rw [e8]
  by_cases h : n % 8 = 0
  · have h0 : ((n % 8 : Nat) : Int) = 0 := by exact_mod_cast h
    rw [if_neg (by rw [h0]; simp), if_neg (by simp [h])]
    simp
  · have h0 : ¬ (((n % 8 : Nat) : Int) = 0) := by exact_mod_cast h
    rw [if_pos h0, if_pos h]
    push_cast
    rfl

theorem huffman_encode_bits_some :
    ∀ (k : Nat) (code : List Nat) (rbs roff : Nat) (out : List Nat) (wbs woff : Nat)
      (bitlen : Int) (r : List Nat × Nat × Nat × Int),
      huffman_encode_bits k code rbs roff out wbs woff bitlen = some r →
      r.2.2.2 = bitlen + k := by
  intro k
  induction k with
  | zero =>
    intro code rbs roff out wbs woff bitlen r h
    simp only [huffman_encode_bits, Option.some.injEq] at h
    rw [← h]
    simp
  | succ k ih =>
    intro code rbs roff out wbs woff bitlen r h
    unfold huffman_encode_bits at h
    cases hr : bitstream_readbit code rbs roff with
    | none => rw [hr] at h; simp at h
    | some x =>
      obtain ⟨b, rbs1, roff1⟩ := x
      rw [hr] at h
      dsimp only at h
      cases hw : bitstream_writebit out wbs b woff with
      | none => rw [hw] at h; simp at h
      | some y =>
        obtain ⟨out1, wbs1, woff1⟩ := y
        rw [hw] at h
        dsimp only at h
        rw [ih _ _ _ _ _ _ _ r h]
        push_cast
        ring

/-- Whenever `huffman_encode` returns for bytes whose codewords are not empty, it
returns the number of bits of their codewords. -/
theorem huffman_encode_loop_some (h : huffman) :
    ∀ (data out : List Nat) (wbs woff : Nat) (bitlen : Int) (n : Int) (buf : List Nat),
      (∀ s ∈ data, 1 ≤ (codeOf h s).bitlen) →
      huffman_encode_loop h data out wbs woff bitlen = some (n, buf) →
      n = bitlen + (encbits h data).length := by
  intro data
  induction data with
  | nil =>
    intro out wbs woff bitlen n buf _ he
    simp only [huffman_encode_loop, Option.some.injEq, Prod.mk.injEq] at he
    simp [encbits, he.1]
  | cons s S ih =>
    intro out wbs woff bitlen n buf hc he
    unfold huffman_encode_loop at he
    have hc0 : ¬ (h.context.codes.getD s ⟨0, [0, 0]⟩).bitlen ≤ 0 := by
      have := hc s (List.mem_cons_self _ _)
      show ¬ (codeOf h s).bitlen ≤ 0
      omega
    simp only [hc0, if_false] at he
    cases hb : huffman_encode_bits (h.context.codes.getD s ⟨0, [0, 0]⟩).bitlen
        (h.context.codes.getD s ⟨0, [0, 0]⟩).code 0 0 out wbs woff bitlen with
    | none => rw [hb] at he; simp at he
    | some r =>
      obtain ⟨out1, wbs1, woff1, bitlen1⟩ := r
      rw [hb] at he
      dsimp only at he
      have h1 := huffman_encode_bits_some _ _ _ _ _ _ _ _ _ hb
      dsimp only at h1
      rw [ih out1 wbs1 woff1 bitlen1 n buf (fun x hx => hc x (List.mem_cons_of_mem _ hx)) he, h1]
      simp only [encbits, List.length_append, codeword_bits_length]
      push_cast
      rw [add_assoc]
      rfl

theorem Rebuilt.bitlen_pos {lfirst : Bool} {T : List Nat} {h : huffman} {t : htree}
    (R : Rebuilt lfirst T h t) (s : Nat) (hs : s < 256) : 1 ≤ (codeOf h s).bitlen := by
  obtain ⟨e, he, hes⟩ := R.leaf_of_symbol s hs
  have c1 := (R.codeOf_leaf e he).1
  rw [hes] at c1
  rw [c1]
  exact R.path_pos e he

/-- The paths of the leaves of a tree are prefix-free. -/
theorem htree.paths_prefix_free (t : htree) :
    ∀ e1 ∈ t.leaves, ∀ e2 ∈ t.leaves, e1.2.2 <+: e2.2.2 → e1 = e2 := by
  induction t with
  | leaf w s =>
    intro e1 h1 e2 h2 _
    simp only [htree.leaves, List.mem_singleton] at h1 h2
    rw [h1, h2]
  | node l r ihl ihr =>
    intro e1 h1 e2 h2 hp
    simp only [htree.leaves, List.mem_append, List.mem_map] at h1 h2
    rcases h1 with ⟨a, ha, rfl⟩ | ⟨a, ha, rfl⟩ <;> rcases h2 with ⟨b, hb, rfl⟩ | ⟨b, hb, rfl⟩
    · have := ihl a ha b hb ((List.cons_prefix_cons.mp hp).2)
      rw [this]
    · exact absurd (List.cons_prefix_cons.mp hp).1 (by simp)
    · exact absurd (List.cons_prefix_cons.mp hp).1 (by simp)
    · have := ihr a ha b hb ((List.cons_prefix_cons.mp hp).2)
      rw [this]

theorem htree.toNode_size_pos (t : htree) : 1 ≤ t.toNode.size := by
  cases t <;> simp [htree.toNode, huffnode.size]

/-- A proper part of a codeword leads from the root to an inner node below it. -/
theorem walk_partial (root : huffnode) (v : htree) :
    ∀ e ∈ v.leaves, ∀ (r : Nat) (out : List Nat), r < e.2.2.length →
      ∃ x, walk root (e.2.2.take r) v.toNode out = (some x, out) ∧
        x.size ≤ v.toNode.size ∧ (1 ≤ r → x.size < v.toNode.size) := by
  induction v with
  | leaf w s =>
    intro e he r out hr
    simp only [htree.leaves, List.mem_singleton] at he
    rw [he] at hr
    simp at hr
  | node l r' ihl ihr =>
    intro e he r out hr
    cases r with
    | zero => exact ⟨_, rfl, le_refl _, fun h => absurd h (by omega)⟩
    | succ r0 =>
      have key : ∀ (c : htree) (b : Bool), c.toNode.size < (htree.node l r').toNode.size →
          (if b then r' else l) = c →
          ∀ e' ∈ c.leaves, r0 < e'.2.2.length →
          (∀ e' ∈ c.leaves, ∀ (r : Nat) (out : List Nat), r < e'.2.2.length →
            ∃ x, walk root (e'.2.2.take r) c.toNode out = (some x, out) ∧
              x.size ≤ c.toNode.size ∧ (1 ≤ r → x.size < c.toNode.size)) →
          ∃ x, walk root (b :: e'.2.2.take r0) (htree.node l r').toNode out = (some x, out) ∧
            x.size ≤ (htree.node l r').toNode.size ∧
            (1 ≤ r0 + 1 → x.size < (htree.node l r').toNode.size) := by
        intro c b hsz hcb e' he' hr0 ih
        rw [walk_node, hcb]
        cases c with
        | leaf w s =>
          simp only [htree.leaves, List.mem_singleton] at he'
          rw [he'] at hr0
          simp at hr0
        | node cl cr =>
          obtain ⟨x, hx1, hx2, _⟩ := ih e' he' r0 out hr0
          exact ⟨x, hx1, by omega, fun _ => by omega⟩
      simp only [htree.leaves, List.mem_append, List.mem_map] at he
      have hszl : l.toNode.size < (htree.node l r').toNode.size := by
        simp only [htree.toNode, huffnode.size]; omega
      have hszr : r'.toNode.size < (htree.node l r').toNode.size := by
        simp only [htree.toNode, huffnode.size]; omega
      rcases he with ⟨e', he', rfl⟩ | ⟨e', he', rfl⟩
      · simp only [List.length_cons] at hr
        exact key l false hszl rfl e' he' (by omega) ihl
      · simp only [List.length_cons] at hr
        exact key r' true hszr rfl e' he' (by omega) ihr

theorem huffnode.ne_of_size_lt (x y : huffnode) (h : x.size < y.size) : x ≠ y := by
  intro hxy
  rw [hxy] at h
  exact lt_irrefl _ h

/-- Every byte that the loop of `huffman_decode` writes has used up at least `m`
bits, when no leaf of the tree is less than `m` steps away from the root. -/
theorem huffman_decode_loop_bound (t : htree) (m : Nat) (ht : ∃ l r, t = htree.node l r)
    (hdeep : ∀ e ∈ t.leaves, m ≤ e.2.2.length) :
    ∀ (k : Nat) (data : List Nat) (bs off : Nat) (u : htree) (d : Nat) (out : List Nat)
      (c : Nat) (res : Option huffnode × List Nat),
      (∃ l r, u = htree.node l r) → (∀ e ∈ u.leaves, m ≤ d + e.2.2.length) →
      out.length * m + d ≤ c →
      huffman_decode_loop t.toNode k data bs off u.toNode out = some res →
      res.2.length * m ≤ c + k := by
  intro k
  induction k with
  | zero =>
    intro data bs off u d out c res _ _ hc hres
    simp only [huffman_decode_loop, Option.some.injEq] at hres
    rw [← hres]
    simp only
    omega
  | succ k ih =>
    intro data bs off u d out c res hu hdu hc hres
    obtain ⟨l, r, rfl⟩ := hu
    unfold huffman_decode_loop at hres
    cases hr : bitstream_readbit data bs off with
    | none => rw [hr] at hres; simp at hres
    | some x =>
      obtain ⟨b, bs1, off1⟩ := x
      rw [hr] at hres
      dsimp only at hres
      have hchild : ∃ (cch : htree) (bb : Bool),
          (if b = 0 then (htree.node l r).toNode.left else (htree.node l r).toNode.right) =
            cch.toNode ∧
          ∀ e ∈ cch.leaves, (e.1, e.2.1, bb :: e.2.2) ∈ (htree.node l r).leaves := by
        by_cases hb : b = 0
        · refine ⟨l, false, by simp [hb, htree.toNode, huffnode.left], ?_⟩
          intro e he
          simp only [htree.leaves, List.mem_append, List.mem_map]
          exact Or.inl ⟨e, he, rfl⟩
        · refine ⟨r, true, by simp [hb, htree.toNode, huffnode.right], ?_⟩
          intro e he
          simp only [htree.leaves, List.mem_append, List.mem_map]
          exact Or.inr ⟨e, he, rfl⟩
      obtain ⟨cch, bb, hc1, hc2⟩ := hchild
      rw [hc1, htree.toNode_isNull] at hres
      simp only [Bool.false_eq_true, if_false] at hres
      cases cch with
      | leaf w s =>
        rw [toNode_isLeaf_leaf] at hres
        simp only [if_true] at hres
        have hm := hdu _ (hc2 (s, w, []) (by simp [htree.leaves]))
        simp only [List.length_cons, List.length_nil] at hm
        have := ih data bs1 off1 t 0 (out ++ [(htree.leaf w s).toNode.symbol]) (c + 1) res ht
          (fun e he => by have := hdeep e he; omega)
          (by simp only [List.length_append, List.length_singleton, Nat.add_mul]; omega) hres
        omega
      | node cl cr =>
        rw [toNode_isLeaf_node] at hres
        simp only [Bool.false_eq_true, if_false] at hres
        have := ih data bs1 off1 (htree.node cl cr) (d + 1) out (c + 1) res ⟨cl, cr, rfl⟩
          (fun e he => by
            have := hdu _ (hc2 e he)
            simp only [List.length_cons] at this
            omega)
          (by omega) hres
        omega

/-! ## Tables without ties: the construction as a list computation -/

theorem strictW_pairwise : ∀ L : List (Nat × htree), strictW L = true →
    L.Pairwise (fun p q => p.1 < q.1) := by
  intro L
  induction L with
  | nil => intro _; exact List.Pairwise.nil
  | cons a L ih =>
    intro h
    cases L with
    | nil => exact List.pairwise_singleton _ _
    | cons b r =>
      simp only [strictW, Bool.and_eq_true] at h
      have h := And.intro (Nat.blt_eq.mp h.1) h.2
      have hp := ih h.2
      refine List.Pairwise.cons ?_ hp
      intro q hq
      rcases List.mem_cons.mp hq with rfl | hq
      · exact h.1
      · exact lt_trans h.1 (List.rel_of_pairwise_cons hp hq)

theorem insertStrict_spec (n : Nat × htree) :
    ∀ (L l : List (Nat × htree)), L.Pairwise (fun p q => p.1 < q.1) →
      insertStrict n L = some l →
      l.Perm (n :: L) ∧ l.Pairwise (fun p q => p.1 < q.1) := by
  intro L
  induction L with
  | nil =>
    intro l _ h
    simp only [insertStrict, Option.some.injEq] at h
    rw [← h]
    exact ⟨List.Perm.refl _, List.pairwise_singleton _ _⟩
  | cons x xs ih =>
    intro l hp h
    unfold insertStrict at h
    cases h2 : Nat.blt x.1 n.1 with
    | true =>
      rw [h2] at h
      dsimp only at h
      have h2 : x.1 < n.1 := Nat.blt_eq.mp h2
      cases hi : insertStrict n xs with
      | none => rw [hi] at h; simp at h
      | some l1 =>
        rw [hi] at h
        simp only [Option.some.injEq] at h
        rw [← h]
        obtain ⟨q1, q2⟩ := ih l1 (List.Pairwise.of_cons hp) hi
        refine ⟨(List.Perm.cons x q1).trans (List.Perm.swap n x xs), List.Pairwise.cons ?_ q2⟩
        intro q hq
        rcases List.mem_cons.mp (q1.mem_iff.mp hq) with rfl | hq
        · exact h2
        · exact List.rel_of_pairwise_cons hp hq
    | false =>
      rw [h2] at h
      dsimp only at h
      cases h1 : Nat.blt n.1 x.1 with
      | true =>
        rw [h1] at h
        simp only [Option.some.injEq] at h
        have h1 : n.1 < x.1 := Nat.blt_eq.mp h1
        rw [← h]
        refine ⟨List.Perm.refl _, List.Pairwise.cons ?_ hp⟩
        intro q hq
        rcases List.mem_cons.mp hq with rfl | hq
        · exact h1
        · exact lt_trans h1 (List.rel_of_pairwise_cons hp hq)
      | false =>
        rw [h1] at h
        simp at h

theorem Huff.inv {lfirst : Bool} {F : Multiset htree} {t : htree} (h : Huff lfirst F t) :
    F = {t} ∨ ∃ a b F1, F = a ::ₘ b ::ₘ F1 ∧ (∀ x ∈ b ::ₘ F1, a.weight ≤ x.weight) ∧
      (∀ x ∈ F1, b.weight ≤ x.weight) ∧
      Huff lfirst ((if lfirst then htree.node a b else htree.node b a) ::ₘ F1) t := by
  cases h with
  | single => exact Or.inl rfl
  | step a b F1 _ h1 h2 h3 => exact Or.inr ⟨a, b, F1, rfl, h1, h2, h3⟩

/-- In a list of strictly increasing weights, a tree of least weight is the head. -/
theorem head_of_min (a : Nat × htree) (L : List (Nat × htree)) (a1 : htree)
    (F : Multiset htree)
    (hp : (a :: L).Pairwise (fun p q => p.1 < q.1))
    (hw : ∀ p ∈ a :: L, p.1 = p.2.weight)
    (hF : (((a :: L).map Prod.snd : List htree) : Multiset htree) = a1 ::ₘ F)
    (hmin : ∀ x ∈ F, a1.weight ≤ x.weight) :
    a1 = a.2 ∧ F = ((L.map Prod.snd : List htree) : Multiset htree) := by
  have ha1 : a1 = a.2 := by
    by_contra hne
    have hmem1 : a1 ∈ (((a :: L).map Prod.snd : List htree) : Multiset htree) := by
      rw [hF]; exact Multiset.mem_cons_self _ _
    have hmem2 : a.2 ∈ a1 ::ₘ F := by
      rw [← hF]; simp
    have h2 : a.2 ∈ F := by
      rcases Multiset.mem_cons.mp hmem2 with h | h
      · exact absurd h.symm hne
      · exact h
    have h3 := hmin _ h2
    simp only [List.map_cons, Multiset.mem_coe, List.mem_cons] at hmem1
    rcases hmem1 with h | h
    · exact hne h
    · obtain ⟨q, hq, hqe⟩ := List.mem_map.mp h
      have h4 := List.rel_of_pairwise_cons hp hq
      have h5 := hw q (List.mem_cons_of_mem _ hq)
      have h6 := hw a (List.mem_cons_self _ _)
      rw [hqe] at h5
      omega
  refine ⟨ha1, ?_⟩
  rw [ha1, List.map_cons, ← Multiset.cons_coe, Multiset.cons_inj_right] at hF
  exact hF.symm

/-- With strictly increasing weights the Huffman construction has one result: the
one that `absHuff` computes. -/
theorem absHuff_unique (lfirst : Bool) :
    ∀ (fuel : Nat) (L : List (Nat × htree)) (t t1 : htree),
      L.Pairwise (fun p q => p.1 < q.1) → (∀ p ∈ L, p.1 = p.2.weight) →
      absHuff lfirst fuel L = some t →
      Huff lfirst ((L.map Prod.snd : List htree) : Multiset htree) t1 → t1 = t := by
  have hsingle : ∀ (p : Nat × htree) (t1 : htree),
      Huff lfirst ((([p].map Prod.snd : List htree)) : Multiset htree) t1 → t1 = p.2 := by
    intro p t1 hH
    rcases hH.inv with h | ⟨a, b, F1, h, _⟩
    · have : ({p.2} : Multiset htree) = {t1} := by simpa using h
      exact (Multiset.singleton_inj.mp this).symm
    · have := congrArg Multiset.card h
      simp at this
  intro fuel
  induction fuel with
  | zero =>
    intro L t t1 hp hw ha hH
    match L, ha with
    | [p], ha =>
      simp only [absHuff, Option.some.injEq] at ha
      rw [← ha]
      exact hsingle p t1 hH
  | succ fuel ih =>
    intro L t t1 hp hw ha hH
    match L, ha with
    | [p], ha =>
      simp only [absHuff, Option.some.injEq] at ha
      rw [← ha]
      exact hsingle p t1 hH
    | a :: b :: rest, ha =>
      simp only [absHuff] at ha
      cases hi : insertStrict
          (a.1 + b.1, if lfirst then htree.node a.2 b.2 else htree.node b.2 a.2) rest with
      | none => rw [hi] at ha; simp at ha
      | some l =>
        rw [hi] at ha
        dsimp only at ha
        rcases hH.inv with h | ⟨a1, b1, F1, h, hm1, hm2, hH2⟩
        · have := congrArg Multiset.card h
          simp at this
        · obtain ⟨e1, e2⟩ := head_of_min a (b :: rest) a1 (b1 ::ₘ F1) hp hw h hm1
          obtain ⟨e3, e4⟩ := head_of_min b rest b1 F1 (List.Pairwise.of_cons hp)
            (fun p hp1 => hw p (List.mem_cons_of_mem _ hp1)) e2.symm hm2
          obtain ⟨q1, q2⟩ := insertStrict_spec _ rest l
            (List.Pairwise.of_cons (List.Pairwise.of_cons hp)) hi
          apply ih l t t1 q2 _ ha
          · have := Multiset.coe_eq_coe.mpr (q1.map Prod.snd)
            rw [this, List.map_cons, ← Multiset.cons_coe, ← e4, ← e1, ← e3]
            exact hH2
          · intro p hp1
            rcases List.mem_cons.mp (q1.mem_iff.mp hp1) with rfl | hp2
            · have w1 := hw a (List.mem_cons_self _ _)
              have w2 := hw b (List.mem_cons_of_mem _ (List.mem_cons_self _ _))
              cases lfirst
              · simp only [Bool.false_eq_true, if_false, htree.weight]; omega
              · simp only [if_true, htree.weight]; omega
            · exact hw p (List.mem_cons_of_mem _ (List.mem_cons_of_mem _ hp2))

theorem leafList_snd : ∀ (T : List Nat) (i : Nat),
    (leafList T i).map Prod.snd =
      (List.range T.length).map (fun k => htree.leaf (floorw (T.getD k 0)) (i + k)) := by
  intro T
  induction T with
  | nil => intro i; rfl
  | cons x xs ih =>
    intro i
    simp only [leafList, List.map_cons, List.length_cons, List.range_succ_eq_map, List.map_map,
      ih (i + 1)]
    refine congrArg₂ _ rfl ?_
    apply List.map_congr_left
    intro k _
    simp only [Function.comp, Nat.succ_eq_add_one, List.getD_cons_succ]
    congr 1
    omega

theorem leafList_weight : ∀ (T : List Nat) (i : Nat), ∀ p ∈ leafList T i, p.1 = p.2.weight := by
  intro T
  induction T with
  | nil => intro i p hp; simp [leafList] at hp
  | cons x xs ih =>
    intro i p hp
    simp only [leafList, List.mem_cons] at hp
    rcases hp with rfl | hp
    · rfl
    · exact ih (i + 1) p hp

theorem leafForest_eq (T : List Nat) (hT : T.length = 256) :
    leafForest T = (((leafList T 0).map Prod.snd : List htree) : Multiset htree) := by
  unfold leafForest
  rw [leafList_snd, hT]
  simp

/-- For a table whose floored entries increase strictly and whose construction
meets no two trees of equal weight, the rebuilt handle has the tree that `absHuff`
computes. -/
theorem Rebuilt_of_absHuff (lfirst : Bool) (h0 : huffman) (T : List Nat) (t : htree)
    (hT : validTable T) (hs : strictW (leafList T 0) = true)
    (ha : absHuff lfirst 256 (leafList T 0) = some t) :
    Rebuilt lfirst T (rebuild_drop lfirst h0 (some T)).2 t := by
  obtain ⟨_, t1, R⟩ := rebuild_drop_rebuilt lfirst h0 T hT
  have hH := R.huff
  rw [leafForest_eq T hT.1] at hH
  have := absHuff_unique lfirst 256 (leafList T 0) t t1 (strictW_pairwise _ hs)
    (leafList_weight T 0) ha hH
  rw [← this]
  exact R

theorem htree.path_le_height (t : htree) : ∀ e ∈ t.leaves, e.2.2.length ≤ t.height := by
  induction t with
  | leaf w s =>
    intro e he
    simp only [htree.leaves, List.mem_singleton] at he
    rw [he]
    simp [htree.height]
  | node l r ihl ihr =>
    intro e he
    simp only [htree.leaves, List.mem_append, List.mem_map] at he
    rcases he with ⟨a, ha, rfl⟩ | ⟨a, ha, rfl⟩
    · have := ihl a ha
      simp only [List.length_cons, htree.height]
      omega
    · have := ihr a ha
      simp only [List.length_cons, htree.height]
      omega

theorem htree.depthOf_spec (t : htree) (s : Nat) :
    ∀ d, t.depthOf s = some d → ∃ e ∈ t.leaves, e.1 = s ∧ e.2.2.length = d := by
  induction t with
  | leaf w s1 =>
    intro d h
    simp only [htree.depthOf] at h
    by_cases hs : s1 = s
    · rw [if_pos hs] at h
      simp only [Option.some.injEq] at h
      exact ⟨(s1, w, []), by simp [htree.leaves], hs, by simpa using h⟩
    · rw [if_neg hs] at h
      simp at h
  | node l r ihl ihr =>
    intro d h
    simp only [htree.depthOf] at h
    cases hl : l.depthOf s with
    | some d1 =>
      rw [hl] at h
      simp only [Option.some.injEq] at h
      obtain ⟨e, he, h1, h2⟩ := ihl d1 hl
      refine ⟨(e.1, e.2.1, false :: e.2.2), ?_, h1, by simp [h2, h]⟩
      simp only [htree.leaves, List.mem_append, List.mem_map]
      exact Or.inl ⟨e, he, rfl⟩
    | none =>
      rw [hl] at h
      cases hr : r.depthOf s with
      | some d1 =>
        rw [hr] at h
        simp only [Option.some.injEq] at h
        obtain ⟨e, he, h1, h2⟩ := ihr d1 hr
        refine ⟨(e.1, e.2.1, true :: e.2.2), ?_, h1, by simp [h2, h]⟩
        simp only [htree.leaves, List.mem_append, List.mem_map]
        exact Or.inr ⟨e, he, rfl⟩
      | none =>
        rw [hr] at h
        simp at h

/-! ## Two concrete tables -/

set_option maxRecDepth 100000 in
theorem table_w_valid : validTable table_w := by
  unfold validTable
  decide!

set_option maxRecDepth 100000 in
theorem table_deep_valid : validTable table_deep := by
  unfold validTable
  decide!

set_option maxRecDepth 100000 in
theorem table_w_strict : strictW (leafList table_w 0) = true := by decide!

set_option maxRecDepth 100000 in
theorem table_deep_strict : strictW (leafList table_deep 0) = true := by decide!

set_option maxRecDepth 100000 in
theorem table_w_height :
    (absHuff true 256 (leafList table_w 0)).map htree.height = some 8 := by decide!

set_option maxRecDepth 100000 in
theorem table_deep_depth :
    (absHuff true 256 (leafList table_deep 0)).bind (fun t => t.depthOf 0) = some 27 := by
  decide!

/-- The total variant of the rebuild from `table_w` leaves a handle with a tree of
height 8. -/
theorem table_w_rebuilt (h0 : huffman) :
    ∃ t, Rebuilt true table_w (rebuild_drop true h0 (some table_w)).2 t ∧ t.height = 8 := by
  obtain ⟨t, ht, hh⟩ := Option.map_eq_some'.mp table_w_height
  exact ⟨t, Rebuilt_of_absHuff true h0 table_w t table_w_valid table_w_strict ht, hh⟩

theorem table_w_maxbits (h0 : huffman) :
    (rebuild_drop true h0 (some table_w)).2.context.maxbits ≤ 8 := by
  obtain ⟨t, R, hh⟩ := table_w_rebuilt h0
  obtain ⟨e, he, hm⟩ := R.maxbits_mem
  rw [hm, ← hh]
  exact t.path_le_height e he

/-- The total variant of the rebuild from `table_deep` records a codeword of 27
bits for symbol 0. -/
theorem table_deep_bitlen (h0 : huffman) :
    (codeOf (rebuild_drop true h0 (some table_deep)).2 0).bitlen = 27 ∧
    (codeOf (rebuild_drop true h0 (some table_deep)).2 0).code.length = 2 := by
  obtain ⟨t, ht, hd⟩ := Option.bind_eq_some.mp table_deep_depth
  have R := Rebuilt_of_absHuff true h0 table_deep t table_deep_valid table_deep_strict ht
  obtain ⟨e, he, h1, h2⟩ := t.depthOf_spec 0 27 hd
  obtain ⟨c1, c2, _⟩ := R.codeOf_leaf e he
  rw [h1] at c1 c2
  exact ⟨by rw [c1, h2], c2⟩

/-! ## Kraft sums and the exchange argument -/

theorem kraft_cons (l : Nat) (L : Multiset Nat) : kraft (l ::ₘ L) = (1 / 2 : ℚ) ^ l + kraft L := by
  simp [kraft]

theorem wcost_cons {α : Type} (wt : α → Nat) (p : α × Nat) (P : Multiset (α × Nat)) :
    wcost wt (p ::ₘ P) = wt p.1 * p.2 + wcost wt P := by
  simp [wcost]

theorem swap_le (x y u v : Nat) (h1 : x ≤ y) (h2 : u ≤ v) : x * v + y * u ≤ x * u + y * v := by
  obtain ⟨d, rfl⟩ := Nat.exists_eq_add_of_le h1
  obtain ⟨e, rfl⟩ := Nat.exists_eq_add_of_le h2
  ring_nf
  omega

/-- Exchange: an item of least weight can be given the greatest length without a
change of the multiset of lengths and without a rise of the weighted length. -/
theorem exchange_max {α : Type} (wt : α → Nat) (a : α) :
    ∀ (R : Multiset (α × Nat)) (la : Nat), (∀ p ∈ R, wt a ≤ wt p.1) →
      ∃ (la1 : Nat) (R1 : Multiset (α × Nat)), R1.map Prod.fst = R.map Prod.fst ∧
        la1 ::ₘ R1.map Prod.snd = la ::ₘ R.map Prod.snd ∧
        wt a * la1 + wcost wt R1 ≤ wt a * la + wcost wt R ∧ ∀ p ∈ R1, p.2 ≤ la1 := by
  intro R
  induction R using Multiset.induction_on with
  | empty =>
    intro la _
    exact ⟨la, 0, rfl, rfl, le_refl _, by simp⟩
  | cons p R ih =>
    intro la hmin
    obtain ⟨la1, R1, h1, h2, h3, h4⟩ := ih la (fun q hq => hmin q (Multiset.mem_cons_of_mem hq))
    by_cases hp : p.2 ≤ la1
    · refine ⟨la1, p ::ₘ R1, by rw [Multiset.map_cons, Multiset.map_cons, h1], ?_, ?_, ?_⟩
      · rw [Multiset.map_cons, Multiset.map_cons, Multiset.cons_swap, h2, Multiset.cons_swap]
      · rw [wcost_cons, wcost_cons]; omega
      · intro q hq
        rcases Multiset.mem_cons.mp hq with h | h
        · rw [h]; exact hp
        · exact h4 q h
    · refine ⟨p.2, (p.1, la1) ::ₘ R1, by rw [Multiset.map_cons, Multiset.map_cons, h1], ?_, ?_, ?_⟩
      · rw [Multiset.map_cons, Multiset.map_cons, h2, Multiset.cons_swap]
      · rw [wcost_cons, wcost_cons]
        have := swap_le (wt a) (wt p.1) la1 p.2 (hmin p (Multiset.mem_cons_self _ _)) (by omega)
        simp only
        omega
      · intro q hq
        rcases Multiset.mem_cons.mp hq with h | h
        · rw [h]; simp only; omega
        · have := h4 q h; omega

/-- The Kraft sum of lengths that are at most `L`, as a fraction with denominator
`2 ^ L`. -/
theorem kraft_scaled (L : Nat) (Q : Multiset Nat) (hQ : ∀ l ∈ Q, l ≤ L) :
    kraft Q = (((Q.map fun l => 2 ^ (L - l)).sum : Nat) : ℚ) / (2 : ℚ) ^ L := by
  induction Q using Multiset.induction_on with
  | empty => simp [kraft]
  | cons l Q ih =>
    have hl := hQ l (Multiset.mem_cons_self _ _)
    rw [kraft_cons, ih (fun x hx => hQ x (Multiset.mem_cons_of_mem hx)), Multiset.map_cons,
      Multiset.sum_cons]
    have h2 : (2 : ℚ) ^ L = 2 ^ l * 2 ^ (L - l) := by
      rw [← pow_add]; congr 1; omega
    push_cast
    rw [add_div]
    congr 1
    rw [h2]
    field_simp

/-- Two greatest lengths of a multiset of lengths with Kraft sum at most 1 can be
replaced by one length that is one less than the smaller of them. -/
theorem kraft_merge (la lb : Nat) (Q : Multiset Nat) (hab : lb ≤ la) (hQ : ∀ l ∈ Q, l ≤ lb)
    (hk : kraft (la ::ₘ lb ::ₘ Q) ≤ 1) : 1 ≤ lb ∧ kraft ((lb - 1) ::ₘ Q) ≤ 1 := by
  have hs := kraft_scaled lb Q hQ
  generalize (Q.map fun l => 2 ^ (lb - l)).sum = N at hs
  rw [kraft_cons, kraft_cons, hs] at hk
  have hpos : (0 : ℚ) < (1 / 2 : ℚ) ^ la := by positivity
  have h2pos : (0 : ℚ) < (2 : ℚ) ^ lb := by positivity
  have e1 : (1 / 2 : ℚ) ^ lb = 1 / (2 : ℚ) ^ lb := by rw [one_div, one_div, inv_pow]
  have hlt : ((N + 1 : Nat) : ℚ) < ((2 ^ lb : Nat) : ℚ) := by
    push_cast
    have h3 : (1 : ℚ) / 2 ^ lb + (N : ℚ) / 2 ^ lb < 1 := by
      rw [e1] at hk; linarith
    rw [← add_div, div_lt_one h2pos] at h3
    linarith
  have hN : N + 1 < 2 ^ lb := by exact_mod_cast hlt
  have hlb : 1 ≤ lb := by
    by_contra hc
    have : lb = 0 := by omega
    rw [this] at hN
    simp at hN
  refine ⟨hlb, ?_⟩
  rw [kraft_cons, hs]
  have e2 : (1 / 2 : ℚ) ^ (lb - 1) = 2 / (2 : ℚ) ^ lb := by
    obtain ⟨k, rfl⟩ : ∃ k, lb = k + 1 := ⟨lb - 1, by omega⟩
    simp only [Nat.add_sub_cancel]
    rw [one_div, inv_pow, pow_succ]
    field_simp
  rw [e2, ← add_div, div_le_one h2pos]
  have hN2 : ((N + 2 : Nat) : ℚ) ≤ ((2 ^ lb : Nat) : ℚ) := by exact_mod_cast hN
  push_cast at hN2
  linarith

/-! ## Optimality of the Huffman construction -/

/-- Exchange and merge: in a Kraft-feasible assignment of lengths, two items `a` and
`b` of least weight can be replaced by one item `m` of their joint weight, one level
higher, without a rise of the weighted length. -/
theorem exchange_merge {α : Type} [DecidableEq α] (wt : α → Nat) (a b m : α)
    (hm : wt m = wt a + wt b)
    (la lb : Nat) (Q : Multiset (α × Nat)) (ha : wt a ≤ wt b)
    (haQ : ∀ p ∈ Q, wt a ≤ wt p.1) (hbQ : ∀ p ∈ Q, wt b ≤ wt p.1)
    (hk : kraft (la ::ₘ lb ::ₘ Q.map Prod.snd) ≤ 1) :
    ∃ (lm : Nat) (Q1 : Multiset (α × Nat)), Q1.map Prod.fst = Q.map Prod.fst ∧
      kraft (lm ::ₘ Q1.map Prod.snd) ≤ 1 ∧
      wt m * (lm + 1) + wcost wt Q1 ≤ wt a * la + wt b * lb + wcost wt Q := by
  obtain ⟨la1, R1, h1, h2, h3, h4⟩ := exchange_max wt a ((b, lb) ::ₘ Q) la (by
    intro p hp
    rcases Multiset.mem_cons.mp hp with h | h
    · rw [h]; exact ha
    · exact haQ p h)
  rw [Multiset.map_cons] at h1
  obtain ⟨p, hp, hpb, hQ1⟩ := (Multiset.map_eq_cons _ _ _ _).mpr h1
  have hR1 : R1 = p ::ₘ R1.erase p := (Multiset.cons_erase hp).symm
  have hbQ1 : ∀ q ∈ R1.erase p, wt b ≤ wt q.1 := by
    intro q hq
    have : q.1 ∈ (R1.erase p).map Prod.fst := Multiset.mem_map_of_mem _ hq
    rw [hQ1] at this
    obtain ⟨q1, hq1, e⟩ := Multiset.mem_map.mp this
    rw [← e]
    exact hbQ q1 hq1
  obtain ⟨lb2, Q2, g1, g2, g3, g4⟩ := exchange_max wt b (R1.erase p) p.2 hbQ1
  have hlens : lb2 ::ₘ Q2.map Prod.snd = R1.map Prod.snd := by
    rw [g2, ← Multiset.map_cons, ← hR1]
  have hle : lb2 ≤ la1 := by
    have : lb2 ∈ R1.map Prod.snd := by rw [← hlens]; exact Multiset.mem_cons_self _ _
    obtain ⟨q, hq, e⟩ := Multiset.mem_map.mp this
    rw [← e]
    exact h4 q hq
  have hk2 : kraft (la1 ::ₘ lb2 ::ₘ Q2.map Prod.snd) ≤ 1 := by
    rw [hlens, h2, Multiset.map_cons]
    exact hk
  have hQ2 : ∀ l ∈ Q2.map Prod.snd, l ≤ lb2 := by
    intro l hl
    obtain ⟨q, hq, e⟩ := Multiset.mem_map.mp hl
    rw [← e]
    exact g4 q hq
  obtain ⟨hpos, hk3⟩ := kraft_merge la1 lb2 (Q2.map Prod.snd) hle hQ2 hk2
  refine ⟨lb2 - 1, Q2, by rw [g1, hQ1], hk3, ?_⟩
  have e1 : lb2 - 1 + 1 = lb2 := by omega
  rw [e1, hm]
  have c1 : wcost wt R1 = wt b * p.2 + wcost wt (R1.erase p) := by
    conv_lhs => rw [hR1]
    rw [wcost_cons, hpb]
  rw [wcost_cons] at h3
  simp only at h3
  have c2 : wt a * lb2 ≤ wt a * la1 := Nat.mul_le_mul_left _ hle
  rw [Nat.add_mul]
  omega

/-- Optimality along a Huffman construction: for every Kraft-feasible assignment
of lengths to the trees of the forest, the cost of the result is at most the cost
inside the trees plus the weighted length of the assignment. -/
theorem Huff.cost_le {lfirst : Bool} {F : Multiset htree} {t : htree} (h : Huff lfirst F t) :
    ∀ P : Multiset (htree × Nat), P.map Prod.fst = F → kraft (P.map Prod.snd) ≤ 1 →
      t.cost ≤ (F.map htree.cost).sum + wcost htree.weight P := by
  induction h with
  | single t =>
    intro P hP _
    simp only [Multiset.map_singleton, Multiset.sum_singleton]
    omega
  | step a b G t hmin1 hmin2 _ ih =>
    intro P hP hk
    obtain ⟨pa, hpa, hpa1, hP1⟩ := (Multiset.map_eq_cons _ _ _ _).mpr hP
    obtain ⟨pb, hpb, hpb1, hP2⟩ := (Multiset.map_eq_cons _ _ _ _).mpr hP1
    have hPe : P = pa ::ₘ pb ::ₘ (P.erase pa).erase pb := by
      rw [Multiset.cons_erase hpb, Multiset.cons_erase hpa]
    generalize (P.erase pa).erase pb = Q at hP2 hPe
    subst hPe
    have haQ : ∀ q ∈ Q, a.weight ≤ q.1.weight := by
      intro q hq
      have : q.1 ∈ Q.map Prod.fst := Multiset.mem_map_of_mem _ hq
      rw [hP2] at this
      exact hmin1 _ (Multiset.mem_cons_of_mem this)
    have hbQ : ∀ q ∈ Q, b.weight ≤ q.1.weight := by
      intro q hq
      have : q.1 ∈ Q.map Prod.fst := Multiset.mem_map_of_mem _ hq
      rw [hP2] at this
      exact hmin2 _ this
    have hw : (if lfirst then htree.node a b else htree.node b a).weight = a.weight + b.weight := by
      cases lfirst
      · simp only [Bool.false_eq_true, if_false, htree.weight]; omega
      · simp only [if_true, htree.weight]
    have hc : (if lfirst then htree.node a b else htree.node b a).cost
        = a.cost + b.cost + a.weight + b.weight := by
      cases lfirst
      · simp only [Bool.false_eq_true, if_false, htree.cost]; omega
      · simp only [if_true, htree.cost]
    rw [Multiset.map_cons, Multiset.map_cons] at hk
    obtain ⟨lm, Q1, q1, q2, q3⟩ := exchange_merge htree.weight a b
      (if lfirst then htree.node a b else htree.node b a) hw pa.2 pb.2 Q
      (hmin1 b (Multiset.mem_cons_self _ _)) haQ hbQ hk
    have := ih ((if lfirst then htree.node a b else htree.node b a, lm) ::ₘ Q1)
      (by rw [Multiset.map_cons, q1, hP2]) (by rw [Multiset.map_cons]; exact q2)
    rw [Multiset.map_cons, Multiset.sum_cons, hc, wcost_cons] at this
    simp only at this
    rw [Multiset.map_cons, Multiset.map_cons, Multiset.sum_cons, Multiset.sum_cons, wcost_cons,
      wcost_cons, hpa1, hpb1]
    rw [Nat.mul_add, Nat.mul_one] at q3
    rw [hw] at this q3
    omega

/-! ## Optimal lengths and monotonicity -/

theorem htree.weight_eq_sum (t : htree) : t.weight = (t.sw.map Prod.snd).sum := by
  induction t with
  | leaf w s => simp [htree.weight, htree.sw, htree.leaves]
  | node l r ihl ihr =>
    rw [htree.sw_node, List.map_append, List.sum_append, ← ihl, ← ihr]
    rfl

theorem htree.weight_eq_leaves (t : htree) : t.weight = (t.leaves.map fun e => e.2.1).sum := by
  rw [htree.weight_eq_sum, htree.sw, List.map_map]
  rfl

/-- The cost of a tree is the sum over its leaves of weight times depth. -/
theorem htree.cost_eq (t : htree) :
    t.cost = (t.leaves.map fun e => e.2.1 * e.2.2.length).sum := by
  induction t with
  | leaf w s => simp [htree.cost, htree.leaves]
  | node l r ihl ihr =>
    have key : ∀ (b : Bool) (L : List (Nat × Nat × List Bool)),
        ((L.map fun e => (e.1, e.2.1, b :: e.2.2)).map fun e => e.2.1 * e.2.2.length).sum
          = (L.map fun e => e.2.1 * e.2.2.length).sum + (L.map fun e => e.2.1).sum := by
      intro b L
      induction L with
      | nil => rfl
      | cons x L ih =>
        simp only [List.map_cons, List.sum_cons, List.length_cons] at ih ⊢
        rw [ih, Nat.mul_add, Nat.mul_one]
        omega
    simp only [htree.cost, htree.leaves, List.map_append, List.sum_append]
    rw [key, key, ← ihl, ← ihr, ← htree.weight_eq_leaves, ← htree.weight_eq_leaves]
    omega

/-- The depths of the leaves of a tree have Kraft sum 1. -/
theorem htree.kraft_eq_one (t : htree) :
    (t.leaves.map fun e => (1 / 2 : ℚ) ^ e.2.2.length).sum = 1 := by
  induction t with
  | leaf w s => simp [htree.leaves]
  | node l r ihl ihr =>
    have key : ∀ (b : Bool) (L : List (Nat × Nat × List Bool)),
        ((L.map fun e => (e.1, e.2.1, b :: e.2.2)).map
          fun e => (1 / 2 : ℚ) ^ e.2.2.length).sum
          = (1 / 2 : ℚ) * (L.map fun e => (1 / 2 : ℚ) ^ e.2.2.length).sum := by
      intro b L
      induction L with
      | nil => simp
      | cons x L ih =>
        simp only [List.map_cons, List.sum_cons, List.length_cons] at ih ⊢
        rw [ih, pow_succ]
        ring
    simp only [htree.leaves, List.map_append, List.sum_append]
    rw [key, key, ihl, ihr]
    norm_num

theorem sum_range_eq_list {M : Type} [AddCommMonoid M] (n : Nat) (f : Nat → M) :
    ∑ s ∈ Finset.range n, f s = ((List.range n).map f).sum := by
  rw [Finset.sum_eq_multiset_sum, Finset.range_val, ← Multiset.coe_range, Multiset.map_coe,
    Multiset.sum_coe]

/-- A sum over the leaves of the tree of a rebuilt handle is a sum over the 256
symbols. -/
theorem Rebuilt.sum_leaves {lfirst : Bool} {T : List Nat} {h : huffman} {t : htree}
    (R : Rebuilt lfirst T h t) {M : Type} [AddCommMonoid M] (g : Nat → M) :
    (t.leaves.map fun e => g e.1).sum = ∑ s ∈ Finset.range 256, g s := by
  have hp : (t.leaves.map Prod.fst).Perm (List.range 256) := by
    have h0 : t.leaves.map Prod.fst = t.sw.map Prod.fst := by
      simp [htree.sw, Function.comp]
    rw [h0]
    have := R.perm.map Prod.fst
    rw [List.map_map] at this
    have e : (Prod.fst ∘ fun i => (i, floorw (T.getD i 0))) = id := rfl
    rw [e, List.map_id] at this
    exact this
  rw [sum_range_eq_list, ← (hp.map g).sum_eq, List.map_map]
  rfl

theorem floorw_eq_max (x : Nat) : floorw x = max x 1 := by
  unfold floorw
  split <;> omega

/-- The cost of the tree of a rebuilt handle in terms of the codeword table. -/
theorem Rebuilt.cost_table {lfirst : Bool} {T : List Nat} {h : huffman} {t : htree}
    (R : Rebuilt lfirst T h t) :
    t.cost = ∑ s ∈ Finset.range 256, max (T.getD s 0) 1 * (codeOf h s).bitlen := by
  rw [htree.cost_eq, ← R.sum_leaves]
  congr 1
  apply List.map_congr_left
  intro e he
  rw [(R.codeOf_leaf e he).1, (R.symbol_lt e he).2, floorw_eq_max]

/-- The bit lengths of a rebuilt handle have Kraft sum 1. -/
theorem Rebuilt.kraft_table {lfirst : Bool} {T : List Nat} {h : huffman} {t : htree}
    (R : Rebuilt lfirst T h t) :
    ∑ s ∈ Finset.range 256, (1 / 2 : ℚ) ^ (codeOf h s).bitlen = 1 := by
  rw [← R.sum_leaves]
  refine Eq.trans ?_ t.kraft_eq_one
  congr 1
  apply List.map_congr_left
  intro e he
  rw [(R.codeOf_leaf e he).1]

/-- The bit lengths of a rebuilt handle minimise the weighted code length among
the assignments of lengths that satisfy the Kraft inequality. -/
theorem Rebuilt.optimal {lfirst : Bool} {T : List Nat} {h : huffman} {t : htree}
    (R : Rebuilt lfirst T h t) (l : Nat → Nat)
    (hk : ∑ s ∈ Finset.range 256, (1 / 2 : ℚ) ^ l s ≤ 1) :
    ∑ s ∈ Finset.range 256, max (T.getD s 0) 1 * (codeOf h s).bitlen
      ≤ ∑ s ∈ Finset.range 256, max (T.getD s 0) 1 * l s := by
  rw [← R.cost_table]
  have hP := R.huff.cost_le
    (((List.range 256).map fun i => (htree.leaf (floorw (T.getD i 0)) i, l i) :
      List (htree × Nat)) : Multiset (htree × Nat))
    (by
      unfold leafForest
      rw [Multiset.map_coe, List.map_map]
      apply congrArg
      apply List.map_congr_left
      intro i _
      rfl)
    (by
      rw [Multiset.map_coe, List.map_map]
      unfold kraft
      rw [Multiset.map_coe, List.map_map, Multiset.sum_coe]
      refine le_trans (le_of_eq ?_) hk
      rw [sum_range_eq_list]
      apply congrArg
      apply List.map_congr_left
      intro i _
      rfl)
  have h0 : ((leafForest T).map htree.cost).sum = 0 := by
    unfold leafForest
    rw [Multiset.map_coe, List.map_map, Multiset.sum_coe]
    apply List.sum_eq_zero
    intro x hx
    obtain ⟨i, _, rfl⟩ := List.mem_map.mp hx
    rfl
  rw [h0, Nat.zero_add] at hP
  refine le_trans hP (le_of_eq ?_)
  unfold wcost
  rw [Multiset.map_coe, List.map_map, Multiset.sum_coe, sum_range_eq_list]
  apply congrArg
  apply List.map_congr_left
  intro i _
  simp only [Function.comp, htree.weight, floorw_eq_max]

theorem swap_lt (x y u v : Nat) (h1 : y < x) (h2 : v < u) : x * v + y * u < x * u + y * v := by
  obtain ⟨d, rfl⟩ := Nat.exists_eq_add_of_lt h1
  obtain ⟨e, rfl⟩ := Nat.exists_eq_add_of_lt h2
  ring_nf
  omega

/-- Exchanging the lengths of two symbols keeps the Kraft sum and lowers the
weighted length when the heavier symbol had the greater length. -/
theorem swap_lengths (n : Nat) (w bl : Nat → Nat) (a b : Nat) (ha : a < n) (hb : b < n)
    (hw : w b < w a) (hl : bl b < bl a) :
    ∑ s ∈ Finset.range n, (1 / 2 : ℚ) ^ bl (Equiv.swap a b s)
      = ∑ s ∈ Finset.range n, (1 / 2 : ℚ) ^ bl s ∧
    ∑ s ∈ Finset.range n, w s * bl (Equiv.swap a b s) < ∑ s ∈ Finset.range n, w s * bl s := by
  have hab : a ≠ b := by
    intro h; rw [h] at hw; exact lt_irrefl _ hw
  constructor
  · apply Equiv.Perm.sum_comp (Equiv.swap a b) (Finset.range n) (fun s => (1 / 2 : ℚ) ^ bl s)
    intro x hx
    simp only [Set.mem_setOf_eq] at hx
    have : x = a ∨ x = b := by
      by_contra hc
      push_neg at hc
      exact hx (Equiv.swap_apply_of_ne_of_ne hc.1 hc.2)
    rcases this with h | h <;> rw [h] <;> simp [ha, hb]
  · have ha' : a ∈ Finset.range n := Finset.mem_range.mpr ha
    have hb' : b ∈ (Finset.range n).erase a :=
      Finset.mem_erase.mpr ⟨fun h => hab h.symm, Finset.mem_range.mpr hb⟩
    rw [← Finset.add_sum_erase _ _ ha', ← Finset.add_sum_erase _ _ hb',
      ← Finset.add_sum_erase _ (fun s => w s * bl s) ha',
      ← Finset.add_sum_erase _ (fun s => w s * bl s) hb']
    have hrest : ∑ x ∈ ((Finset.range n).erase a).erase b, w x * bl (Equiv.swap a b x)
        = ∑ x ∈ ((Finset.range n).erase a).erase b, w x * bl x := by
      apply Finset.sum_congr rfl
      intro x hx
      have h1 := Finset.mem_erase.mp hx
      have h2 := Finset.mem_erase.mp h1.2
      rw [Equiv.swap_apply_of_ne_of_ne h2.1 h1.1]
    rw [hrest, Equiv.swap_apply_left, Equiv.swap_apply_right]
    have := swap_lt (w a) (w b) (bl a) (bl b) hw hl
    omega

/-- A symbol of greater floored frequency has no longer codeword. -/
theorem Rebuilt.monotone {lfirst : Bool} {T : List Nat} {h : huffman} {t : htree}
    (R : Rebuilt lfirst T h t) (a b : Nat) (ha : a < 256) (hb : b < 256)
    (hw : max (T.getD b 0) 1 < max (T.getD a 0) 1) :
    (codeOf h a).bitlen ≤ (codeOf h b).bitlen := by
  by_contra hc
  obtain ⟨h1, h2⟩ := swap_lengths 256 (fun s => max (T.getD s 0) 1)
    (fun s => (codeOf h s).bitlen) a b ha hb hw (Nat.lt_of_not_le hc)
  have h3 := R.optimal (fun s => (codeOf h (Equiv.swap a b s)).bitlen)
    (by rw [h1, R.kraft_table])
  exact absurd (lt_of_le_of_lt h3 h2) (lt_irrefl _)

/-! ## Where the rebuild is defined -/

theorem htree.height_attained (t : htree) : ∃ e ∈ t.leaves, e.2.2.length = t.height := by
  induction t with
  | leaf w s => exact ⟨(s, w, []), by simp [htree.leaves], rfl⟩
  | node l r ihl ihr =>
    obtain ⟨e1, he1, h1⟩ := ihl
    obtain ⟨e2, he2, h2⟩ := ihr
    by_cases hlr : l.height ≤ r.height
    · refine ⟨(e2.1, e2.2.1, true :: e2.2.2), ?_, ?_⟩
      · simp only [htree.leaves, List.mem_append, List.mem_map]
        exact Or.inr ⟨e2, he2, rfl⟩
      · simp only [List.length_cons, htree.height, h2]
        omega
    · refine ⟨(e1.1, e1.2.1, false :: e1.2.2), ?_, ?_⟩
      · simp only [htree.leaves, List.mem_append, List.mem_map]
        exact Or.inl ⟨e1, he1, rfl⟩
      · simp only [List.length_cons, htree.height, h1]
        omega

/-- In a rebuilt handle `maxbits` is the height of the tree. -/
theorem Rebuilt.height_eq {lfirst : Bool} {T : List Nat} {h : huffman} {t : htree}
    (R : Rebuilt lfirst T h t) : t.height = h.context.maxbits := by
  obtain ⟨e, he, hm⟩ := R.maxbits_mem
  obtain ⟨e1, he1, h1⟩ := t.height_attained
  have := t.path_le_height e he
  have := R.maxbits_ge e1 he1
  omega

/-- The total variant of the rebuild leaves a rebuilt handle. -/
theorem rebuild_drop_spec (lfirst : Bool) (h0 : huffman) (table : Option (List Nat))
    (hT : ∀ T, table = some T → T.length = 256) :
    (rebuild_drop lfirst h0 table).1 = 0 ∧
    ∃ t, Rebuilt lfirst (tableOf table) (rebuild_drop lfirst h0 table).2 t ∧
      huffman_rebuild lfirst h0 table =
        if t.height ≤ 16 then some (rebuild_drop lfirst h0 table) else none := by
  cases table with
  | none =>
    exact rebuild_all_drop_full lfirst { h0 with table := List.replicate 256 0 }
      (List.length_replicate _ _)
  | some T => exact rebuild_all_drop_full lfirst { h0 with table := T } (hT T rfl)

/-- `huffman_rebuild` is defined exactly when the total variant of the rebuild
records no codeword of more than 16 bits, and then it has that result. -/
theorem huffman_rebuild_eq (lfirst : Bool) (h0 : huffman) (table : Option (List Nat))
    (hT : ∀ T, table = some T → T.length = 256) :
    huffman_rebuild lfirst h0 table =
      if (rebuild_drop lfirst h0 table).2.context.maxbits ≤ 16
      then some (rebuild_drop lfirst h0 table) else none := by
  obtain ⟨_, t, R, hb⟩ := rebuild_drop_spec lfirst h0 table hT
  rw [hb, R.height_eq]

/-- What a defined result of `huffman_rebuild` is: the return value is 0 and the
handle is a rebuilt one with codewords of at most 16 bits. -/
theorem huffman_rebuild_some (lfirst : Bool) (h0 : huffman) (table : Option (List Nat))
    (r : Int) (h : huffman) (hT : ∀ T, table = some T → T.length = 256)
    (hreb : huffman_rebuild lfirst h0 table = some (r, h)) :
    r = 0 ∧ h = (rebuild_drop lfirst h0 table).2 ∧ h.context.maxbits ≤ 16 ∧
      ∃ t, Rebuilt lfirst (tableOf table) h t := by
  obtain ⟨h1, t, R, _⟩ := rebuild_drop_spec lfirst h0 table hT
  rw [huffman_rebuild_eq lfirst h0 table hT] at hreb
  by_cases hm : (rebuild_drop lfirst h0 table).2.context.maxbits ≤ 16
  · rw [if_pos hm] at hreb
    have e := Option.some.inj hreb
    have e1 : (rebuild_drop lfirst h0 table).1 = r := congrArg Prod.fst e
    have e2 : (rebuild_drop lfirst h0 table).2 = h := congrArg Prod.snd e
    rw [e2] at R hm
    exact ⟨by rw [← e1, h1], e2.symm, hm, t, R⟩
  · rw [if_neg hm] at hreb
    exact Option.noConfusion hreb

/-- A defined result of `huffman_rebuild` with a table `T`. -/
theorem huffman_rebuild_some_table (lfirst : Bool) (h0 : huffman) (T : List Nat)
    (r : Int) (h : huffman) (hT : validTable T)
    (hreb : huffman_rebuild lfirst h0 (some T) = some (r, h)) :
    r = 0 ∧ h.context.maxbits ≤ 16 ∧ ∃ t, Rebuilt lfirst T h t := by
  obtain ⟨h1, _, h3, t, R⟩ := huffman_rebuild_some lfirst h0 (some T) r h
    (fun T1 e => by rw [← Option.some.inj e]; exact hT.1) hreb
  exact ⟨h1, h3, t, R⟩

/-- A defined result of `huffman_rebuild` with a null table. -/
theorem huffman_rebuild_some_null (lfirst : Bool) (h0 : huffman)
    (r : Int) (h : huffman) (hreb : huffman_rebuild lfirst h0 none = some (r, h)) :
    r = 0 ∧ h.context.maxbits ≤ 16 ∧ ∃ t, Rebuilt lfirst (List.replicate 256 0) h t := by
  obtain ⟨h1, _, h3, t, R⟩ := huffman_rebuild_some lfirst h0 none r h
    (fun T1 e => Option.noConfusion e) hreb
  exact ⟨h1, h3, t, R⟩

theorem huffman_rebuild_defined (lfirst : Bool) (h0 : huffman) (table : Option (List Nat))
    (hT : ∀ T, table = some T → T.length = 256)
    (hm : (rebuild_drop lfirst h0 table).2.context.maxbits ≤ 16) :
    huffman_rebuild lfirst h0 table = some (0, (rebuild_drop lfirst h0 table).2) := by
  obtain ⟨h1, _⟩ := rebuild_drop_spec lfirst h0 table hT
  rw [huffman_rebuild_eq lfirst h0 table hT, if_pos hm]
  exact congrArg some (Prod.ext h1 rfl)

theorem huffman_rebuild_undefined (lfirst : Bool) (h0 : huffman) (table : Option (List Nat))
    (hT : ∀ T, table = some T → T.length = 256)
    (hm : 16 < (rebuild_drop lfirst h0 table).2.context.maxbits) :
    huffman_rebuild lfirst h0 table = none := by
  rw [huffman_rebuild_eq lfirst h0 table hT, if_neg (by omega)]

theorem some_table_length (T : List Nat) (hT : validTable T) :
    ∀ T1, some T = some T1 → T1.length = 256 := by
  intro T1 h
  rw [← Option.some.inj h]
  exact hT.1

/-- The rebuild from `table_w` is defined; its codewords have at most 8 bits. -/
theorem table_w_handle :
    huffman_rebuild true huffman.fresh (some table_w) = some (0, handle_w) ∧
    handle_w.context.maxbits ≤ 8 := by
  have hm := table_w_maxbits huffman.fresh
  exact ⟨huffman_rebuild_defined true huffman.fresh (some table_w)
    (some_table_length _ table_w_valid) (by omega), hm⟩

/-- The rebuild from `table_deep` has no defined result: the leaf of byte 0 is 27
levels deep. -/
theorem table_deep_undefined (h0 : huffman) :
    huffman_rebuild true h0 (some table_deep) = none := by
  apply huffman_rebuild_undefined true h0 (some table_deep)
    (some_table_length _ table_deep_valid)
  obtain ⟨_, t, R⟩ := rebuild_drop_rebuilt true h0 table_deep table_deep_valid
  obtain ⟨b1, _⟩ := table_deep_bitlen h0
  obtain ⟨e, he, hes⟩ := R.leaf_of_symbol 0 (by decide)
  have c1 := (R.codeOf_leaf e he).1
  rw [hes, b1] at c1
  have := R.maxbits_ge e he
  omega

/-- No handle results from `table_deep`, whatever is asked of it. -/
theorem table_deep_no_handle (P : Int → huffman → Prop) :
    ¬ ∃ (ret : Int) (hu : huffman),
      huffman_rebuild true huffman.fresh (some table_deep) = some (ret, hu) ∧ P ret hu := by
  rintro ⟨ret, hu, hreb, _⟩
  rw [table_deep_undefined huffman.fresh] at hreb
  exact Option.noConfusion hreb

/-! ## Support lemmas for the properties of the interface -/

theorem encbits_length (h : huffman) (S : List Nat) : (encbits h S).length = bitsum h S := by
  induction S with
  | nil => rfl
  | cons s S ih => simp [encbits, bitsum, codeword_bits_length, ih] at *

theorem huffman_table_valid (t data : List Nat) (ht : validTable t) :
    validTable (huffman_table t data) := by
  obtain ⟨k, _, h1, _, _, _, _⟩ := huffman_table_count_spec data t 0
  unfold huffman_table
  dsimp only
  by_cases hf : (huffman_table_count t data 0).2.2 = true
  · rw [if_pos hf, huffman_table_rollback_spec, h1]
    exact ⟨by rw [foldl_tdec_length, foldl_tinc_length]; exact ht.1,
      foldl_tdec_le _ _ (foldl_tinc_le _ _ ht.2)⟩
  · rw [if_neg hf, h1]
    exact ⟨by rw [foldl_tinc_length]; exact ht.1, foldl_tinc_le _ _ ht.2⟩

theorem zero_table_valid : validTable (List.replicate 256 0) := by
  refine ⟨List.length_replicate _ _, ?_⟩
  intro x hx
  rw [List.eq_of_mem_replicate hx]
  omega

theorem Rebuilt.maxbits_lt {lfirst : Bool} {T : List Nat} {h : huffman} {t : htree}
    (R : Rebuilt lfirst T h t) : h.context.maxbits < 256 := by
  obtain ⟨e, he, hm⟩ := R.maxbits_mem
  have h1 := t.path_le_height e he
  have h2 := t.height_lt_leaves
  have h3 := R.leaves_length
  omega

theorem Rebuilt.minbits_pos {lfirst : Bool} {T : List Nat} {h : huffman} {t : htree}
    (R : Rebuilt lfirst T h t) : 1 ≤ h.context.minbits := by
  rcases R.minbits_mem with h16 | ⟨e, he, hm⟩
  · omega
  · rw [hm]; exact R.path_pos e he

theorem Rebuilt.table_ge_one {lfirst : Bool} {T : List Nat} {h : huffman} {t : htree}
    (R : Rebuilt lfirst T h t) (hT : T.length = 256) :
    h.table.length = 256 ∧ ∀ x ∈ h.table, 1 ≤ x := by
  rw [R.table]
  refine ⟨by rw [List.length_map, hT], ?_⟩
  intro x hx
  obtain ⟨y, _, rfl⟩ := List.mem_map.mp hx
  unfold floorw
  split <;> omega

/-- With codewords of at most 16 bits, the codewords of two different symbols are
not prefixes of one another. -/
theorem Rebuilt.prefix_free {lfirst : Bool} {T : List Nat} {h : huffman} {t : htree}
    (R : Rebuilt lfirst T h t) (hmax : h.context.maxbits ≤ 16) (a b : Nat) (ha : a < 256)
    (hb : b < 256) (hab : a ≠ b) :
    ¬ (codeword_bits (codeOf h a) <+: codeword_bits (codeOf h b)) := by
  obtain ⟨ea, hea, ha1⟩ := R.leaf_of_symbol a ha
  obtain ⟨eb, heb, hb1⟩ := R.leaf_of_symbol b hb
  have ca := (R.codeOf_leaf ea hea).2.2 (le_trans (R.maxbits_ge ea hea) hmax)
  have cb := (R.codeOf_leaf eb heb).2.2 (le_trans (R.maxbits_ge eb heb) hmax)
  rw [ha1] at ca
  rw [hb1] at cb
  rw [ca, cb]
  intro hp
  have := t.paths_prefix_free ea hea eb heb hp
  rw [this] at ha1
  exact hab (ha1.symm.trans hb1)

theorem bytes_hi : validBytes [72, 105] := by
  intro x hx
  simp only [List.mem_cons, List.mem_singleton, List.not_mem_nil, or_false] at hx
  omega

theorem table_w_enclen :
    huffman_enclen handle_w (([72, 105] : List Nat).length : Int)
      ≤ ((List.replicate 3 0 : List Nat).length : Int) := by
  have h := table_w_handle.2
  unfold huffman_enclen
  simp only [List.length_cons, List.length_nil, List.length_replicate]
  generalize handle_w.context.maxbits = m at h
  have e : ((0 + 1 + 1 : Nat) : Int) * (m : Int) = ((2 * m : Nat) : Int) := by push_cast; ring
  rw [e, Int.tdiv_eq_ediv (Int.ofNat_nonneg _) (by norm_num)]
  omega

theorem table_w_max16 : handle_w.context.maxbits ≤ 16 :=
  le_trans table_w_handle.2 (by decide)

/-- The round trip for a handle that `huffman_rebuild` returns. -/
theorem rebuild_roundtrip (lfirst : Bool) (h0 : huffman) (T S outbuf : List Nat)
    (r : Int) (h : huffman) (hT : validTable T) (hS : validBytes S)
    (hreb : huffman_rebuild lfirst h0 (some T) = some (r, h))
    (hmax : h.context.maxbits ≤ 16)
    (hout : huffman_enclen h (S.length : Int) ≤ (outbuf.length : Int)) :
    ∃ n buf, huffman_encode h outbuf S = some (n, buf) ∧ 0 ≤ n ∧
      huffman_decode h buf n = some ((S.length : Int), S) := by
  obtain ⟨_, _, t, R⟩ := huffman_rebuild_some_table lfirst h0 T r h hT hreb
  obtain ⟨buf, e1, e2⟩ := R.roundtrip hmax S outbuf hS hout
  exact ⟨_, buf, e1, Int.ofNat_nonneg _, e2⟩

/-- C7. Encode buffer bound: for every rebuilt context, that is every handle that
`huffman_rebuild` returns for a table of 256 unsigned 16-bit counts, and every byte
sequence `S`, if `huffman_encode` returns `n` bits then the number of bytes holding
those bits, `(n >> 3) + (n & 7 != 0)`, is at most `huffman_enclen` of the length of
`S`, and `n` is the sum of the bit lengths of the codewords of `S`. -/
theorem huffman_encode_buffer_bound (lfirst : Bool) (h0 : huffman) (T S outbuf : List Nat)
    (ret : Int) (hu : huffman) (n : Int) (buf : List Nat) (hT : validTable T) (hS : validBytes S)
    (hreb : huffman_rebuild lfirst h0 (some T) = some (ret, hu))
    (henc : huffman_encode hu outbuf S = some (n, buf)) :
    BITS2BYTES n ≤ huffman_enclen hu (S.length : Int) ∧
    n = (bitsum hu S : Int) := by
  obtain ⟨_, _, t, R⟩ := huffman_rebuild_some_table lfirst h0 T ret hu hT hreb
  have hn := huffman_encode_loop_some _ S outbuf 0 0 0 n buf
    (fun s hs => R.bitlen_pos s (hS s hs)) henc
  have hle := R.encbits_length_le S hS
  rw [zero_add] at hn
  refine ⟨?_, by rw [hn, encbits_length]⟩
  rw [hn, BITS2BYTES_natCast]
  unfold huffman_enclen
  have e : ((S.length : Int) * (hu.context.maxbits : Int)) =
      ((S.length * hu.context.maxbits : Nat) : Int) := by
    push_cast; rfl
  rw [e, Int.tdiv_eq_ediv (Int.ofNat_nonneg _) (by norm_num)]
  generalize S.length * hu.context.maxbits = m at hle
  generalize (encbits hu S).length = k at hle
  split <;> omega

/-- Witness of C7 at the table `table_w` and the bytes `[72, 105]`. -/
theorem huffman_encode_buffer_bound_witness :
    validTable table_w ∧ validBytes [72, 105] ∧
    huffman_rebuild true huffman.fresh (some table_w) = some (0, handle_w) ∧
    ∃ n buf, huffman_encode handle_w
        (List.replicate 3 0) [72, 105] = some (n, buf) ∧
      BITS2BYTES n ≤ huffman_enclen handle_w
        (([72, 105] : List Nat).length : Int) ∧
      n = (bitsum handle_w [72, 105] : Int) := by
  obtain ⟨n, buf, he, _⟩ := rebuild_roundtrip true huffman.fresh table_w [72, 105]
    (List.replicate 3 0) 0 handle_w table_w_valid bytes_hi table_w_handle.1 table_w_max16
    table_w_enclen
  exact ⟨table_w_valid, bytes_hi, table_w_handle.1, n, buf, he,
    huffman_encode_buffer_bound true huffman.fresh table_w [72, 105] (List.replicate 3 0)
      0 handle_w n buf table_w_valid bytes_hi table_w_handle.1 he⟩

/-- C8. Decode buffer bound: for every rebuilt context, that is every handle that
`huffman_rebuild` returns for a table of 256 unsigned 16-bit counts, every input
buffer and every bit count `b ≥ 0`, `minbits ≥ 1`; `huffman_decode` returns
whenever the buffer holds `b` bits; and whenever it returns, the number of bytes it
has written is at most `huffman_declen b`, the returned count being `-1` or that
number. -/
theorem huffman_decode_buffer_bound (lfirst : Bool) (h0 : huffman) (T data : List Nat)
    (ret : Int) (hu : huffman) (b : Int) (hT : validTable T)
    (hreb : huffman_rebuild lfirst h0 (some T) = some (ret, hu)) (hb : 0 ≤ b) :
    1 ≤ hu.context.minbits ∧
    (b.toNat ≤ 8 * data.length →
      ∃ r out, huffman_decode hu data b = some (r, out)) ∧
    ∀ r out, huffman_decode hu data b = some (r, out) →
      (out.length : Int) ≤ huffman_declen hu b ∧
      (r = -1 ∨ r = (out.length : Int)) := by
  obtain ⟨_, _, t, R⟩ := huffman_rebuild_some_table lfirst h0 T ret hu hT hreb
  have hm := R.minbits_pos
  refine ⟨hm, ?_, ?_⟩
  · intro hlen
    rw [huffman_decode_eq _ data b hlen]
    generalize walk _ _ _ _ = w
    obtain ⟨x, o⟩ := w
    cases x with
    | none => exact ⟨_, _, rfl⟩
    | some x =>
      dsimp only
      split
      · exact ⟨_, _, rfl⟩
      · exact ⟨_, _, rfl⟩
  · intro r out hdec
    unfold huffman_decode at hdec
    dsimp only at hdec
    rw [R.root] at hdec
    cases hl : huffman_decode_loop t.toNode b.toNat data 0 0 t.toNode [] with
    | none => rw [hl] at hdec; exact Option.noConfusion hdec
    | some res =>
      have hbound := huffman_decode_loop_bound t hu.context.minbits
        R.is_node R.minbits_le b.toNat data 0 0 t 0 [] 0 res R.is_node
        (fun e he => by have := R.minbits_le e he; omega) (by simp) hl
      rw [hl] at hdec
      obtain ⟨x, o⟩ := res
      have hout : out = o ∧ (r = -1 ∨ r = (o.length : Int)) := by
        cases x with
        | none =>
          simp only [Option.some.injEq, Prod.mk.injEq] at hdec
          exact ⟨hdec.2.symm, Or.inl hdec.1.symm⟩
        | some x =>
          dsimp only at hdec
          split at hdec
          · simp only [Option.some.injEq, Prod.mk.injEq] at hdec
            exact ⟨hdec.2.symm, Or.inl hdec.1.symm⟩
          · simp only [Option.some.injEq, Prod.mk.injEq] at hdec
            exact ⟨hdec.2.symm, Or.inr hdec.1.symm⟩
      obtain ⟨rfl, hr⟩ := hout
      refine ⟨?_, hr⟩
      unfold huffman_declen
      rw [Int.tdiv_eq_ediv hb (Int.ofNat_nonneg _)]
      rw [Int.le_ediv_iff_mul_le (by exact_mod_cast hm)]
      have hb2 : ((b.toNat : Nat) : Int) = b := Int.toNat_of_nonneg hb
      rw [← hb2]
      dsimp only at hbound
      rw [Nat.zero_add] at hbound
      exact_mod_cast hbound

/-- Witness of C8 at the table `table_w`, the one-byte buffer `[0]` and 8 bits. -/
theorem huffman_decode_buffer_bound_witness :
    validTable table_w ∧ (0 : Int) ≤ 8 ∧
    huffman_rebuild true huffman.fresh (some table_w) = some (0, handle_w) ∧
    1 ≤ handle_w.context.minbits ∧
    ∃ r out, huffman_decode handle_w [0] 8
        = some (r, out) ∧
      (out.length : Int) ≤ huffman_declen handle_w 8 ∧
      (r = -1 ∨ r = (out.length : Int)) := by
  have h := huffman_decode_buffer_bound true huffman.fresh table_w [0] 0 handle_w 8
    table_w_valid table_w_handle.1 (by decide)
  obtain ⟨r, out, hd⟩ := h.2.1 (by decide)
  exact ⟨table_w_valid, by decide, table_w_handle.1, h.1, r, out, hd, h.2.2 r out hd⟩

/-! ## Tabulation witnesses, truncated streams and the prefix property -/

theorem table_near_valid : validTable table_near := by
  refine ⟨by unfold table_near; rw [List.length_set, List.length_replicate], ?_⟩
  intro x hx
  rcases List.mem_or_eq_of_mem_set hx with h | h
  · rw [List.eq_of_mem_replicate h]; omega
  · omega

theorem zero_table_getD (b : Nat) : (List.replicate 256 0).getD b 0 = 0 := by
  rw [List.getD_eq_getElem?_getD, List.getElem?_replicate]
  split <;> rfl

/-- Witness of C5: byte 7 starts at 65534 and is met a second time in `[3, 7, 7]`. -/
theorem huffman_table_overflow_rollback_witness :
    table_near.length = 256 ∧ (∀ x ∈ table_near, x ≤ 65535) ∧
    (∀ d ∈ [3, 7, 7], d < 256) ∧
    (∃ k, k < [3, 7, 7].length ∧
      table_near.getD ([3, 7, 7].getD k 0) 0 + ([3, 7, 7].take k).count ([3, 7, 7].getD k 0)
        = 65535) ∧
    huffman_table table_near [3, 7, 7] = table_near := by
  have hD : ∀ d ∈ [3, 7, 7], d < 256 := by
    intro d hd
    simp only [List.mem_cons, List.mem_singleton, List.not_mem_nil, or_false] at hd
    omega
  have hov : ∃ k, k < [3, 7, 7].length ∧
      table_near.getD ([3, 7, 7].getD k 0) 0 + ([3, 7, 7].take k).count ([3, 7, 7].getD k 0)
        = 65535 := by
    refine ⟨2, by decide, ?_⟩
    have e1 : ([3, 7, 7] : List Nat).getD 2 0 = 7 := rfl
    have e2 : (([3, 7, 7] : List Nat).take 2).count 7 = 1 := by decide
    have e3 : table_near.getD 7 0 = 65534 := by
      unfold table_near
      rw [getD_set_eq, if_pos ⟨rfl, by rw [List.length_replicate]; omega⟩]
    rw [e1, e2, e3]
  exact ⟨table_near_valid.1, table_near_valid.2, hD, hov,
    huffman_table_overflow_rollback table_near [3, 7, 7] table_near_valid.1 table_near_valid.2
      hD hov⟩

/-- Witness of C6: the bytes `[72, 105]` counted into the all-zero table. -/
theorem huffman_table_counts_witness :
    (List.replicate 256 0).length = 256 ∧ (∀ x ∈ List.replicate 256 0, x ≤ 65535) ∧
    (∀ b, b < 256 → (List.replicate 256 0).getD b 0 + [72, 105].count b ≤ 65535) ∧
    (∀ b, b < 256 → (huffman_table (List.replicate 256 0) [72, 105]).getD b 0
      = (List.replicate 256 0).getD b 0 + [72, 105].count b) ∧
    ((∀ b, b < 256 → (List.replicate 256 0).getD b 0 + ([72] ++ [105]).count b ≤ 65535) →
      huffman_table (huffman_table (List.replicate 256 0) [72]) [105]
        = huffman_table (List.replicate 256 0) ([72] ++ [105])) := by
  have hno : ∀ b, b < 256 → (List.replicate 256 0).getD b 0 + [72, 105].count b ≤ 65535 := by
    intro b _
    have := List.count_le_length b [72, 105]
    rw [zero_table_getD]
    simp only [List.length_cons, List.length_nil] at this
    omega
  have h := huffman_table_counts (List.replicate 256 0) [72, 105] [72] [105]
    zero_table_valid.1 zero_table_valid.2 hno
  exact ⟨zero_table_valid.1, zero_table_valid.2, hno, h.1, h.2⟩

/-- C10. Prefix code: for every table whose rebuilt context has `maxbits ≤ 16` and
every two distinct symbols `a` and `b`, the codeword of `a` (the first `bitlen`
bits of its stored pattern, most significant bit first) is not a prefix of the
codeword of `b`, and the two codewords differ. -/
theorem huffman_prefix_code (lfirst : Bool) (h0 : huffman) (T : List Nat) (a b : Nat)
    (ret : Int) (hu : huffman) (hT : validTable T)
    (hreb : huffman_rebuild lfirst h0 (some T) = some (ret, hu))
    (hmax : hu.context.maxbits ≤ 16)
    (ha : a < 256) (hb : b < 256) (hab : a ≠ b) :
    ¬ (codeword_bits (codeOf hu a) <+:
        codeword_bits (codeOf hu b)) ∧
    codeword_bits (codeOf hu a) ≠
      codeword_bits (codeOf hu b) := by
  obtain ⟨_, _, t, R⟩ := huffman_rebuild_some_table lfirst h0 T ret hu hT hreb
  have h := R.prefix_free hmax a b ha hb hab
  exact ⟨h, fun e => h (by rw [e])⟩

/-- Witness of C10 at the table `table_w` and the symbols 72 and 105. -/
theorem huffman_prefix_code_witness :
    validTable table_w ∧
    huffman_rebuild true huffman.fresh (some table_w) = some (0, handle_w) ∧
    handle_w.context.maxbits ≤ 16 ∧
    ¬ (codeword_bits (codeOf handle_w 72) <+:
        codeword_bits (codeOf handle_w 105)) ∧
    codeword_bits (codeOf handle_w 72) ≠
      codeword_bits (codeOf handle_w 105) :=
  ⟨table_w_valid, table_w_handle.1, table_w_max16,
   huffman_prefix_code true huffman.fresh table_w 72 105 0 handle_w table_w_valid table_w_handle.1
     (table_w_max16) (by decide) (by decide) (by decide)⟩

/-! ## The height of the tree and the sum of the counts -/

/-- A Huffman construction keeps the sibling property: the two trees joined are
the lightest, so each weighs at least the children of the other, and no tree of
the forest weighs less than a child of a root of the forest. -/
theorem Huff.keeps_sibling {lfirst : Bool} {F : Multiset htree} {t : htree} (h : Huff lfirst F t) :
    (∀ x ∈ F, x.sibling) → (∀ x ∈ F, ∀ y ∈ F, x.childw ≤ y.weight) → t.sibling := by
  induction h with
  | single t => intro h1 _; exact h1 t (Multiset.mem_singleton_self t)
  | step a b G t hmin1 hmin2 _ ih =>
    intro h1 h2
    have ha : a ∈ a ::ₘ b ::ₘ G := Multiset.mem_cons_self a _
    have hb : b ∈ a ::ₘ b ::ₘ G := Multiset.mem_cons_of_mem (Multiset.mem_cons_self b _)
    have hG : ∀ x ∈ G, x ∈ a ::ₘ b ::ₘ G := fun x hx =>
      Multiset.mem_cons_of_mem (Multiset.mem_cons_of_mem hx)
    have hab : a.weight ≤ b.weight := hmin1 b (Multiset.mem_cons_self b _)
    have hn : (if lfirst then htree.node a b else htree.node b a).sibling := by
      cases lfirst
      · exact ⟨h1 b hb, h1 a ha, h2 b hb a ha, h2 a ha b hb⟩
      · exact ⟨h1 a ha, h1 b hb, h2 a ha b hb, h2 b hb a ha⟩
    have hnw : (if lfirst then htree.node a b else htree.node b a).weight
        = a.weight + b.weight := by
      cases lfirst
      · simp only [Bool.false_eq_true, if_false, htree.weight]; omega
      · simp only [if_true, htree.weight]
    have hnc : (if lfirst then htree.node a b else htree.node b a).childw = b.weight := by
      cases lfirst
      · simp only [Bool.false_eq_true, if_false, htree.childw]; omega
      · simp only [if_true, htree.childw]; omega
    apply ih
    · intro x hx
      rcases Multiset.mem_cons.mp hx with rfl | hx
      · exact hn
      · exact h1 x (hG x hx)
    · intro x hx y hy
      rcases Multiset.mem_cons.mp hx with rfl | hx
      · rw [hnc]
        rcases Multiset.mem_cons.mp hy with rfl | hy
        · rw [hnw]; omega
        · exact hmin2 y hy
      · rcases Multiset.mem_cons.mp hy with rfl | hy
        · rw [hnw]
          have := h2 x (hG x hx) a ha
          omega
        · exact h2 x (hG x hx) y (hG y hy)

/-- In a tree with the sibling property the weight is at least the Fibonacci
number two places after the height. -/
theorem htree.fib_le (t : htree) :
    t.sibling → Nat.fib (t.height + 2) ≤ t.weight ∧ Nat.fib (t.height + 1) ≤ max t.childw 1 := by
  induction t with
  | leaf w s =>
    intro h
    simp only [htree.sibling] at h
    simp only [htree.height, htree.weight, htree.childw]
    exact ⟨by simpa using h, by simp⟩
  | node l r ihl ihr =>
    rintro ⟨sl, sr, cl, cr⟩
    obtain ⟨l1, l2⟩ := ihl sl
    obtain ⟨r1, r2⟩ := ihr sr
    have pl : 1 ≤ l.weight := le_trans (Nat.fib_pos.mpr (by omega)) l1
    have pr : 1 ≤ r.weight := le_trans (Nat.fib_pos.mpr (by omega)) r1
    simp only [htree.height, htree.weight, htree.childw]
    by_cases hlr : l.height ≤ r.height
    · rw [max_eq_right hlr]
      refine ⟨?_, ?_⟩
      · rw [show r.height + 1 + 2 = r.height + 1 + 2 from rfl, Nat.fib_add_two]
        have : Nat.fib (r.height + 1) ≤ l.weight := le_trans r2 (max_le cr pl)
        have e : r.height + 1 + 1 = r.height + 2 := rfl
        rw [e]
        omega
      · have e : r.height + 1 + 1 = r.height + 2 := rfl
        rw [e]
        exact le_trans r1 (le_trans (le_max_right _ _) (le_max_left _ _))
    · rw [max_eq_left (by omega)]
      refine ⟨?_, ?_⟩
      · rw [Nat.fib_add_two]
        have : Nat.fib (l.height + 1) ≤ r.weight := le_trans l2 (max_le cl pr)
        have e : l.height + 1 + 1 = l.height + 2 := rfl
        rw [e]
        omega
      · have e : l.height + 1 + 1 = l.height + 2 := rfl
        rw [e]
        exact le_trans l1 (le_trans (le_max_left _ _) (le_max_left _ _))

/-- The tree of a rebuilt handle has the sibling property. -/
theorem Rebuilt.tree_sibling {lfirst : Bool} {T : List Nat} {h : huffman} {t : htree}
    (R : Rebuilt lfirst T h t) : t.sibling := by
  apply R.huff.keeps_sibling
  · intro x hx
    unfold leafForest at hx
    obtain ⟨i, _, rfl⟩ := List.mem_map.mp (Multiset.mem_coe.mp hx)
    show 1 ≤ floorw (T.getD i 0)
    unfold floorw
    split <;> omega
  · intro x hx y _
    unfold leafForest at hx
    obtain ⟨i, _, rfl⟩ := List.mem_map.mp (Multiset.mem_coe.mp hx)
    exact Nat.zero_le _

/-- The weight of the tree of a rebuilt handle is the sum of the floored counts. -/
theorem Rebuilt.weight_sum {lfirst : Bool} {T : List Nat} {h : huffman} {t : htree}
    (R : Rebuilt lfirst T h t) :
    t.weight = ((List.range 256).map fun i => floorw (T.getD i 0)).sum := by
  rw [htree.weight_eq_sum, (R.perm.map Prod.snd).sum_eq, List.map_map]
  rfl

/-- Where the floored counts sum to less than 4181, the 19th Fibonacci number, no
leaf is more than 16 deep. -/
theorem Rebuilt.height_le {lfirst : Bool} {T : List Nat} {h : huffman} {t : htree}
    (R : Rebuilt lfirst T h t) (hsum : floorsum T < 4181) :
    h.context.maxbits ≤ 16 := by
  rw [← R.height_eq]
  by_contra hc
  have h1 := (t.fib_le R.tree_sibling).1
  rw [R.weight_sum] at h1
  unfold floorsum at hsum
  have h2 : Nat.fib 19 ≤ Nat.fib (t.height + 2) := Nat.fib_mono (by omega)
  have h3 : Nat.fib 19 = 4181 := by decide
  omega

/-- On a table whose floored counts sum to less than 4181 `huffman_rebuild` is
defined: it returns 0 and a handle. -/
theorem huffman_rebuild_small (lfirst : Bool) (h0 : huffman) (table : Option (List Nat))
    (hT : ∀ T, table = some T → T.length = 256) (hsum : floorsum (tableOf table) < 4181) :
    ∃ hu, huffman_rebuild lfirst h0 table = some (0, hu) := by
  obtain ⟨_, t, R, _⟩ := rebuild_drop_spec lfirst h0 table hT
  exact ⟨_, huffman_rebuild_defined lfirst h0 table hT (R.height_le hsum)⟩

theorem sum_map_const (L : List Nat) (w : Nat) : (L.map fun _ => w).sum = L.length * w := by
  induction L with
  | nil => simp
  | cons x L ih =>
    simp only [List.map_cons, List.sum_cons, List.length_cons, ih]
    ring

theorem floorsum_null : floorsum (List.replicate 256 0) = 256 := by
  unfold floorsum
  have e : ((List.range 256).map fun i => floorw ((List.replicate 256 0).getD i 0))
      = (List.range 256).map fun _ => 1 := by
    apply List.map_congr_left
    intro i _
    rw [zero_table_getD]
    rfl
  rw [e, sum_map_const, List.length_range]

/-! ## Encode format and determinism -/

theorem huffman_rebuild_all_table (lfirst : Bool) (a b : huffman) (h : a.table = b.table) :
    huffman_rebuild_all lfirst a = huffman_rebuild_all lfirst b := by
  unfold huffman_rebuild_all
  rw [h]

theorem huffman_rebuild_some_eq (lfirst : Bool) (a : huffman) (T : List Nat) :
    huffman_rebuild lfirst a (some T) = huffman_rebuild_all lfirst { a with table := T } := by
  unfold huffman_rebuild
  rfl

theorem huffman_rebuild_none_eq (lfirst : Bool) (a : huffman) :
    huffman_rebuild lfirst a none
      = huffman_rebuild_all lfirst { a with table := List.replicate HUFFMAN_TABLESIZE 0 } := by
  unfold huffman_rebuild
  rfl

theorem huffman_rebuild_prior (lfirst : Bool) (a b : huffman) (table : Option (List Nat)) :
    huffman_rebuild lfirst a table = huffman_rebuild lfirst b table := by
  cases table with
  | none =>
    rw [huffman_rebuild_none_eq, huffman_rebuild_none_eq]
    exact huffman_rebuild_all_table lfirst _ _ rfl
  | some T =>
    rw [huffman_rebuild_some_eq, huffman_rebuild_some_eq]
    exact huffman_rebuild_all_table lfirst _ _ rfl

theorem huffman_rebuild_all_ret (lfirst : Bool) (huffm : huffman) (ret : Int) (hu : huffman)
    (hreb : huffman_rebuild_all lfirst huffm = some (ret, hu)) : ret = 0 := by
  unfold huffman_rebuild_all at hreb
  dsimp only at hreb
  split at hreb
  · exact Option.noConfusion hreb
  · exact (congrArg Prod.fst (Option.some.inj hreb)).symm

theorem huffman_rebuild_ret (lfirst : Bool) (h0 : huffman) (table : Option (List Nat))
    (ret : Int) (hu : huffman) (hreb : huffman_rebuild lfirst h0 table = some (ret, hu)) :
    ret = 0 := by
  cases table with
  | none =>
    rw [huffman_rebuild_none_eq] at hreb
    exact huffman_rebuild_all_ret lfirst _ ret hu hreb
  | some T =>
    rw [huffman_rebuild_some_eq] at hreb
    exact huffman_rebuild_all_ret lfirst _ ret hu hreb

/-- C13 (refuted as stated). The table `table_deep` is a table of 256 unsigned 16-bit
counts for which `huffman_rebuild` has no defined result, from the fresh state as
from any other: the leaf of byte 0 is 27 levels deep and `huffnode_build_codes`
writes behind the two bytes of its codeword. So no codeword table is produced that
could be the same for every prior state. -/
theorem huffman_rebuild_deterministic_counterexample :
    validTable table_deep ∧
    (∀ h0 : huffman, huffman_rebuild true h0 (some table_deep) = none) ∧
    ¬ ∃ (ret : Int) (hu : huffman),
      huffman_rebuild true huffman.fresh (some table_deep) = some (ret, hu) ∧
      huffman_rebuild true hu (some table_deep) = some (ret, hu) :=
  ⟨table_deep_valid, table_deep_undefined, fun ⟨_, _, hreb, _⟩ => by
    rw [table_deep_undefined huffman.fresh] at hreb
    exact Option.noConfusion hreb⟩

/-- C13 (amended). Determinism and independence from the prior state, where the
rebuild is defined: if `huffman_rebuild` with a table returns the handle `hu` from
one prior state `h0`, then it returns the same handle from every prior state `h1`
(fresh, or rebuilt from any other table), so the same codeword table, the same
tree below `pq[1]` and the same `minbits` and `maxbits`; rebuilding `hu` a second
time from the same table returns `hu` again, and `huffman_create` returns `hu`. -/
theorem huffman_rebuild_deterministic (lfirst : Bool) (h0 h1 : huffman)
    (table : Option (List Nat)) (ret : Int) (hu : huffman)
    (hreb : huffman_rebuild lfirst h0 table = some (ret, hu)) :
    huffman_rebuild lfirst h1 table = some (ret, hu) ∧
    (∀ (ret1 : Int) (hu1 : huffman), huffman_rebuild lfirst h1 table = some (ret1, hu1) →
      hu1.context.codes = hu.context.codes ∧
      pqget hu1.context.queue 1 = pqget hu.context.queue 1 ∧
      hu1.context.minbits = hu.context.minbits ∧ hu1.context.maxbits = hu.context.maxbits) ∧
    huffman_rebuild lfirst hu table = some (ret, hu) ∧
    huffman_create lfirst table = some (some hu) := by
  have hret := huffman_rebuild_ret lfirst h0 table ret hu hreb
  refine ⟨by rw [huffman_rebuild_prior lfirst h1 h0, hreb], ?_,
    by rw [huffman_rebuild_prior lfirst hu h0, hreb], ?_⟩
  · intro ret1 hu1 h
    rw [huffman_rebuild_prior lfirst h1 h0, hreb] at h
    have e := congrArg Prod.snd (Option.some.inj h)
    simp only at e
    rw [← e]
    exact ⟨rfl, rfl, rfl, rfl⟩
  · unfold huffman_create
    rw [huffman_rebuild_prior lfirst huffman.fresh h0, hreb]
    simp only [hret]
    rfl

/-- Witness of the amended C13 at the table `table_w`: the rebuild from the fresh
state and the rebuild of the handle that it returns. -/
theorem huffman_rebuild_deterministic_witness :
    huffman_rebuild true huffman.fresh (some table_w) = some (0, handle_w) ∧
    huffman_rebuild true handle_w (some table_w) = some (0, handle_w) ∧
    huffman_create true (some table_w) = some (some handle_w) :=
  ⟨table_w_handle.1,
   (huffman_rebuild_deterministic true huffman.fresh handle_w (some table_w) 0 handle_w
     table_w_handle.1).1,
   (huffman_rebuild_deterministic true huffman.fresh handle_w (some table_w) 0 handle_w
     table_w_handle.1).2.2.2⟩

/-! ## Codeword derivation and the bounds minbits, maxbits -/

theorem huffnode.descend_null (p : List Bool) : huffnode.null.descend p = huffnode.null := by
  induction p with
  | nil => rfl
  | cons b p ih =>
    cases b
    · exact ih
    · exact ih

/-- The leaves of a tree are the nodes without children that a path from its root
reaches. -/
theorem htree.descend_leaf_iff (t : htree) :
    ∀ (p : List Bool) (s : Nat),
      (t.toNode.descend p).isLeafOf s ↔ ∃ w, (s, w, p) ∈ t.leaves := by
  induction t with
  | leaf w0 s0 =>
    intro p s
    cases p with
    | nil =>
      simp only [htree.toNode, huffnode.descend, huffnode.isLeafOf, huffnode.isNull,
        huffnode.left, huffnode.right, huffnode.symbol, htree.leaves, List.mem_singleton,
        Prod.mk.injEq, true_and, and_true]
      constructor
      · intro h; exact ⟨w0, h.symm, rfl⟩
      · rintro ⟨w, h, _⟩; exact h.symm
    | cons b p =>
      have hd : (htree.leaf w0 s0).toNode.descend (b :: p) = huffnode.null := by
        cases b
        · exact huffnode.descend_null p
        · exact huffnode.descend_null p
      rw [hd]
      simp [huffnode.isLeafOf, huffnode.isNull, htree.leaves]
  | node l r ihl ihr =>
    intro p s
    cases p with
    | nil =>
      have hl : l.toNode.isNull = false := htree.toNode_isNull l
      simp only [htree.toNode, huffnode.descend, huffnode.isLeafOf, huffnode.left, hl,
        htree.leaves, List.mem_append, List.mem_map, Prod.mk.injEq]
      constructor
      · intro h; exact absurd h.2.1 (by simp)
      · rintro ⟨w, ⟨e, _, _, _, h⟩ | ⟨e, _, _, _, h⟩⟩ <;> exact absurd h (by simp)
    | cons b p =>
      cases b with
      | false =>
        have hd : (htree.node l r).toNode.descend (false :: p) = l.toNode.descend p := rfl
        rw [hd, ihl p s]
        simp only [htree.leaves, List.mem_append, List.mem_map, Prod.mk.injEq,
          List.cons.injEq]
        constructor
        · rintro ⟨w, h⟩
          exact ⟨w, Or.inl ⟨(s, w, p), h, rfl, rfl, trivial, rfl⟩⟩
        · rintro ⟨w, ⟨e, he, h1, h2, _, h3⟩ | ⟨e, he, h1, h2, h3, _⟩⟩
          · refine ⟨w, ?_⟩
            rw [← h1, ← h2, ← h3]
            exact he
          · exact absurd h3 (by simp)
      | true =>
        have hd : (htree.node l r).toNode.descend (true :: p) = r.toNode.descend p := rfl
        rw [hd, ihr p s]
        simp only [htree.leaves, List.mem_append, List.mem_map, Prod.mk.injEq,
          List.cons.injEq]
        constructor
        · rintro ⟨w, h⟩
          exact ⟨w, Or.inr ⟨(s, w, p), h, rfl, rfl, trivial, rfl⟩⟩
        · rintro ⟨w, ⟨e, he, h1, h2, h3, _⟩ | ⟨e, he, h1, h2, _, h3⟩⟩
          · exact absurd h3 (by simp)
          · refine ⟨w, ?_⟩
            rw [← h1, ← h2, ← h3]
            exact he

/-- A tree whose leaves all lie at depth `d` or deeper has at least `2 ^ d` leaves. -/
theorem htree.pow_le_leaves (t : htree) :
    ∀ d, (∀ e ∈ t.leaves, d ≤ e.2.2.length) → 2 ^ d ≤ t.leaves.length := by
  induction t with
  | leaf w s =>
    intro d h
    have := h (s, w, []) (by simp [htree.leaves])
    simp only [List.length_nil, Nat.le_zero] at this
    rw [this]
    simp [htree.leaves]
  | node l r ihl ihr =>
    intro d h
    cases d with
    | zero =>
      have := (htree.node l r).height_lt_leaves
      simp only [pow_zero]
      omega
    | succ d =>
      have h1 := ihl d (fun e he => by
        have := h (e.1, e.2.1, false :: e.2.2)
          (by simp only [htree.leaves, List.mem_append, List.mem_map]
              exact Or.inl ⟨e, he, rfl⟩)
        simpa using this)
      have h2 := ihr d (fun e he => by
        have := h (e.1, e.2.1, true :: e.2.2)
          (by simp only [htree.leaves, List.mem_append, List.mem_map]
              exact Or.inr ⟨e, he, rfl⟩)
        simpa using this)
      simp only [htree.leaves, List.length_append, List.length_map]
      rw [pow_succ]
      omega

/-- A tree whose leaves all lie at depth `d` or higher has at most `2 ^ d` leaves. -/
theorem htree.leaves_le_pow (t : htree) :
    ∀ d, (∀ e ∈ t.leaves, e.2.2.length ≤ d) → t.leaves.length ≤ 2 ^ d := by
  induction t with
  | leaf w s =>
    intro d _
    simp only [htree.leaves, List.length_singleton]
    exact Nat.one_le_two_pow
  | node l r ihl ihr =>
    intro d h
    cases d with
    | zero =>
      obtain ⟨e, he⟩ := List.exists_mem_of_length_pos
        (lt_of_le_of_lt (Nat.zero_le _) l.height_lt_leaves)
      have := h (e.1, e.2.1, false :: e.2.2)
        (by simp only [htree.leaves, List.mem_append, List.mem_map]
            exact Or.inl ⟨e, he, rfl⟩)
      simp at this
    | succ d =>
      have h1 := ihl d (fun e he => by
        have := h (e.1, e.2.1, false :: e.2.2)
          (by simp only [htree.leaves, List.mem_append, List.mem_map]
              exact Or.inl ⟨e, he, rfl⟩)
        simpa using this)
      have h2 := ihr d (fun e he => by
        have := h (e.1, e.2.1, true :: e.2.2)
          (by simp only [htree.leaves, List.mem_append, List.mem_map]
              exact Or.inr ⟨e, he, rfl⟩)
        simpa using this)
      simp only [htree.leaves, List.length_append, List.length_map]
      rw [pow_succ]
      omega

theorem Rebuilt.minbits_le_eight {lfirst : Bool} {T : List Nat} {h : huffman} {t : htree}
    (R : Rebuilt lfirst T h t) : h.context.minbits ≤ 8 := by
  have h1 := t.pow_le_leaves h.context.minbits R.minbits_le
  rw [R.leaves_length] at h1
  by_contra hc
  have h2 : 2 ^ 9 ≤ 2 ^ h.context.minbits := Nat.pow_le_pow_right (by norm_num) (by omega)
  omega

theorem Rebuilt.eight_le_maxbits {lfirst : Bool} {T : List Nat} {h : huffman} {t : htree}
    (R : Rebuilt lfirst T h t) : 8 ≤ h.context.maxbits := by
  have h1 := t.leaves_le_pow h.context.maxbits R.maxbits_ge
  rw [R.leaves_length] at h1
  by_contra hc
  have h2 : 2 ^ h.context.maxbits ≤ 2 ^ 7 := Nat.pow_le_pow_right (by norm_num) (by omega)
  omega

/-- Some symbol has a codeword of `minbits` bits. -/
theorem Rebuilt.minbits_attained {lfirst : Bool} {T : List Nat} {h : huffman} {t : htree}
    (R : Rebuilt lfirst T h t) : ∃ s, s < 256 ∧ (codeOf h s).bitlen = h.context.minbits := by
  have h8 := R.minbits_le_eight
  rcases R.minbits_mem with h16 | ⟨e, he, hm⟩
  · omega
  · exact ⟨e.1, (R.symbol_lt e he).1, by rw [(R.codeOf_leaf e he).1, hm]⟩

/-- Some symbol has a codeword of `maxbits` bits. -/
theorem Rebuilt.maxbits_attained {lfirst : Bool} {T : List Nat} {h : huffman} {t : htree}
    (R : Rebuilt lfirst T h t) : ∃ s, s < 256 ∧ (codeOf h s).bitlen = h.context.maxbits := by
  obtain ⟨e, he, hm⟩ := R.maxbits_mem
  exact ⟨e.1, (R.symbol_lt e he).1, by rw [(R.codeOf_leaf e he).1, hm]⟩

theorem Rebuilt.bitlen_bounds {lfirst : Bool} {T : List Nat} {h : huffman} {t : htree}
    (R : Rebuilt lfirst T h t) (s : Nat) (hs : s < 256) :
    h.context.minbits ≤ (codeOf h s).bitlen ∧ (codeOf h s).bitlen ≤ h.context.maxbits := by
  obtain ⟨e, he, hes⟩ := R.leaf_of_symbol s hs
  have c1 := (R.codeOf_leaf e he).1
  rw [hes] at c1
  rw [c1]
  exact ⟨R.minbits_le e he, R.maxbits_ge e he⟩

/-- C14 (refuted as stated). The table `table_deep` is a table of 256 unsigned 16-bit
counts for which `huffman_rebuild` has no defined result: the leaf of byte 0 is 27
levels deep (27 is the bit length that the walk records when the writes behind the
codeword are dropped), and on the way to it `huffnode_build_codes` calls `putbit`
at bit offsets from 16 on, behind the two bytes of its codeword. So no recorded bit
length exists that could equal the depth of the leaf. -/
theorem huffman_codeword_derivation_counterexample :
    validTable table_deep ∧
    huffman_rebuild true huffman.fresh (some table_deep) = none ∧
    (codeOf (rebuild_drop true huffman.fresh (some table_deep)).2 0).bitlen = 27 ∧
    ¬ ∃ (ret : Int) (hu : huffman),
      huffman_rebuild true huffman.fresh (some table_deep) = some (ret, hu) ∧
      ∃ p : List Bool, ((pqget hu.context.queue 1).descend p).isLeafOf 0 ∧
        (codeOf hu 0).bitlen = p.length :=
  ⟨table_deep_valid, table_deep_undefined huffman.fresh, (table_deep_bitlen huffman.fresh).1,
   table_deep_no_handle _⟩

/-- C14 (amended). Codeword derivation, where the rebuild is defined. For every
table of 256 unsigned 16-bit counts, `huffman_rebuild` returns a handle if the
floored counts sum to less than 4181; and in every handle `hu` that it returns,
every symbol `s` has exactly one path `p` from the root `pq[1]` to a leaf carrying
`s`; the recorded bit length is the length of `p`, the depth of that leaf, which
is at most 16; and bit `j` of the stored pattern, counted from the most
significant bit of the first byte, is 0 where step `j` of `p` goes to the left
child and 1 where it goes to the right child. -/
theorem huffman_codeword_derivation (lfirst : Bool) (h0 : huffman) (T : List Nat)
    (hT : validTable T) :
    (floorsum T < 4181 → ∃ hu, huffman_rebuild lfirst h0 (some T) = some (0, hu)) ∧
    ∀ (ret : Int) (hu : huffman), huffman_rebuild lfirst h0 (some T) = some (ret, hu) →
      ∀ s, s < 256 → ∃ p : List Bool,
        ((pqget hu.context.queue 1).descend p).isLeafOf s ∧
        (∀ q, ((pqget hu.context.queue 1).descend q).isLeafOf s → q = p) ∧
        (codeOf hu s).bitlen = p.length ∧ p.length ≤ 16 ∧
        ∀ j, j < p.length → bufbit (codeOf hu s).code j = p.getD j false := by
  refine ⟨huffman_rebuild_small lfirst h0 (some T) (some_table_length T hT), ?_⟩
  intro ret hu hreb s hs
  obtain ⟨_, hmax, t, R⟩ := huffman_rebuild_some_table lfirst h0 T ret hu hT hreb
  obtain ⟨e, he, hes⟩ := R.leaf_of_symbol s hs
  obtain ⟨c1, _, c3⟩ := R.codeOf_leaf e he
  have h16 : e.2.2.length ≤ 16 := le_trans (R.maxbits_ge e he) hmax
  rw [hes] at c1 c3
  rw [R.root]
  refine ⟨e.2.2, ?_, ?_, c1, h16, ?_⟩
  · rw [htree.descend_leaf_iff]
    exact ⟨e.2.1, by rw [← hes]; exact he⟩
  · intro q hq
    rw [htree.descend_leaf_iff] at hq
    obtain ⟨w, hw⟩ := hq
    have := R.leaf_unique (s, w, q) e hw he hes.symm
    rw [← this]
  · intro j hj
    have hb := c3 h16
    have hj2 : j < (codeword_bits (codeOf hu s)).length := by
      rw [codeword_bits_length, c1]; exact hj
    have e1 : (codeword_bits (codeOf hu s)).getD j false
        = e.2.2.getD j false := by rw [hb]
    rw [← e1, List.getD_eq_getElem _ _ hj2]
    simp [codeword_bits]

/-- Witness of the amended C14 at the table `table_w` and the symbol 72. -/
theorem huffman_codeword_derivation_witness :
    validTable table_w ∧
    huffman_rebuild true huffman.fresh (some table_w) = some (0, handle_w) ∧
    ∃ p : List Bool,
      ((pqget handle_w.context.queue 1).descend p).isLeafOf 72 ∧
      (∀ q, ((pqget handle_w.context.queue 1).descend q).isLeafOf 72 → q = p) ∧
      (codeOf handle_w 72).bitlen = p.length ∧ p.length ≤ 16 ∧
      ∀ j, j < p.length → bufbit (codeOf handle_w 72).code j = p.getD j false :=
  ⟨table_w_valid, table_w_handle.1,
   (huffman_codeword_derivation true huffman.fresh table_w table_w_valid).2 0 handle_w
     table_w_handle.1 72 (by decide)⟩

/-- C15 (refuted as stated). The table `table_deep` is a table of 256 unsigned 16-bit
counts for which `huffman_rebuild` has no defined result: the walk that records
`minbits` and `maxbits` calls `putbit` at bit offsets from 16 on, behind the two
bytes of its codeword (with those writes dropped it records a codeword of 27 bits
for byte 0). So no `minbits` and `maxbits` exist that could be exact. -/
theorem huffman_minbits_maxbits_exact_counterexample :
    validTable table_deep ∧
    huffman_rebuild true huffman.fresh (some table_deep) = none ∧
    (codeOf (rebuild_drop true huffman.fresh (some table_deep)).2 0).bitlen = 27 ∧
    ¬ ∃ (ret : Int) (hu : huffman),
      huffman_rebuild true huffman.fresh (some table_deep) = some (ret, hu) ∧
      ∀ s, s < 256 → hu.context.minbits ≤ (codeOf hu s).bitlen ∧
        (codeOf hu s).bitlen ≤ hu.context.maxbits :=
  ⟨table_deep_valid, table_deep_undefined huffman.fresh, (table_deep_bitlen huffman.fresh).1,
   table_deep_no_handle _⟩

/-- C15 (amended). The bounds `minbits` and `maxbits` are exact, where the rebuild
is defined. For every table of 256 unsigned 16-bit counts, `huffman_rebuild`
returns a handle if the floored counts sum to less than 4181; and in every handle
`hu` that it returns, no codeword of a symbol is shorter than `minbits` or longer
than `maxbits`, some symbol has a codeword of `maxbits` bits and some symbol one
of `minbits` bits (so `minbits` is the least and `maxbits` the greatest of the 256
bit lengths, and the initial 16 is the result only where a codeword has 16 bits);
moreover `minbits ≤ 8 ≤ maxbits ≤ 16`. -/
theorem huffman_minbits_maxbits_exact (lfirst : Bool) (h0 : huffman) (T : List Nat)
    (hT : validTable T) :
    (floorsum T < 4181 → ∃ hu, huffman_rebuild lfirst h0 (some T) = some (0, hu)) ∧
    ∀ (ret : Int) (hu : huffman), huffman_rebuild lfirst h0 (some T) = some (ret, hu) →
      (∀ s, s < 256 →
        hu.context.minbits ≤ (codeOf hu s).bitlen ∧
        (codeOf hu s).bitlen ≤ hu.context.maxbits) ∧
      (∃ s, s < 256 ∧ (codeOf hu s).bitlen = hu.context.maxbits) ∧
      (∃ s, s < 256 ∧ (codeOf hu s).bitlen = hu.context.minbits) ∧
      hu.context.minbits ≤ 8 ∧ 8 ≤ hu.context.maxbits ∧ hu.context.maxbits ≤ 16 := by
  refine ⟨huffman_rebuild_small lfirst h0 (some T) (some_table_length T hT), ?_⟩
  intro ret hu hreb
  obtain ⟨_, hmax, t, R⟩ := huffman_rebuild_some_table lfirst h0 T ret hu hT hreb
  exact ⟨fun s hs => R.bitlen_bounds s hs, R.maxbits_attained, R.minbits_attained,
    R.minbits_le_eight, R.eight_le_maxbits, hmax⟩

/-- Witness of the amended C15 at the table `table_w`. -/
theorem huffman_minbits_maxbits_exact_witness :
    validTable table_w ∧
    huffman_rebuild true huffman.fresh (some table_w) = some (0, handle_w) ∧
    (∃ s, s < 256 ∧ (codeOf handle_w s).bitlen = handle_w.context.maxbits) ∧
    (∃ s, s < 256 ∧ (codeOf handle_w s).bitlen = handle_w.context.minbits) :=
  ⟨table_w_valid, table_w_handle.1,
   ((huffman_minbits_maxbits_exact true huffman.fresh table_w table_w_valid).2 0 handle_w
     table_w_handle.1).2.1,
   ((huffman_minbits_maxbits_exact true huffman.fresh table_w table_w_valid).2 0 handle_w
     table_w_handle.1).2.2.1⟩

/-! ## Heap correctness and bit stream I/O -/

theorem ctx_two_heap : heapOK ctx_two.queue ctx_two.qend := by
  intro i h1 h2
  have hi : i = 2 := by
    have : ctx_two.qend = 3 := rfl
    omega
  subst hi
  decide

theorem huffnode_pop_empty (ctx : huffcontext) (h : ctx.qend < 2) :
    huffnode_pop ctx = (ctx, huffnode.null) := by
  unfold huffnode_pop
  simp only [h, if_true]

/-- C18. Min-heap correctness: if `pq[1 .. qend - 1]` satisfies the min-heap property
on weights and the slot `pq[qend]` exists, then `huffnode_push` of any node leaves
a queue that satisfies the heap property and holds the old entries and the new
node; `huffnode_pop` on a non-empty queue returns an entry of the queue whose
weight is at most the weight of every entry, and leaves a queue that satisfies the
heap property and holds exactly the other entries; `huffnode_pop` on an empty
queue returns `NULL` and changes nothing. -/
theorem huffnode_heap_correct (ctx : huffcontext) (node : huffnode) (h1 : 1 ≤ ctx.qend)
    (h2 : ctx.qend ≤ ctx.queue.length) (hh : heapOK ctx.queue ctx.qend) :
    ((huffnode_push ctx node).qend = ctx.qend + 1 ∧
      heapOK (huffnode_push ctx node).queue (huffnode_push ctx node).qend ∧
      (live (huffnode_push ctx node).queue (huffnode_push ctx node).qend).Perm
        (node :: live ctx.queue ctx.qend)) ∧
    (2 ≤ ctx.qend →
      (huffnode_pop ctx).1.qend = ctx.qend - 1 ∧
      (huffnode_pop ctx).2 ∈ live ctx.queue ctx.qend ∧
      (∀ x ∈ live ctx.queue ctx.qend, (huffnode_pop ctx).2.weight ≤ x.weight) ∧
      heapOK (huffnode_pop ctx).1.queue (huffnode_pop ctx).1.qend ∧
      (live ctx.queue ctx.qend).Perm
        ((huffnode_pop ctx).2 :: live (huffnode_pop ctx).1.queue (huffnode_pop ctx).1.qend)) ∧
    (ctx.qend < 2 → huffnode_pop ctx = (ctx, huffnode.null)) := by
  refine ⟨?_, ?_, huffnode_pop_empty ctx⟩
  · obtain ⟨s1, _, s3, s4⟩ := huffnode_push_spec ctx node h1 h2 hh
    rw [s1]
    exact ⟨rfl, s3, s4⟩
  · intro hq
    obtain ⟨p1, _, p3, p4, p5, _⟩ := huffnode_pop_spec ctx hq (by omega) hh
    rw [p1]
    exact ⟨rfl, p4.symm.subset (List.mem_cons_self _ _), p5, p3, p4⟩

/-- Witness of C18 on a queue that holds two leaves. -/
theorem huffnode_heap_correct_witness :
    1 ≤ ctx_two.qend ∧ ctx_two.qend ≤ ctx_two.queue.length ∧
    heapOK ctx_two.queue ctx_two.qend ∧
    (live (huffnode_push ctx_two (huffnode.mk 0 67 huffnode.null huffnode.null)).queue
        (huffnode_push ctx_two (huffnode.mk 0 67 huffnode.null huffnode.null)).qend).Perm
      (huffnode.mk 0 67 huffnode.null huffnode.null :: live ctx_two.queue ctx_two.qend) ∧
    (∀ x ∈ live ctx_two.queue ctx_two.qend, (huffnode_pop ctx_two).2.weight ≤ x.weight) :=
  ⟨by decide, by decide, ctx_two_heap,
   (huffnode_heap_correct ctx_two (huffnode.mk 0 67 huffnode.null huffnode.null) (by decide)
     (by decide) ctx_two_heap).1.2.2,
   ((huffnode_heap_correct ctx_two (huffnode.mk 0 67 huffnode.null huffnode.null) (by decide)
     (by decide) ctx_two_heap).2.1 (by decide)).2.2.1⟩

/-- C19. Bit stream I/O is most significant bit first and touches one bit: at a
cursor `(bs, o)` with `o` in `0..7` inside the buffer, `bitstream_writebit` sets
bit `7 - o` of byte `bs` (the bit of mask `0x80 >> o`) to `bit != 0` and leaves the
other bits of that byte and all other bytes as they were; `bitstream_readbit`
returns 1 if that bit is set and 0 otherwise; both move the cursor on by one bit,
to offset 0 of the next byte after offset 7; and reading at the position just
written returns the written bit. -/
theorem bitstream_bit_io (buf : List Nat) (bs o bit : Nat) (hbs : bs < buf.length)
    (ho : o < 8) :
    0x80 >>> o = 2 ^ (7 - o) ∧
    ∃ buf1, bitstream_writebit buf bs bit o
        = some (buf1, (if o = 7 then bs + 1 else bs), (if o = 7 then 0 else o + 1)) ∧
      buf1.length = buf.length ∧
      (∀ k, k ≠ bs → buf1.getD k 0 = buf.getD k 0) ∧
      buf1.getD bs 0 < 256 ∧
      (∀ i, i < 8 → (buf1.getD bs 0).testBit i
        = if i = 7 - o then decide (bit ≠ 0) else (buf.getD bs 0).testBit i) ∧
      bitstream_readbit buf bs o
        = some ((if (buf.getD bs 0).testBit (7 - o) then 1 else 0),
            (if o = 7 then bs + 1 else bs), (if o = 7 then 0 else o + 1)) ∧
      bitstream_readbit buf1 bs o
        = some ((if bit ≠ 0 then 1 else 0),
            (if o = 7 then bs + 1 else bs), (if o = 7 then 0 else o + 1)) := by
  have hmask : 0x80 >>> o = 2 ^ (7 - o) := by
    interval_cases o <;> rfl
  have e1 : o &&& 7 = o := by rw [and_seven]; omega
  have e2 : bs + (o - o) / 8 = bs := by simp
  have hget : buf[bs]? = some buf[bs] := List.getElem?_eq_getElem hbs
  have hD : buf.getD bs 0 = buf[bs] := List.getD_eq_getElem _ _ hbs
  have hcur : ∀ (α : Type) (x : α), (if o + 1 ≥ 8 then some (x, bs + 1, o + 1 - 8)
      else some (x, bs, o + 1)) =
      some (x, (if o = 7 then bs + 1 else bs), (if o = 7 then 0 else o + 1)) := by
    intro α x
    by_cases h7 : o = 7
    · subst h7; rfl
    · rw [if_neg (by omega), if_neg h7, if_neg h7]
  refine ⟨hmask, buf.set bs (((buf[bs] &&& ((0x80 >>> o) ^^^ 0xFF)) |||
      ((((if bit ≠ 0 then 1 else 0) <<< (8 - 1)) % 256) >>> o)) % 256), ?_, ?_, ?_, ?_, ?_, ?_, ?_⟩
  · unfold bitstream_writebit
    simp only [e1, e2, hget]
    exact hcur _ _
  · exact List.length_set _ _ _
  · intro k hk
    rw [getD_set_eq, if_neg (fun hc => hk hc.1.symm)]
  · rw [getD_set_eq, if_pos ⟨rfl, hbs⟩]
    exact Nat.mod_lt _ (by norm_num)
  · intro i hi
    rw [getD_set_eq, if_pos ⟨rfl, hbs⟩, writebit_byte _ _ _ _ ho hi, hD]
  · unfold bitstream_readbit
    simp only [e1, e2, hget]
    rw [hcur, hD]
    by_cases hv : buf[bs].testBit (7 - o) = true
    · rw [if_pos ((readbit_byte _ _ ho).mpr hv), if_pos hv]
    · rw [if_neg (fun hh => hv ((readbit_byte _ _ ho).mp hh)), if_neg hv]
  · have hbs1 : bs < (buf.set bs (((buf[bs] &&& ((0x80 >>> o) ^^^ 0xFF)) |||
        ((((if bit ≠ 0 then 1 else 0) <<< (8 - 1)) % 256) >>> o)) % 256)).length := by
      rw [List.length_set]; exact hbs
    unfold bitstream_readbit
    simp only [e1, e2, List.getElem?_eq_getElem hbs1, List.getElem_set_self]
    rw [hcur]
    have hw := writebit_byte buf[bs] bit o (7 - o) ho (by omega)
    rw [if_pos rfl] at hw
    generalize ((buf[bs] &&& ((0x80 >>> o) ^^^ 0xFF)) |||
      ((((if bit ≠ 0 then 1 else 0) <<< (8 - 1)) % 256) >>> o)) % 256 = v2 at hw ⊢
    by_cases hb : bit ≠ 0
    · rw [decide_eq_true hb] at hw
      rw [if_pos ((readbit_byte _ _ ho).mpr hw), if_pos hb]
    · rw [decide_eq_false hb] at hw
      rw [if_neg hb, if_neg (fun hh => by
        have := (readbit_byte _ _ ho).mp hh
        rw [hw] at this
        exact Bool.noConfusion this)]

/-- Witness of C19: writing a 1 at bit offset 3 of the second byte of `[0, 255, 7]`. -/
theorem bitstream_bit_io_witness :
    1 < [0, 255, 7].length ∧ 3 < 8 ∧
    ∃ buf1, bitstream_writebit [0, 255, 7] 1 1 3 = some (buf1, 1, 4) ∧
      bitstream_readbit buf1 1 3 = some (1, 1, 4) := by
  obtain ⟨_, buf1, hw, _, _, _, _, _, hr⟩ :=
    bitstream_bit_io [0, 255, 7] 1 3 1 (by decide) (by decide)
  exact ⟨by decide, by decide, buf1, hw, hr⟩

/-! ## Pool and queue capacity -/

theorem huffnode_push_loop_length (node : huffnode) :
    ∀ (fuel : Nat) (q : List huffnode) (i : Nat),
      (huffnode_push_loop fuel q node i).1.length = q.length := by
  intro fuel
  induction fuel with
  | zero => intro q i; rfl
  | succ fuel ih =>
    intro q i
    unfold huffnode_push_loop
    dsimp only
    split
    · rw [ih, pqset_length]
    · rfl

theorem huffnode_pop_loop_length :
    ∀ (fuel : Nat) (q : List huffnode) (m i : Nat),
      (huffnode_pop_loop fuel q m i).1.length = q.length := by
  intro fuel
  induction fuel with
  | zero => intro q m i; rfl
  | succ fuel ih =>
    intro q m i
    unfold huffnode_pop_loop
    dsimp only
    split
    · generalize (if i * 2 + 1 < m ∧ (pqget q (i * 2 + 1)).weight < (pqget q (i * 2)).weight
        then i * 2 + 1 else i * 2) = l1
      split
      · rfl
      · rw [ih, pqset_length]
    · rfl

theorem huffnode_push_count (ctx : huffcontext) (node : huffnode) :
    (huffnode_push ctx node).qend = ctx.qend + 1 ∧
    (huffnode_push ctx node).queue.length = ctx.queue.length ∧
    (huffnode_push ctx node).nodes = ctx.nodes := by
  unfold huffnode_push
  dsimp only
  exact ⟨rfl, by rw [pqset_length, huffnode_push_loop_length], rfl⟩

theorem huffnode_pop_count (ctx : huffcontext) (h : 2 ≤ ctx.qend) :
    (huffnode_pop ctx).1.qend = ctx.qend - 1 ∧
    (huffnode_pop ctx).1.queue.length = ctx.queue.length ∧
    (huffnode_pop ctx).1.nodes = ctx.nodes := by
  unfold huffnode_pop
  dsimp only
  rw [if_neg (by omega)]
  exact ⟨rfl, by rw [pqset_length, huffnode_pop_loop_length], rfl⟩

/-- One round of the merge loop is `rebuild_merge 1`, and `j + 1` rounds are `j`
rounds followed by one. -/
theorem rebuild_merge_succ (lfirst : Bool) :
    ∀ (j : Nat) (ctx : huffcontext),
      rebuild_merge (j + 1) lfirst ctx = rebuild_merge 1 lfirst (rebuild_merge j lfirst ctx) := by
  intro j
  induction j with
  | zero => intro ctx; rfl
  | succ j ih =>
    intro ctx
    by_cases hq : ctx.qend > 2
    · have e1 : ∀ k, rebuild_merge (k + 1) lfirst ctx = rebuild_merge k lfirst
          (huffnode_push
            (if lfirst then huffnode_new (huffnode_pop (huffnode_pop ctx).1).1 0 0
                (huffnode_pop ctx).2 (huffnode_pop (huffnode_pop ctx).1).2
              else huffnode_new (huffnode_pop (huffnode_pop ctx).1).1 0 0
                (huffnode_pop (huffnode_pop ctx).1).2 (huffnode_pop ctx).2).1
            (if lfirst then huffnode_new (huffnode_pop (huffnode_pop ctx).1).1 0 0
                (huffnode_pop ctx).2 (huffnode_pop (huffnode_pop ctx).1).2
              else huffnode_new (huffnode_pop (huffnode_pop ctx).1).1 0 0
                (huffnode_pop (huffnode_pop ctx).1).2 (huffnode_pop ctx).2).2) := by
        intro k
        conv_lhs => unfold rebuild_merge
        rw [if_pos hq]
      rw [e1 (j + 1), ih, ← e1 j]
    · have e1 : ∀ k, rebuild_merge (k + 1) lfirst ctx = ctx := by
        intro k
        conv_lhs => unfold rebuild_merge
        rw [if_neg hq]
      rw [e1 (j + 1), e1 j, e1 0]

/-- One round of the merge loop on a queue of more than one entry: one entry less,
one node more. -/
theorem rebuild_merge_one (lfirst : Bool) (ctx : huffcontext) (hq : 2 < ctx.qend) :
    (rebuild_merge 1 lfirst ctx).qend = ctx.qend - 1 ∧
    (rebuild_merge 1 lfirst ctx).queue.length = ctx.queue.length ∧
    (rebuild_merge 1 lfirst ctx).nodes = ctx.nodes + 1 := by
  obtain ⟨a1, a2, a3⟩ := huffnode_pop_count ctx (by omega)
  obtain ⟨b1, b2, b3⟩ := huffnode_pop_count (huffnode_pop ctx).1 (by omega)
  unfold rebuild_merge
  rw [if_pos hq]
  dsimp only
  unfold rebuild_merge
  cases lfirst
  · simp only [Bool.false_eq_true, if_false]
    obtain ⟨c1, c2, c3, _⟩ := huffnode_new_fields (huffnode_pop (huffnode_pop ctx).1).1 0 0
      (huffnode_pop (huffnode_pop ctx).1).2 (huffnode_pop ctx).2
    obtain ⟨d1, d2, d3⟩ := huffnode_push_count
      (huffnode_new (huffnode_pop (huffnode_pop ctx).1).1 0 0
        (huffnode_pop (huffnode_pop ctx).1).2 (huffnode_pop ctx).2).1
      (huffnode_new (huffnode_pop (huffnode_pop ctx).1).1 0 0
        (huffnode_pop (huffnode_pop ctx).1).2 (huffnode_pop ctx).2).2
    rw [d1, d2, d3, c1, c2, c3, b1, b2, b3, a1, a2, a3]
    exact ⟨by omega, rfl, rfl⟩
  · simp only [if_true]
    obtain ⟨c1, c2, c3, _⟩ := huffnode_new_fields (huffnode_pop (huffnode_pop ctx).1).1 0 0
      (huffnode_pop ctx).2 (huffnode_pop (huffnode_pop ctx).1).2
    obtain ⟨d1, d2, d3⟩ := huffnode_push_count
      (huffnode_new (huffnode_pop (huffnode_pop ctx).1).1 0 0
        (huffnode_pop ctx).2 (huffnode_pop (huffnode_pop ctx).1).2).1
      (huffnode_new (huffnode_pop (huffnode_pop ctx).1).1 0 0
        (huffnode_pop ctx).2 (huffnode_pop (huffnode_pop ctx).1).2).2
    rw [d1, d2, d3, c1, c2, c3, b1, b2, b3, a1, a2, a3]
    exact ⟨by omega, rfl, rfl⟩

theorem rebuild_merge_stop (lfirst : Bool) (ctx : huffcontext) (hq : ctx.qend ≤ 2) (k : Nat) :
    rebuild_merge k lfirst ctx = ctx := by
  cases k with
  | zero => rfl
  | succ k =>
    unfold rebuild_merge
    rw [if_neg (by omega)]

theorem rebuild_merge_add (lfirst : Bool) (ctx : huffcontext) (j : Nat) :
    ∀ k, rebuild_merge (j + k) lfirst ctx
      = rebuild_merge k lfirst (rebuild_merge j lfirst ctx) := by
  intro k
  induction k with
  | zero => rfl
  | succ k ih =>
    rw [← Nat.add_assoc, rebuild_merge_succ, ih, ← rebuild_merge_succ]

/-- The counters after the first `k` rounds of the leaf loop. -/
theorem rebuild_leaves_count (T : List Nat) (hT : T.length = 256) (k : Nat) (hk : k ≤ 256) :
    (rebuild_leaves T k).context.qend = k + 1 ∧ (rebuild_leaves T k).context.nodes = k ∧
    (rebuild_leaves T k).context.queue.length = 256 := by
  have h := rebuild_leaf_fold { context := rebuild_ctx0, table := T } T hT k hk
  dsimp only at h
  exact ⟨h.1, h.2.2.2.2.1, h.2.1⟩

/-- The counters after the first `j` rounds of the merge loop. -/
theorem rebuild_merged_count (lfirst : Bool) (T : List Nat) (hT : T.length = 256) :
    ∀ j, j ≤ 255 →
      (rebuild_merged lfirst T j).qend = 257 - j ∧
      (rebuild_merged lfirst T j).nodes = 256 + j ∧
      (rebuild_merged lfirst T j).queue.length = 256 := by
  intro j
  induction j with
  | zero =>
    intro _
    obtain ⟨h1, h2, h3⟩ := rebuild_leaves_count T hT 256 (le_refl _)
    exact ⟨h1, h2, h3⟩
  | succ j ih =>
    intro hj
    obtain ⟨h1, h2, h3⟩ := ih (by omega)
    unfold rebuild_merged at h1 h2 h3 ⊢
    rw [rebuild_merge_succ]
    obtain ⟨g1, g2, g3⟩ := rebuild_merge_one lfirst _ (show 2 < (rebuild_merge j lfirst
      (rebuild_leaves T 256).context).qend by rw [h1]; omega)
    rw [g1, g2, g3, h1, h2, h3]
    exact ⟨by omega, by omega, rfl⟩

/-- The weight of the root is the sum of the floored table entries. -/
theorem Rebuilt.root_weight {lfirst : Bool} {T : List Nat} {h : huffman} {t : htree}
    (R : Rebuilt lfirst T h t) :
    (pqget h.context.queue 1).weight = floorsum T := by
  rw [R.root, htree.toNode_weight, R.weight_sum]
  rfl

/-- The codeword walk leaves the queue as it is, also with the writes behind the
codeword dropped. -/
theorem build_codes_drop_queue (n : huffnode) :
    ∀ (ctx : huffcontext) (code : List Nat) (bitlen : Nat),
      (build_codes_drop ctx n code bitlen).queue = ctx.queue := by
  induction n with
  | null => intro ctx code bitlen; rfl
  | mk w s l r ihl ihr =>
    intro ctx code bitlen
    unfold build_codes_drop
    split
    · rfl
    · dsimp only
      rw [ihr, ihl]

/-- The merge loop of `huffman_rebuild_all` on a table of 256 entries is the one of
255 rounds. -/
theorem rebuild_merge_eq_merged (lfirst : Bool) (T : List Nat) (hT : T.length = 256) :
    rebuild_merge (rebuild_leaves T 256).context.qend lfirst (rebuild_leaves T 256).context
      = rebuild_merged lfirst T 255 := by
  have hq := (rebuild_leaves_count T hT 256 (le_refl _)).1
  have h255 := (rebuild_merged_count lfirst T hT 255 (le_refl _)).1
  rw [hq, show 256 + 1 = 255 + 2 by rfl, rebuild_merge_add]
  exact rebuild_merge_stop lfirst _ (by unfold rebuild_merged at h255; rw [h255]) 2

/-- The context that the total variant of the rebuild leaves is the one after 255
rounds of the merge loop, with the codewords filled in. -/
theorem rebuild_drop_eq_merged (lfirst : Bool) (h0 : huffman) (T : List Nat)
    (hT : T.length = 256) :
    (rebuild_drop lfirst h0 (some T)).2.context =
      build_codes_drop (rebuild_merged lfirst T 255)
        (pqget (rebuild_merged lfirst T 255).queue 1) [0, 0] 0 := by
  have e := rebuild_merge_eq_merged lfirst T hT
  show (rebuild_all_drop lfirst { h0 with table := T }).2.context = _
  unfold rebuild_all_drop
  dsimp only
  rw [← e]
  rfl

/-- After the 255 merge rounds the one entry of the queue is a root whose weight
is the sum of the floored table entries. -/
theorem rebuild_merged_root (lfirst : Bool) (T : List Nat) (hT : validTable T) :
    (pqget (rebuild_merged lfirst T 255).queue 1).weight = floorsum T := by
  obtain ⟨_, t, R⟩ := rebuild_drop_rebuilt lfirst huffman.fresh T hT
  have hw := R.root_weight
  rw [rebuild_drop_eq_merged lfirst huffman.fresh T hT.1, build_codes_drop_queue] at hw
  exact hw

/-- A handle that `huffman_rebuild` returns holds the context that
`huffnode_build_codes` makes of the one after 255 rounds of the merge loop. -/
theorem huffman_rebuild_eq_merged (lfirst : Bool) (h0 : huffman) (T : List Nat)
    (ret : Int) (hu : huffman) (hT : T.length = 256)
    (hreb : huffman_rebuild lfirst h0 (some T) = some (ret, hu)) :
    huffnode_build_codes (rebuild_merged lfirst T 255)
      (pqget (rebuild_merged lfirst T 255).queue 1) [0, 0] 0 = some hu.context := by
  have e := rebuild_merge_eq_merged lfirst T hT
  rw [huffman_rebuild_some_eq] at hreb
  unfold huffman_rebuild_all at hreb
  dsimp only at hreb
  split at hreb
  · exact Option.noConfusion hreb
  · rename_i ctx3 heq
    have h2 := congrArg (fun x : Int × huffman => x.2.context) (Option.some.inj hreb)
    dsimp only at h2
    rw [← e, ← h2]
    exact heq

/-- C17 (refuted as stated). The table `table_deep` is a table of 256 unsigned 16-bit
counts on which `huffman_rebuild` does not end with a defined state: after the
merge loop `huffnode_build_codes` calls `putbit` at bit offsets from 16 on, behind
the two bytes of its codeword. So no handle exists in which 511 nodes are
allocated. -/
theorem huffman_rebuild_capacity_counterexample :
    validTable table_deep ∧
    huffman_rebuild true huffman.fresh (some table_deep) = none ∧
    ¬ ∃ (ret : Int) (hu : huffman),
      huffman_rebuild true huffman.fresh (some table_deep) = some (ret, hu) ∧
      hu.context.nodes = 511 ∧ hu.context.qend = 2 :=
  ⟨table_deep_valid, table_deep_undefined huffman.fresh, table_deep_no_handle _⟩

/-- C17 (amended). Arena and heap capacity. On every table of 256 unsigned 16-bit
counts: after `k` rounds of the leaf loop the queue holds `k` entries and `k`
nodes are allocated; after `j` rounds of the merge loop it holds `256 - j` entries
(two less between the two pops and the push of a round) and `256 + j` nodes are
allocated, so the queue never holds more than 256 entries in its 256 slots and the
merge loop ends after 255 rounds with 511 of the 512 pool nodes allocated and one
entry in the queue, the root, whose weight is the sum of the 256 floored
frequencies. `huffman_rebuild` returns a handle if that sum is less than 4181; and
every handle `hu` that it returns holds the context that `huffnode_build_codes`
makes of the one after the 255 merge rounds, with 511 nodes allocated and the root
as the one entry of the queue. -/
theorem huffman_rebuild_capacity (lfirst : Bool) (h0 : huffman) (T : List Nat)
    (hT : validTable T) :
    (∀ k, k ≤ 256 →
      (rebuild_leaves T k).context.qend = k + 1 ∧ (rebuild_leaves T k).context.nodes = k ∧
      (rebuild_leaves T k).context.queue.length = 256) ∧
    (∀ j, j ≤ 255 →
      (rebuild_merged lfirst T j).qend = 257 - j ∧
      (rebuild_merged lfirst T j).nodes = 256 + j ∧
      (rebuild_merged lfirst T j).queue.length = 256) ∧
    (∀ j, j < 255 →
      (huffnode_pop (rebuild_merged lfirst T j)).1.qend = 256 - j ∧
      (huffnode_pop (huffnode_pop (rebuild_merged lfirst T j)).1).1.qend = 255 - j ∧
      rebuild_merged lfirst T (j + 1) = rebuild_merge 1 lfirst (rebuild_merged lfirst T j)) ∧
    (pqget (rebuild_merged lfirst T 255).queue 1).weight = floorsum T ∧
    511 ≤ HUFFMAN_POOLSIZE ∧
    (floorsum T < 4181 → ∃ hu, huffman_rebuild lfirst h0 (some T) = some (0, hu)) ∧
    ∀ (ret : Int) (hu : huffman), huffman_rebuild lfirst h0 (some T) = some (ret, hu) →
      huffnode_build_codes (rebuild_merged lfirst T 255)
        (pqget (rebuild_merged lfirst T 255).queue 1) [0, 0] 0 = some hu.context ∧
      hu.context.nodes = 511 ∧
      hu.context.qend = 2 ∧
      (pqget hu.context.queue 1).weight = floorsum T := by
  refine ⟨rebuild_leaves_count T hT.1, rebuild_merged_count lfirst T hT.1, ?_,
    rebuild_merged_root lfirst T hT, by decide,
    huffman_rebuild_small lfirst h0 (some T) (some_table_length T hT), ?_⟩
  · intro j hj
    obtain ⟨h1, _, _⟩ := rebuild_merged_count lfirst T hT.1 j (by omega)
    obtain ⟨a1, _, _⟩ := huffnode_pop_count (rebuild_merged lfirst T j) (by omega)
    obtain ⟨b1, _, _⟩ :=
      huffnode_pop_count (huffnode_pop (rebuild_merged lfirst T j)).1 (by omega)
    refine ⟨by omega, by omega, ?_⟩
    unfold rebuild_merged
    exact rebuild_merge_succ lfirst j _
  · intro ret hu hreb
    obtain ⟨_, _, t, R⟩ := huffman_rebuild_some_table lfirst h0 T ret hu hT hreb
    exact ⟨huffman_rebuild_eq_merged lfirst h0 T ret hu hT.1 hreb, R.nodes, R.qend,
      R.root_weight⟩

/-- Witness of the amended C17 at the table `table_w`. -/
theorem huffman_rebuild_capacity_witness :
    validTable table_w ∧
    huffman_rebuild true huffman.fresh (some table_w) = some (0, handle_w) ∧
    handle_w.context.nodes = 511 ∧
    handle_w.context.qend = 2 ∧
    (pqget handle_w.context.queue 1).weight = floorsum table_w :=
  ⟨table_w_valid, table_w_handle.1,
   ((huffman_rebuild_capacity true huffman.fresh table_w table_w_valid).2.2.2.2.2.2 0
     handle_w table_w_handle.1).2⟩

/-! ## Absent children in decode -/

/-- A bit sequence seen from the root of a tree starts with the whole path of a
leaf, or it ends before the end of the path of a leaf. -/
theorem htree.bits_cases (v : htree) :
    ∀ B : List Bool, (∃ e ∈ v.leaves, ∃ rest, B = e.2.2 ++ rest) ∨
      (∃ e ∈ v.leaves, B.length < e.2.2.length ∧ B = e.2.2.take B.length) := by
  induction v with
  | leaf w s =>
    intro B
    exact Or.inl ⟨(s, w, []), by simp [htree.leaves], B, rfl⟩
  | node l r ihl ihr =>
    intro B
    cases B with
    | nil =>
      obtain ⟨e, he⟩ := List.exists_mem_of_length_pos
        (lt_of_le_of_lt (Nat.zero_le _) l.height_lt_leaves)
      refine Or.inr ⟨(e.1, e.2.1, false :: e.2.2), ?_, by simp, by simp⟩
      simp only [htree.leaves, List.mem_append, List.mem_map]
      exact Or.inl ⟨e, he, rfl⟩
    | cons b B =>
      cases b with
      | false =>
        rcases ihl B with ⟨e, he, rest, h⟩ | ⟨e, he, h1, h2⟩
        · refine Or.inl ⟨(e.1, e.2.1, false :: e.2.2), ?_, rest, by rw [h]; rfl⟩
          simp only [htree.leaves, List.mem_append, List.mem_map]
          exact Or.inl ⟨e, he, rfl⟩
        · refine Or.inr ⟨(e.1, e.2.1, false :: e.2.2), ?_, by simpa using h1, ?_⟩
          · simp only [htree.leaves, List.mem_append, List.mem_map]
            exact Or.inl ⟨e, he, rfl⟩
          · simp only [List.length_cons, List.take_succ_cons]
            rw [← h2]
      | true =>
        rcases ihr B with ⟨e, he, rest, h⟩ | ⟨e, he, h1, h2⟩
        · refine Or.inl ⟨(e.1, e.2.1, true :: e.2.2), ?_, rest, by rw [h]; rfl⟩
          simp only [htree.leaves, List.mem_append, List.mem_map]
          exact Or.inr ⟨e, he, rfl⟩
        · refine Or.inr ⟨(e.1, e.2.1, true :: e.2.2), ?_, by simpa using h1, ?_⟩
          · simp only [htree.leaves, List.mem_append, List.mem_map]
            exact Or.inr ⟨e, he, rfl⟩
          · simp only [List.length_cons, List.take_succ_cons]
            rw [← h2]

theorem htree.isPaths_append (l r : htree) (e : Nat × Nat × List Bool)
    (he : e ∈ (htree.node l r).leaves) (rest : List Bool) :
    (htree.node l r).isPaths (e.2.2 ++ rest) ↔ (htree.node l r).isPaths rest := by
  constructor
  · rintro ⟨ps, h1, h2⟩
    cases ps with
    | nil =>
      have hne := htree.node_path_ne_nil l r e he
      have : (e.2.2 ++ rest).length = 0 := by rw [← h2]; rfl
      rw [List.length_append] at this
      omega
    | cons p ps =>
      obtain ⟨e1, he1, hp⟩ := h1 p (List.mem_cons_self _ _)
      rw [List.flatten_cons] at h2
      have hpre : p <+: e.2.2 ∨ e.2.2 <+: p := by
        rcases Nat.le_total p.length e.2.2.length with hle | hle
        · exact Or.inl (List.prefix_of_prefix_length_le ⟨_, rfl⟩ ⟨rest, h2.symm⟩ hle)
        · exact Or.inr (List.prefix_of_prefix_length_le ⟨rest, h2.symm⟩ ⟨_, rfl⟩ hle)
      have hpe : p = e.2.2 := by
        rcases hpre with h | h
        · rw [← hp] at h ⊢
          rw [(htree.node l r).paths_prefix_free e1 he1 e he h]
        · rw [← hp] at h ⊢
          rw [(htree.node l r).paths_prefix_free e he e1 he1 h]
      rw [hpe] at h2
      exact ⟨ps, fun q hq => h1 q (List.mem_cons_of_mem _ hq), List.append_cancel_left h2⟩
  · rintro ⟨ps, h1, h2⟩
    refine ⟨e.2.2 :: ps, ?_, by rw [List.flatten_cons, h2]⟩
    intro q hq
    rcases List.mem_cons.mp hq with h | h
    · exact ⟨e, he, h.symm⟩
    · exact h1 q h

/-- The walk of `huffman_decode` from the root never steps to an absent child, and
it ends at the root exactly on the concatenations of root-to-leaf paths. -/
theorem walk_root_spec (l r : htree) :
    ∀ (n : Nat) (B : List Bool) (out : List Nat), B.length ≤ n →
      ∃ x out1, walk (htree.node l r).toNode B (htree.node l r).toNode out = (some x, out1) ∧
        (x = (htree.node l r).toNode ↔ (htree.node l r).isPaths B) := by
  intro n
  induction n with
  | zero =>
    intro B out hB
    have : B = [] := List.length_eq_zero.mp (by omega)
    subst this
    exact ⟨_, out, rfl, by simp only [true_iff]; exact ⟨[], by simp, rfl⟩⟩
  | succ n ih =>
    intro B out hB
    rcases (htree.node l r).bits_cases B with ⟨e, he, rest, h⟩ | ⟨e, he, h1, h2⟩
    · have hne := htree.node_path_ne_nil l r e he
      have hrest : rest.length ≤ n := by
        have : B.length = e.2.2.length + rest.length := by rw [h, List.length_append]
        omega
      obtain ⟨x, out1, hw, hx⟩ := ih rest (out ++ [e.1]) hrest
      have harr := arrive_path (htree.node l r).toNode (htree.node l r) e he rest out
      have hwalk : walk (htree.node l r).toNode (e.2.2 ++ rest) (htree.node l r).toNode out
          = walk (htree.node l r).toNode rest (htree.node l r).toNode (out ++ [e.1]) := harr
      refine ⟨x, out1, by rw [h, hwalk, hw], ?_⟩
      rw [hx, h, htree.isPaths_append l r e he rest]
    · by_cases hnil : B = []
      · subst hnil
        exact ⟨_, out, rfl, by simp only [true_iff]; exact ⟨[], by simp, rfl⟩⟩
      · have hpos : 1 ≤ B.length := by
          cases B with
          | nil => exact absurd rfl hnil
          | cons b B => simp
        obtain ⟨x, hw, _, hlt⟩ := walk_partial (htree.node l r).toNode (htree.node l r) e he
          B.length out h1
        rw [← h2] at hw
        refine ⟨x, out, hw, ?_⟩
        constructor
        · intro hx
          exact absurd hx (huffnode.ne_of_size_lt _ _ (hlt hpos))
        · rintro ⟨ps, g1, g2⟩
          exfalso
          cases ps with
          | nil => exact hnil g2.symm
          | cons p ps =>
            obtain ⟨e1, he1, hp⟩ := g1 p (List.mem_cons_self _ _)
            rw [List.flatten_cons] at g2
            have hpB : p <+: B := ⟨_, g2⟩
            have hBe : B <+: e.2.2 := by rw [h2]; exact List.take_prefix _ _
            have hpe := hpB.trans hBe
            rw [← hp] at hpe
            have := (htree.node l r).paths_prefix_free e1 he1 e he hpe
            have hlen := hpB.length_le
            rw [← hp, this] at hlen
            omega

/-- The nodes below the root of a tree: a node that a path reaches and that is not
a leaf has both children. -/
theorem htree.descend_children (t : htree) :
    ∀ p : List Bool, (t.toNode.descend p).isNull = false →
      (t.toNode.descend p).isLeaf = false →
      (t.toNode.descend p).left.isNull = false ∧ (t.toNode.descend p).right.isNull = false := by
  induction t with
  | leaf w s =>
    intro p hn hl
    cases p with
    | nil =>
      simp [htree.toNode, huffnode.descend, huffnode.isLeaf, huffnode.left, huffnode.right,
        huffnode.isNull] at hl
    | cons b p =>
      have hd : (htree.leaf w s).toNode.descend (b :: p) = huffnode.null := by
        cases b
        · exact huffnode.descend_null p
        · exact huffnode.descend_null p
      rw [hd] at hn
      simp [huffnode.isNull] at hn
  | node l r ihl ihr =>
    intro p hn hl
    cases p with
    | nil => exact ⟨htree.toNode_isNull l, htree.toNode_isNull r⟩
    | cons b p =>
      cases b with
      | false => exact ihl p hn hl
      | true => exact ihr p hn hl

/-- C20. Decode never meets an absent child: in every context that `huffman_rebuild`
has produced, that is in every handle `hu` that it returns for a table of 256
unsigned 16-bit counts, every node below `pq[1]` that is not a leaf has a left
and a right child; the loop of `huffman_decode` over the bits of the buffer ends at
a node, never at a `NULL` child; and `huffman_decode` returns `-1` if and only if
that node is not the root, which is the case if and only if the bits read are not
a concatenation of paths from the root to a leaf. -/
theorem huffman_decode_no_absent_child (lfirst : Bool) (h0 : huffman) (T data : List Nat)
    (b : Int) (ret : Int) (hu : huffman) (hT : validTable T)
    (hreb : huffman_rebuild lfirst h0 (some T) = some (ret, hu))
    (hb : b.toNat ≤ 8 * data.length) :
    (∀ p : List Bool,
      ((pqget hu.context.queue 1).descend p).isNull = false →
      ((pqget hu.context.queue 1).descend p).isLeaf = false →
      ((pqget hu.context.queue 1).descend p).left.isNull = false ∧
      ((pqget hu.context.queue 1).descend p).right.isNull = false) ∧
    ∃ (x : huffnode) (out : List Nat),
      huffman_decode_loop (pqget hu.context.queue 1) b.toNat data 0 0
        (pqget hu.context.queue 1) [] = some (some x, out) ∧
      (huffman_decode hu data b = some (-1, out) ↔ x ≠ pqget hu.context.queue 1) ∧
      (x = pqget hu.context.queue 1 →
        huffman_decode hu data b = some ((out.length : Int), out)) ∧
      (x ≠ pqget hu.context.queue 1 ↔
        ¬ ∃ ps : List (List Bool),
          (∀ p ∈ ps, ∃ s, ((pqget hu.context.queue 1).descend p).isLeafOf s) ∧
          ps.flatten = readbits data 0 b.toNat) := by
  obtain ⟨_, _, t, R⟩ := huffman_rebuild_some_table lfirst h0 T ret hu hT hreb
  obtain ⟨l, r, htl⟩ := R.is_node
  have hroot := R.root
  rw [htl] at hroot
  refine ⟨?_, ?_⟩
  · rw [hroot]
    exact (htree.node l r).descend_children
  · obtain ⟨x, out, hw, hx⟩ := walk_root_spec l r b.toNat (readbits data 0 b.toNat) []
      (by simp [readbits])
    have hloop := huffman_decode_loop_eq (htree.node l r).toNode b.toNat data 0 0
      (htree.node l r).toNode [] (by omega)
    simp only [Nat.mul_zero, Nat.add_zero] at hloop
    rw [hw] at hloop
    have hdec : huffman_decode hu data b =
        if x ≠ (htree.node l r).toNode then some (-1, out) else some ((out.length : Int), out) := by
      unfold huffman_decode
      dsimp only
      rw [hroot, hloop]
    rw [hroot]
    refine ⟨x, out, hloop, ?_, ?_, ?_⟩
    · rw [hdec]
      constructor
      · intro h hxe
        rw [if_neg (by simpa using hxe)] at h
        have := congrArg Prod.fst (Option.some.inj h)
        simp only at this
        omega
      · intro h
        rw [if_pos h]
    · intro h
      rw [hdec, if_neg (by simpa using h)]
    · rw [not_iff_not, hx]
      unfold htree.isPaths
      constructor
      · rintro ⟨ps, g1, g2⟩
        refine ⟨ps, ?_, g2⟩
        intro p hp
        obtain ⟨e, he, hep⟩ := g1 p hp
        refine ⟨e.1, ?_⟩
        rw [htree.descend_leaf_iff]
        exact ⟨e.2.1, by rw [← hep]; exact he⟩
      · rintro ⟨ps, g1, g2⟩
        refine ⟨ps, ?_, g2⟩
        intro p hp
        obtain ⟨s, hs⟩ := g1 p hp
        rw [htree.descend_leaf_iff] at hs
        obtain ⟨w, hw⟩ := hs
        exact ⟨(s, w, p), hw, rfl⟩

/-- Witness of C20 at the table `table_w`, the one-byte buffer `[0]` and 8 bits. -/
theorem huffman_decode_no_absent_child_witness :
    validTable table_w ∧
    huffman_rebuild true huffman.fresh (some table_w) = some (0, handle_w) ∧
    (8 : Int).toNat ≤ 8 * [0].length ∧
    ∃ (x : huffnode) (out : List Nat),
      huffman_decode_loop (pqget handle_w.context.queue 1) (8 : Int).toNat [0] 0 0
        (pqget handle_w.context.queue 1) [] = some (some x, out) ∧
      (huffman_decode handle_w [0] 8 = some (-1, out) ↔
        x ≠ pqget handle_w.context.queue 1) := by
  obtain ⟨_, x, out, h1, h2, _⟩ :=
    huffman_decode_no_absent_child true huffman.fresh table_w [0] 8 0 handle_w table_w_valid
      table_w_handle.1 (by decide)
  exact ⟨table_w_valid, table_w_handle.1, by decide, x, out, h1, h2⟩

/-! ## Optimality, monotonicity and uniform tables -/

theorem htree.perfect_paths (t : htree) :
    ∀ d, t.perfect d → ∀ e ∈ t.leaves, e.2.2.length = d := by
  induction t with
  | leaf w s =>
    intro d hd e he
    simp only [htree.leaves, List.mem_singleton] at he
    rw [he]
    exact hd.symm
  | node l r ihl ihr =>
    intro d hd e he
    obtain ⟨h1, h2, h3⟩ := hd
    simp only [htree.leaves, List.mem_append, List.mem_map] at he
    rcases he with ⟨e1, he1, rfl⟩ | ⟨e1, he1, rfl⟩
    · have := ihl _ h2 e1 he1
      simp only [List.length_cons]
      omega
    · have := ihr _ h3 e1 he1
      simp only [List.length_cons]
      omega

theorem pow_eq_cases (k m w : Nat) (hw : 1 ≤ w) :
    (2 ^ k * w = 2 ^ (k + m) * w → m = 0) ∧ (2 ^ (k + 1) * w = 2 ^ (k + m) * w → m = 1) := by
  constructor
  · intro h
    have h1 := Nat.eq_of_mul_eq_mul_right (by omega : 0 < w) h
    have h2 := Nat.pow_right_injective (le_refl 2) h1
    omega
  · intro h
    have h1 := Nat.eq_of_mul_eq_mul_right (by omega : 0 < w) h
    have h2 := Nat.pow_right_injective (le_refl 2) h1
    omega

/-- A Huffman construction on a forest of perfect trees of two neighbouring
depths, the weight doubling with the depth, ends with a perfect tree. -/
theorem Huff.uniform {lfirst : Bool} {F : Multiset htree} {t : htree} (h : Huff lfirst F t)
    (w : Nat) (hw : 1 ≤ w) :
    ∀ k m, (∀ x ∈ F, (x.perfect k ∧ x.weight = 2 ^ k * w) ∨
        (x.perfect (k + 1) ∧ x.weight = 2 ^ (k + 1) * w)) →
      (F.map htree.weight).sum = 2 ^ (k + m) * w → t.perfect (k + m) := by
  induction h with
  | single t =>
    intro k m hF hsum
    simp only [Multiset.map_singleton, Multiset.sum_singleton] at hsum
    rcases hF t (Multiset.mem_singleton_self t) with ⟨hp, hwt⟩ | ⟨hp, hwt⟩
    · rw [hwt] at hsum
      rw [(pow_eq_cases k m w hw).1 hsum]
      exact hp
    · rw [hwt] at hsum
      rw [(pow_eq_cases k m w hw).2 hsum]
      exact hp
  | step a b G t hmin1 hmin2 _ ih =>
    intro k m hF hsum
    have hA : 2 ^ (k + 1) * w = 2 * (2 ^ k * w) := by rw [pow_succ]; ring
    have hA2 : 2 ^ (k + 1 + 1) * w = 2 * (2 * (2 ^ k * w)) := by rw [pow_succ, pow_succ]; ring
    have hM : 2 ^ (k + m) * w = 2 ^ m * (2 ^ k * w) := by rw [pow_add]; ring
    have hA0 : 0 < 2 ^ k * w := Nat.mul_pos (by positivity) (by omega)
    rw [Multiset.map_cons, Multiset.map_cons, Multiset.sum_cons, Multiset.sum_cons] at hsum
    have hmw : (if lfirst then htree.node a b else htree.node b a).weight
        = a.weight + b.weight := by
      cases lfirst
      · simp only [Bool.false_eq_true, if_false, htree.weight]; omega
      · simp only [if_true, htree.weight]
    have hmp : ∀ d, a.perfect d → b.perfect d →
        (if lfirst then htree.node a b else htree.node b a).perfect (d + 1) := by
      intro d h1 h2
      cases lfirst
      · simp only [Bool.false_eq_true, if_false]
        exact ⟨by omega, h2, h1⟩
      · simp only [if_true]
        exact ⟨by omega, h1, h2⟩
    have hsum2 : ((if lfirst then htree.node a b else htree.node b a).weight +
        (G.map htree.weight).sum) = 2 ^ (k + m) * w := by
      rw [hmw]; omega
    have hFa := hF a (Multiset.mem_cons_self _ _)
    have hFb := hF b (Multiset.mem_cons_of_mem (Multiset.mem_cons_self _ _))
    have hFG : ∀ x ∈ G, (x.perfect k ∧ x.weight = 2 ^ k * w) ∨
        (x.perfect (k + 1) ∧ x.weight = 2 ^ (k + 1) * w) :=
      fun x hx => hF x (Multiset.mem_cons_of_mem (Multiset.mem_cons_of_mem hx))
    rcases hFa with ⟨hpa, hwa⟩ | ⟨hpa, hwa⟩
    · rcases hFb with ⟨hpb, hwb⟩ | ⟨hpb, hwb⟩
      · -- both at depth k
        apply ih k m
        · intro x hx
          rcases Multiset.mem_cons.mp hx with h | h
          · right
            rw [h]
            exact ⟨hmp k hpa hpb, by rw [hmw, hwa, hwb, hA]; omega⟩
          · exact hFG x h
        · rw [Multiset.map_cons, Multiset.sum_cons]
          exact hsum2
      · -- the second tree is deeper: the total weight would be odd
        exfalso
        have hdvd : 2 * (2 ^ k * w) ∣ (G.map htree.weight).sum := by
          apply Multiset.dvd_sum
          intro y hy
          obtain ⟨x, hx, rfl⟩ := Multiset.mem_map.mp hy
          rcases hFG x hx with ⟨_, hwx⟩ | ⟨_, hwx⟩
          · have := hmin2 x hx
            rw [hwx, hwb, hA] at this
            omega
          · rw [hwx, hA]
        obtain ⟨c, hc⟩ := hdvd
        rw [hwa, hwb, hA, hc, hM] at hsum
        generalize 2 ^ k * w = A at hsum hA0
        have h3 : A * (3 + 2 * c) = A * 2 ^ m := by
          rw [Nat.mul_comm A (2 ^ m), ← hsum]; ring
        have h4 := Nat.eq_of_mul_eq_mul_left hA0 h3
        cases m with
        | zero => simp at h4; omega
        | succ m => rw [pow_succ] at h4; omega
    · -- the lightest tree is at depth k + 1, so all are
      have hall : ∀ x ∈ b ::ₘ G, x.perfect (k + 1) ∧ x.weight = 2 ^ (k + 1) * w := by
        intro x hx
        rcases hF x (Multiset.mem_cons_of_mem hx) with ⟨_, hwx⟩ | h
        · have := hmin1 x hx
          rw [hwx, hwa, hA] at this
          omega
        · exact h
      obtain ⟨hpb, hwb⟩ := hall b (Multiset.mem_cons_self _ _)
      have hm1 : 1 ≤ m := by
        by_contra hc
        have hm0 : m = 0 := by omega
        rw [hm0, hwa, hwb, hA] at hsum
        simp only [Nat.add_zero] at hsum
        omega
      have := ih (k + 1) (m - 1) (by
        intro x hx
        rcases Multiset.mem_cons.mp hx with h | h
        · right
          rw [h]
          exact ⟨hmp (k + 1) hpa hpb, by rw [hmw, hwa, hwb, hA2, hA]; omega⟩
        · left
          exact hall x (Multiset.mem_cons_of_mem h)) (by
        rw [Multiset.map_cons, Multiset.sum_cons, hsum2]
        congr 2
        omega)
      have e : k + 1 + (m - 1) = k + m := by omega
      rw [e] at this
      exact this

/-- On a table whose 256 entries are equal, the tree is perfect of depth 8. -/
theorem Rebuilt.uniform_perfect {lfirst : Bool} {T : List Nat} {h : huffman} {t : htree}
    (R : Rebuilt lfirst T h t) (c : Nat) (hc : ∀ i, i < 256 → T.getD i 0 = c) :
    t.perfect 8 := by
  have hfl : 1 ≤ floorw c := by unfold floorw; split <;> omega
  have := R.huff.uniform (floorw c) hfl 0 8 (by
    intro x hx
    left
    unfold leafForest at hx
    obtain ⟨i, hi, rfl⟩ := List.mem_map.mp (Multiset.mem_coe.mp hx)
    rw [hc i (List.mem_range.mp hi)]
    exact ⟨rfl, by simp [htree.weight]⟩) (by
    unfold leafForest
    rw [Multiset.map_coe, List.map_map, Multiset.sum_coe]
    have e : (List.range 256).map (htree.weight ∘ fun i => htree.leaf (floorw (T.getD i 0)) i)
        = (List.range 256).map fun _ => floorw c := by
      apply List.map_congr_left
      intro i hi
      simp only [Function.comp, htree.weight]
      rw [hc i (List.mem_range.mp hi)]
    rw [e, sum_map_const, List.length_range]
    norm_num)
  simpa using this

/-- A perfect tree of depth 8: every codeword has 8 bits. -/
theorem Rebuilt.fixed_length {lfirst : Bool} {T : List Nat} {h : huffman} {t : htree}
    (R : Rebuilt lfirst T h t) (hp : t.perfect 8) :
    (∀ s, s < 256 → (codeOf h s).bitlen = 8) ∧ h.context.minbits = 8 ∧
      h.context.maxbits = 8 := by
  have hb : ∀ s, s < 256 → (codeOf h s).bitlen = 8 := by
    intro s hs
    obtain ⟨e, he, hes⟩ := R.leaf_of_symbol s hs
    have c1 := (R.codeOf_leaf e he).1
    rw [hes] at c1
    rw [c1]
    exact t.perfect_paths 8 hp e he
  obtain ⟨s1, hs1, e1⟩ := R.minbits_attained
  obtain ⟨s2, hs2, e2⟩ := R.maxbits_attained
  exact ⟨hb, by rw [← e1, hb s1 hs1], by rw [← e2, hb s2 hs2]⟩

/-- The length of the table that a rebuild works on. -/
theorem tableOf_length (table : Option (List Nat)) (hT : ∀ T, table = some T → validTable T) :
    (∀ T, table = some T → T.length = 256) ∧ (tableOf table).length = 256 := by
  cases table with
  | none => exact ⟨fun _ h => Option.noConfusion h, List.length_replicate _ _⟩
  | some T => exact ⟨some_table_length T (hT T rfl), (hT T rfl).1⟩

/-- C3 (refuted as stated). The table `table_deep` is a table of 256 unsigned 16-bit
counts for which `huffman_rebuild` has no defined result: an optimal code for it
needs a codeword of 27 bits for byte 0 (the length that the walk records when the
writes behind the codeword are dropped), and `huffnode_build_codes` calls `putbit`
at bit offsets from 16 on, behind the two bytes of its codeword. So no bit lengths
are assigned that could be optimal. -/
theorem huffman_rebuild_optimal_counterexample :
    validTable table_deep ∧
    huffman_rebuild true huffman.fresh (some table_deep) = none ∧
    (codeOf (rebuild_drop true huffman.fresh (some table_deep)).2 0).bitlen = 27 ∧
    ¬ ∃ (ret : Int) (hu : huffman),
      huffman_rebuild true huffman.fresh (some table_deep) = some (ret, hu) ∧
      ∀ l : Nat → Nat, ∑ s ∈ Finset.range 256, (1 / 2 : ℚ) ^ l s ≤ 1 →
        ∑ s ∈ Finset.range 256, max (table_deep.getD s 0) 1 * (codeOf hu s).bitlen
        ≤ ∑ s ∈ Finset.range 256, max (table_deep.getD s 0) 1 * l s :=
  ⟨table_deep_valid, table_deep_undefined huffman.fresh, (table_deep_bitlen huffman.fresh).1,
   table_deep_no_handle _⟩

/-- C3 (amended). Optimality, where the rebuild is defined. For every table `T` of
256 unsigned 16-bit counts, with `w s = max (T[s]) 1`, `huffman_rebuild` returns a
handle if the weights sum to less than 4181; and in every handle `hu` that it
returns, the bit lengths have Kraft sum 1 and minimise the weighted code length:
for every assignment `l` of lengths to the 256 byte values that satisfies the
Kraft inequality, the sum of `w s * bitlen s` is at most the sum of `w s * l s`. -/
theorem huffman_rebuild_optimal (lfirst : Bool) (h0 : huffman) (T : List Nat)
    (hT : validTable T) :
    (floorsum T < 4181 → ∃ hu, huffman_rebuild lfirst h0 (some T) = some (0, hu)) ∧
    ∀ (ret : Int) (hu : huffman), huffman_rebuild lfirst h0 (some T) = some (ret, hu) →
      ∑ s ∈ Finset.range 256, (1 / 2 : ℚ) ^ (codeOf hu s).bitlen = 1 ∧
      ∀ l : Nat → Nat, ∑ s ∈ Finset.range 256, (1 / 2 : ℚ) ^ l s ≤ 1 →
        ∑ s ∈ Finset.range 256, max (T.getD s 0) 1 * (codeOf hu s).bitlen
        ≤ ∑ s ∈ Finset.range 256, max (T.getD s 0) 1 * l s := by
  refine ⟨huffman_rebuild_small lfirst h0 (some T) (some_table_length T hT), ?_⟩
  intro ret hu hreb
  obtain ⟨_, _, t, R⟩ := huffman_rebuild_some_table lfirst h0 T ret hu hT hreb
  exact ⟨R.kraft_table, fun l hl => R.optimal l hl⟩

/-- Witness of the amended C3 at the table `table_w`, against the fixed-length code
of 8 bits. -/
theorem huffman_rebuild_optimal_witness :
    validTable table_w ∧
    huffman_rebuild true huffman.fresh (some table_w) = some (0, handle_w) ∧
    ∑ _s ∈ Finset.range 256, (1 / 2 : ℚ) ^ 8 ≤ 1 ∧
    ∑ s ∈ Finset.range 256, max (table_w.getD s 0) 1 * (codeOf handle_w s).bitlen
      ≤ ∑ s ∈ Finset.range 256, max (table_w.getD s 0) 1 * 8 := by
  have hk : ∑ _s ∈ Finset.range 256, (1 / 2 : ℚ) ^ 8 ≤ 1 := by
    simp only [Finset.sum_const, Finset.card_range]
    norm_num
  exact ⟨table_w_valid, table_w_handle.1, hk,
    ((huffman_rebuild_optimal true huffman.fresh table_w table_w_valid).2 0 handle_w
      table_w_handle.1).2 (fun _ => 8) hk⟩

/-- C4 (refuted as stated). The table `table_deep` is a table of 256 unsigned 16-bit
counts for which `huffman_rebuild` has no defined result: `huffnode_build_codes`
calls `putbit` at bit offsets from 16 on, behind the two bytes of its codeword. So
no codeword table exists in which every symbol has a bit length above 0. -/
theorem huffman_floor_invariant_counterexample :
    validTable table_deep ∧
    huffman_rebuild true huffman.fresh (some table_deep) = none ∧
    ¬ ∃ (ret : Int) (hu : huffman),
      huffman_rebuild true huffman.fresh (some table_deep) = some (ret, hu) ∧
      (∀ s, s < 256 → 0 < (codeOf hu s).bitlen) ∧ ∀ x ∈ hu.table, 1 ≤ x :=
  ⟨table_deep_valid, table_deep_undefined huffman.fresh, table_deep_no_handle _⟩

/-- C4 (amended). Floor invariant, where the rebuild is defined. For every table of
256 unsigned 16-bit counts, and for a null table (`none`, treated as all zeros),
`huffman_rebuild` returns a handle if the floored counts sum to less than 4181, as
they do for the null table; and in every handle `hu` that it returns, every symbol
`0..255` has a codeword of bit length `> 0` in the codeword table, and the table
copy stored in the handle has 256 entries, every one `≥ 1`. -/
theorem huffman_floor_invariant (lfirst : Bool) (h0 : huffman) (table : Option (List Nat))
    (hT : ∀ T, table = some T → validTable T) :
    (floorsum (tableOf table) < 4181 →
      ∃ hu, huffman_rebuild lfirst h0 table = some (0, hu)) ∧
    (table = none → ∃ hu, huffman_rebuild lfirst h0 table = some (0, hu)) ∧
    ∀ (ret : Int) (hu : huffman), huffman_rebuild lfirst h0 table = some (ret, hu) →
      (∀ s, s < 256 → 0 < (codeOf hu s).bitlen) ∧
      hu.table.length = 256 ∧
      ∀ x ∈ hu.table, 1 ≤ x := by
  obtain ⟨hl, hl2⟩ := tableOf_length table hT
  refine ⟨huffman_rebuild_small lfirst h0 table hl, ?_, ?_⟩
  · intro hn
    apply huffman_rebuild_small lfirst h0 table hl
    rw [hn]
    show floorsum (List.replicate 256 0) < 4181
    rw [floorsum_null]
    decide
  · intro ret hu hreb
    obtain ⟨_, _, _, t, R⟩ := huffman_rebuild_some lfirst h0 table ret hu hl hreb
    exact ⟨fun s hs => R.bitlen_pos s hs, R.table_ge_one hl2⟩

/-- Witness of the amended C4 at the null table. -/
theorem huffman_floor_invariant_witness :
    (∀ T, (none : Option (List Nat)) = some T → validTable T) ∧
    ∃ hu, huffman_rebuild true huffman.fresh none = some (0, hu) ∧
      (∀ s, s < 256 → 0 < (codeOf hu s).bitlen) ∧
      hu.table.length = 256 ∧
      ∀ x ∈ hu.table, 1 ≤ x := by
  have hT : ∀ T, (none : Option (List Nat)) = some T → validTable T :=
    fun _ h => Option.noConfusion h
  obtain ⟨hu, hreb⟩ := (huffman_floor_invariant true huffman.fresh none hT).2.1 rfl
  exact ⟨hT, hu, hreb, (huffman_floor_invariant true huffman.fresh none hT).2.2 0 hu hreb⟩

/-- C11 (refuted as stated). The table `table_deep` is a table of 256 unsigned 16-bit
counts for which `huffman_rebuild` has no defined result: `huffnode_build_codes`
calls `putbit` at bit offsets from 16 on, behind the two bytes of its codeword. So
no bit lengths are recorded that could be compared, here for the bytes 1 and 0
with the counts 2 and 1. -/
theorem huffman_frequent_not_longer_counterexample :
    validTable table_deep ∧
    max (table_deep.getD 0 0) 1 < max (table_deep.getD 1 0) 1 ∧
    huffman_rebuild true huffman.fresh (some table_deep) = none ∧
    ¬ ∃ (ret : Int) (hu : huffman),
      huffman_rebuild true huffman.fresh (some table_deep) = some (ret, hu) ∧
      (codeOf hu 1).bitlen ≤ (codeOf hu 0).bitlen :=
  ⟨table_deep_valid, by decide, table_deep_undefined huffman.fresh, table_deep_no_handle _⟩

/-- C11 (amended). More frequent symbols never get longer codes, where the rebuild
is defined. For every table `T` of 256 unsigned 16-bit counts, `huffman_rebuild`
returns a handle if the floored counts sum to less than 4181; and in every handle
`hu` that it returns, for symbols `a`, `b` with `max (T[a]) 1 > max (T[b]) 1` the
bit length of `a` is at most the bit length of `b`. -/
theorem huffman_frequent_not_longer (lfirst : Bool) (h0 : huffman) (T : List Nat)
    (hT : validTable T) :
    (floorsum T < 4181 → ∃ hu, huffman_rebuild lfirst h0 (some T) = some (0, hu)) ∧
    ∀ (ret : Int) (hu : huffman), huffman_rebuild lfirst h0 (some T) = some (ret, hu) →
      ∀ a b, a < 256 → b < 256 → max (T.getD b 0) 1 < max (T.getD a 0) 1 →
        (codeOf hu a).bitlen ≤ (codeOf hu b).bitlen := by
  refine ⟨huffman_rebuild_small lfirst h0 (some T) (some_table_length T hT), ?_⟩
  intro ret hu hreb a b ha hb hw
  obtain ⟨_, _, t, R⟩ := huffman_rebuild_some_table lfirst h0 T ret hu hT hreb
  exact R.monotone a b ha hb hw

theorem text_abc_table (b : Nat) (hb : b < 256) :
    (huffman_table (List.replicate 256 0) text_abc).getD b 0 = text_abc.count b := by
  have h := huffman_table_no_overflow_getD (List.replicate 256 0) text_abc zero_table_valid.2
    (by
      intro c _
      have := List.count_le_length c text_abc
      rw [zero_table_getD]
      have hl : text_abc.length = 11 := rfl
      omega) b (by rw [List.length_replicate]; exact hb)
  rw [h, zero_table_getD, Nat.zero_add]

set_option maxRecDepth 100000 in
theorem text_abc_sum :
    ((List.range 256).map fun i => floorw (text_abc.count i)).sum = 264 := by
  decide!

/-- The floored counts of the table tabulated from `AAAAAABBBCC` sum to 264. -/
theorem text_abc_floorsum : floorsum (huffman_table (List.replicate 256 0) text_abc) = 264 := by
  unfold floorsum
  have e : ((List.range 256).map fun i =>
        floorw ((huffman_table (List.replicate 256 0) text_abc).getD i 0))
      = (List.range 256).map fun i => floorw (text_abc.count i) := by
    apply List.map_congr_left
    intro i hi
    rw [text_abc_table i (List.mem_range.mp hi)]
  rw [e]
  exact text_abc_sum

/-- Witness of the amended C11: for the table tabulated from `AAAAAABBBCC` (A 6
times, B 3 times, C twice) the rebuild returns a handle, and in it the codeword of
`A` is not longer than those of `B` and of `C`. -/
theorem huffman_frequent_not_longer_witness :
    validTable (huffman_table (List.replicate 256 0) text_abc) ∧
    (huffman_table (List.replicate 256 0) text_abc).getD 65 0 = 6 ∧
    (huffman_table (List.replicate 256 0) text_abc).getD 66 0 = 3 ∧
    (huffman_table (List.replicate 256 0) text_abc).getD 67 0 = 2 ∧
    ∃ hu, huffman_rebuild true huffman.fresh
        (some (huffman_table (List.replicate 256 0) text_abc)) = some (0, hu) ∧
      (codeOf hu 65).bitlen ≤ (codeOf hu 66).bitlen ∧
      (codeOf hu 65).bitlen ≤ (codeOf hu 67).bitlen := by
  have hv := huffman_table_valid (List.replicate 256 0) text_abc zero_table_valid
  have hA : (huffman_table (List.replicate 256 0) text_abc).getD 65 0 = 6 := by
    rw [text_abc_table 65 (by decide)]; decide
  have hB : (huffman_table (List.replicate 256 0) text_abc).getD 66 0 = 3 := by
    rw [text_abc_table 66 (by decide)]; decide
  have hC : (huffman_table (List.replicate 256 0) text_abc).getD 67 0 = 2 := by
    rw [text_abc_table 67 (by decide)]; decide
  obtain ⟨hu, hreb⟩ := (huffman_frequent_not_longer true huffman.fresh _ hv).1
    (by rw [text_abc_floorsum]; decide)
  exact ⟨hv, hA, hB, hC, hu, hreb,
    (huffman_frequent_not_longer true huffman.fresh _ hv).2 0 hu hreb 65 66 (by decide)
      (by decide) (by rw [hA, hB]; decide),
    (huffman_frequent_not_longer true huffman.fresh _ hv).2 0 hu hreb 65 67 (by decide)
      (by decide) (by rw [hA, hC]; decide)⟩

/-- C16. Uniform table gives a fixed-length code: for a table of 256 equal counts,
and for the null table, `huffman_rebuild` returns 0 and a handle in which every
symbol has a codeword of exactly 8 bits, and `minbits = maxbits = 8`. -/
theorem huffman_uniform_fixed_length (lfirst : Bool) (h0 : huffman) (table : Option (List Nat))
    (hT : ∀ T, table = some T → validTable T ∧ ∃ c, ∀ i, i < 256 → T.getD i 0 = c) :
    ∃ hu, huffman_rebuild lfirst h0 table = some (0, hu) ∧
      (∀ s, s < 256 → (codeOf hu s).bitlen = 8) ∧
      hu.context.minbits = 8 ∧ hu.context.maxbits = 8 := by
  have hl : ∀ T, table = some T → T.length = 256 := fun T h => (hT T h).1.1
  have hc : ∃ c, ∀ i, i < 256 → (tableOf table).getD i 0 = c := by
    cases table with
    | none => exact ⟨0, fun i _ => zero_table_getD i⟩
    | some T => exact (hT T rfl).2
  obtain ⟨c, hc⟩ := hc
  obtain ⟨_, t, R, _⟩ := rebuild_drop_spec lfirst h0 table hl
  have hf := R.fixed_length (R.uniform_perfect c hc)
  exact ⟨_, huffman_rebuild_defined lfirst h0 table hl (by rw [hf.2.2]; decide), hf⟩

/-- Witness of C16 at the all-zero table. -/
theorem huffman_uniform_fixed_length_witness :
    (∀ T, some (List.replicate 256 0) = some T →
      validTable T ∧ ∃ c, ∀ i, i < 256 → T.getD i 0 = c) ∧
    ∃ hu, huffman_rebuild true huffman.fresh (some (List.replicate 256 0)) = some (0, hu) ∧
      (∀ s, s < 256 → (codeOf hu s).bitlen = 8) ∧
      hu.context.minbits = 8 ∧ hu.context.maxbits = 8 := by
  have hT : ∀ T, some (List.replicate 256 0) = some T →
      validTable T ∧ ∃ c, ∀ i, i < 256 → T.getD i 0 = c := by
    intro T hTe
    rw [← Option.some.inj hTe]
    exact ⟨zero_table_valid, 0, fun i _ => zero_table_getD i⟩
  exact ⟨hT, huffman_uniform_fixed_length true huffman.fresh (some (List.replicate 256 0)) hT⟩

end Huffman
